import Mathlib

/-!
The annotation parser of mailc (`internal/parser/parser.go`).

A shallow embedding of `ParseFile` and `inferSimpleVariables`, together with the
pieces of the Go standard library they rest on (`bufio.Scanner` with the default
line splitter, `strings.TrimSpace`, the three regular expressions of the parser
under Go's leftmost-first matching, and map iteration in an unspecified order).

Go strings are modelled as lists of characters (`Str`).
-/

namespace Mailc

/-- Go strings, as sequences of characters. -/
abbrev Str := List Char

/-! ## Go standard library -/

/-- Number of bytes of the UTF-8 encoding of a string (Go's `len`). -/
def byteLen (s : Str) : Nat := (s.map Char.utf8Size).sum

/-- The function `unicode.IsSpace`: the Latin-1 cases are listed in its source, the
others are the `White_Space` property of Unicode. -/
def unicodeIsSpace (r : Char) : Bool :=
  let n := r.toNat
  if n ≤ 0xFF then
    n == 0x09 || n == 0x0A || n == 0x0B || n == 0x0C || n == 0x0D || n == 0x20
      || n == 0x85 || n == 0xA0
  else
    n == 0x1680 || (0x2000 ≤ n && n ≤ 0x200A) || n == 0x2028 || n == 0x2029
      || n == 0x202F || n == 0x205F || n == 0x3000

/-- The function `strings.TrimSpace`: the string without its leading and trailing
white space. -/
def TrimSpace (s : Str) : Str :=
  ((s.dropWhile unicodeIsSpace).reverse.dropWhile unicodeIsSpace).reverse

/-- The function `unicode.ToUpper`. Its source handles ASCII in place, as here; other
characters go through the Unicode case tables, which are not reproduced: they are
left unchanged. Every name the parser passes to `UpperFirst` is ASCII, because it
was captured by a character class of ASCII letters, digits, `_` and `.`. -/
def unicodeToUpper (r : Char) : Char :=
  if r.toNat ≤ 0x7F then
    if 'a'.toNat ≤ r.toNat ∧ r.toNat ≤ 'z'.toNat then Char.ofNat (r.toNat - 32) else r
  else r

/-- The function `strings.Contains` for a one-character substring. -/
def Contains (s : Str) (c : Char) : Bool := s.any (· == c)

/-- The call `strings.SplitN(s, ".", 2)` on a string that contains a dot: the text
before the first dot and the text after it. -/
def SplitN2 : Str → Str × Str
  | [] => ([], [])
  | c :: cs => if c = '.' then ([], cs) else ((SplitN2 cs).1.cons c, (SplitN2 cs).2)

/-! ### `bufio.Scanner` with `bufio.ScanLines` -/

/-- Default token limit of `bufio.Scanner`: `bufio.MaxScanTokenSize`. -/
def MaxScanTokenSize : Nat := 64 * 1024

/-- The pieces of a text between its newline characters. -/
def splitNL : Str → List Str
  | [] => [[]]
  | c :: cs =>
    if c = '\n' then [] :: splitNL cs
    else match splitNL cs with
      | [] => [[c]]
      | l :: ls => (c :: l) :: ls

/-- The raw tokens of `bufio.ScanLines`: the pieces between newlines, where a final
empty piece (text ending in a newline, or empty text) is no token. -/
def rawLines (data : Str) : List Str :=
  let ps := splitNL data
  if ps.getLast? = some [] then ps.dropLast else ps

/-- The helper `dropCR` of `bufio`: drops one trailing carriage return. -/
def dropCR (l : Str) : Str :=
  if l.getLast? = some '\r' then l.dropLast else l

/-- Errors of the scanner. -/
inductive ScanError
  | ErrTooLong
deriving DecidableEq, Repr

/-- All the lines a `bufio.Scanner` yields over `data`, or `ErrTooLong` when some line
does not fit, with its newline, into the buffer of `MaxScanTokenSize` bytes. -/
def scanLines (data : Str) : Except ScanError (List Str) :=
  if (rawLines data).any (fun l => decide (MaxScanTokenSize ≤ byteLen l)) then
    .error .ErrTooLong
  else .ok ((rawLines data).map dropCR)

/-! ### Regular expressions (leftmost-first matching) -/

/-- The pieces the parser's regular expressions are built from. -/
inductive Tok
  /-- One given character. -/
  | lit (c : Char)
  /-- One character of a class. -/
  | one (p : Char → Bool)
  /-- Greedy `*` over a class. -/
  | star (p : Char → Bool)
  /-- Non-greedy `*?` over a class. -/
  | lazyStar (p : Char → Bool)
  /-- Greedy `?` over one character. -/
  | opt (c : Char)
  /-- Start or end of a capture group. -/
  | mark

/-- A regular expression: a sequence of pieces. -/
abbrev Regex := List Tok

/-- Greedy repetition: as many characters of `p` as possible, then fewer, until the
rest of the expression `k` matches. -/
def starG {R : Type} (p : Char → Bool) (k : Str → Option R) : Str → Option R
  | [] => k []
  | c :: cs =>
    if p c then
      match starG p k cs with
      | some r => some r
      | none => k (c :: cs)
    else k (c :: cs)

/-- Non-greedy repetition: as few characters of `p` as possible. -/
def starL {R : Type} (p : Char → Bool) (k : Str → Option R) : Str → Option R
  | [] => k []
  | c :: cs =>
    match k (c :: cs) with
    | some r => some r
    | none => if p c then starL p k cs else none

/-- Matches a regular expression at the start of a string, trying the alternatives in
the order of a backtracking matcher. The result lists the rest of the input at every
capture-group boundary, then the rest of the input after the match. -/
def matchAt : Regex → Str → Option (List Str)
  | [] => fun s => some [s]
  | Tok.lit c :: r => fun s =>
    match s with
    | x :: xs => if x = c then matchAt r xs else none
    | [] => none
  | Tok.one p :: r => fun s =>
    match s with
    | x :: xs => if p x then matchAt r xs else none
    | [] => none
  | Tok.star p :: r => starG p (matchAt r)
  | Tok.lazyStar p :: r => starL p (matchAt r)
  | Tok.opt c :: r => fun s =>
    match s with
    | x :: xs =>
      if x = c then
        match matchAt r xs with
        | some m => some m
        | none => matchAt r s
      else matchAt r s
    | [] => matchAt r []
  | Tok.mark :: r => fun s => (matchAt r s).map (fun m => s :: m)

/-- The text between two positions of the input, each given by the rest of the input
from there on. -/
def between (a b : Str) : Str := a.take (a.length - b.length)

/-- The texts of the capture groups, from the positions of their boundaries. -/
def groups : List Str → List Str
  | o :: c :: rest => between o c :: groups rest
  | _ => []

/-- The submatches `m[0], m[1], ...` of a match that starts at `start`. -/
def submatches (start : Str) (marks : List Str) : List Str :=
  between start (marks.getLastD []) :: groups marks

/-- The leftmost position at which the expression matches: the input from there on,
and the match. -/
def search (re : Regex) : Str → Option (Str × List Str)
  | [] => (matchAt re []).map (fun m => ([], m))
  | c :: cs =>
    match matchAt re (c :: cs) with
    | some m => some (c :: cs, m)
    | none => search re cs

/-- The method `FindStringSubmatch`: the submatches of the leftmost match, or the empty
slice when there is none. -/
def FindStringSubmatch (re : Regex) (s : Str) : List Str :=
  match search re s with
  | some (start, m) => submatches start m
  | none => []

/-- Successive non-overlapping matches, scanning from the left; `skip` counts the
characters still covered by the previous match. -/
def findAllFrom (re : Regex) : Nat → Str → List (List Str)
  | _, [] => []
  | skip + 1, _ :: cs => findAllFrom re skip cs
  | 0, c :: cs =>
    match matchAt re (c :: cs) with
    | some m =>
      submatches (c :: cs) m :: findAllFrom re ((c :: cs).length - (m.getLastD []).length - 1) cs
    | none => findAllFrom re 0 cs

/-- The method `FindAllStringSubmatch` with `n = -1`, for an expression that matches no
empty string. -/
def FindAllStringSubmatch (re : Regex) (s : Str) : List (List Str) := findAllFrom re 0 s

/-- The class `\s` of Go regular expressions. -/
def reSpace (c : Char) : Bool := c == '\t' || c == '\n' || c == '\x0c' || c == '\r' || c == ' '

/-- The class `.`: any character but a newline. -/
def reAny (c : Char) : Bool := c != '\n'

/-- The class `[A-Za-z]`. -/
def reAlpha (c : Char) : Bool :=
  (decide ('A'.toNat ≤ c.toNat) && decide (c.toNat ≤ 'Z'.toNat))
    || (decide ('a'.toNat ≤ c.toNat) && decide (c.toNat ≤ 'z'.toNat))

/-- The class `[A-Za-z0-9_]`. -/
def reWord (c : Char) : Bool :=
  reAlpha c || (decide ('0'.toNat ≤ c.toNat) && decide (c.toNat ≤ '9'.toNat)) || c == '_'

/-- The class `[A-Za-z0-9_.]`. -/
def reName (c : Char) : Bool := reWord c || c == '.'

/-- A literal text as a regular expression. -/
def reLit (s : String) : Regex := s.toList.map Tok.lit

/-- The expression `<!--\s*\$Subject:\s*(.*?)\s*-->`. -/
def reSubject : Regex :=
  reLit "<!--" ++ [Tok.star reSpace] ++ reLit "$Subject:" ++
    [Tok.star reSpace, Tok.mark, Tok.lazyStar reAny, Tok.mark, Tok.star reSpace] ++ reLit "-->"

/-- The expression `<!--\s*@type\s+([A-Za-z0-9_.]+)\s*([A-Za-z0-9_.]*)\s*-->`. -/
def reTypeDef : Regex :=
  reLit "<!--" ++ [Tok.star reSpace] ++ reLit "@type" ++
    [Tok.one reSpace, Tok.star reSpace, Tok.mark, Tok.one reName, Tok.star reName, Tok.mark,
      Tok.star reSpace, Tok.mark, Tok.star reName, Tok.mark, Tok.star reSpace] ++ reLit "-->"

/-- The expression `\{\{\s*-?\s*([A-Za-z][A-Za-z0-9_]*)\s*-?\s*\}\}`. -/
def reSimpleVar : Regex :=
  reLit "\x7b\x7b" ++
    [Tok.star reSpace, Tok.opt '-', Tok.star reSpace, Tok.mark, Tok.one reAlpha,
      Tok.star reWord, Tok.mark, Tok.star reSpace, Tok.opt '-', Tok.star reSpace] ++
    reLit "\x7d\x7d"

/-! ### Maps -/

/-- A Go map with string keys: its entries, each key once. -/
abbrev GoMap (V : Type) := List (Str × V)

/-- The assignment `m[k] = v`. -/
def GoMap.set {V : Type} : GoMap V → Str → V → GoMap V
  | [], k, v => [(k, v)]
  | (k0, v0) :: m, k, v => if k0 = k then (k, v) :: m else (k0, v0) :: GoMap.set m k v

/-- The order in which a `range` loop visits a map is unspecified: it is some
rearrangement of the entries, here the one that a sequence of choices selects (with
no choices, the order of insertion). -/
def rangeOrder {α : Type} : List Nat → List α → List α
  | _, [] => []
  | ch, x :: xs =>
    let r := rangeOrder ch.tail xs
    r.insertIdx (ch.headD 0 % (r.length + 1)) x

/-! ## `internal/util` -/

/-- The function `UpperFirst` uppercases the first rune of the string. -/
def UpperFirst : Str → Str
  | [] => []
  | r :: rest => unicodeToUpper r :: rest

/-! ## `internal/parser` -/

structure ParsedField where
  Name : Str
  Typ : Str
deriving DecidableEq, Repr

structure ParsedStruct where
  Name : Str
  Fields : List ParsedField
deriving DecidableEq, Repr

structure ParsedType where
  Typ : Str
deriving DecidableEq, Repr

structure ParsedVariable where
  Name : Str
  Typ : Str
deriving DecidableEq, Repr

structure ParsedTemplate where
  FilePath : Str
  Subject : Str
  HTML : Str
  Structs : List ParsedStruct
  Types : List ParsedType
  Variables : List ParsedVariable
deriving DecidableEq, Repr

/-- The choices that fix the order of the three `range` loops over maps: over
`structMap` and `typeSet` in `ParseFile`, over `candidates` in `inferSimpleVariables`. -/
structure RangeOrders where
  structs : List Nat
  types : List Nat
  candidates : List Nat

/-- Adds the first submatch of every match to the set of candidates. -/
def addCandidates (cands : GoMap Unit) (ms : List (List Str)) : GoMap Unit :=
  ms.foldl (fun c m => if m.length > 1 then c.set (m.getD 1 []) () else c) cands

/-- The body of the last loop of `inferSimpleVariables`, for one candidate. -/
def inferStep (existing : GoMap Unit) (pt : ParsedTemplate) (name : Str) : ParsedTemplate :=
  if (existing.lookup name).isSome then pt
  else if pt.Structs.any (fun s => decide (UpperFirst name = s.Name)) then pt
  else
    { pt with
      Variables := pt.Variables ++ [{ Name := name, Typ := "string".toList }]
      Types := pt.Types ++ [{ Typ := "string".toList }] }

/-- The function `inferSimpleVariables`. -/
def inferSimpleVariables (ord : List Nat) (pt : ParsedTemplate) : ParsedTemplate :=
  let existing : GoMap Unit := pt.Variables.foldl (fun m v => m.set v.Name ()) []
  let candidates := addCandidates [] (FindAllStringSubmatch reSimpleVar pt.Subject)
  let candidates := addCandidates candidates (FindAllStringSubmatch reSimpleVar pt.HTML)
  ((rangeOrder ord candidates).map (·.1)).foldl (inferStep existing) pt

/-- The variables of the scanning loop of `ParseFile`. -/
structure ScanState where
  Subject : Str
  Variables : List ParsedVariable
  structMap : GoMap ParsedStruct
  typeSet : GoMap Unit
  htmlBuf : Str
deriving DecidableEq, Repr

/-- The state before the first line. -/
def ScanState.init : ScanState :=
  { Subject := [], Variables := [], structMap := [], typeSet := [], htmlBuf := [] }

/-- The get-or-create of `ParseFile`: inserts an empty struct unless the name is
already a key. -/
def ensureStruct (m : GoMap ParsedStruct) (structName : Str) : GoMap ParsedStruct :=
  if (m.lookup structName).isSome then m
  else m.set structName { Name := structName, Fields := [] }

/-- The statement `structMap[structName].Fields = append(..., f)`. -/
def appendField (m : GoMap ParsedStruct) (structName : Str) (f : ParsedField) :
    GoMap ParsedStruct :=
  match m.lookup structName with
  | some s => m.set structName { s with Fields := s.Fields ++ [f] }
  | none => m

/-- The effect of a type directive with the given name and type. -/
def typeDirective (st : ScanState) (fullName fieldType : Str) : ScanState :=
  if !Contains fullName '.' then
    if fieldType = [] then
      { st with structMap := ensureStruct st.structMap (UpperFirst fullName) }
    else
      { st with
        Variables := st.Variables ++ [{ Name := fullName, Typ := fieldType }]
        typeSet := st.typeSet.set fieldType () }
  else
    let parts := SplitN2 fullName
    let structName := UpperFirst parts.1
    let fieldName := UpperFirst parts.2
    let sm := appendField (ensureStruct st.structMap structName) structName
      { Name := fieldName, Typ := fieldType }
    { st with
      structMap := sm
      typeSet := if fieldType ≠ [] then st.typeSet.set fieldType () else st.typeSet }

/-- The body of the scanning loop of `ParseFile`, for one line. -/
def parseLine (st : ScanState) (line : Str) : ScanState :=
  let m := FindStringSubmatch reSubject line
  if m.length > 1 then { st with Subject := TrimSpace (m.getD 1 []) }
  else
    let m := FindStringSubmatch reTypeDef line
    if m.length > 0 then
      typeDirective st (TrimSpace (m.getD 1 [])) (TrimSpace (m.getD 2 []))
    else { st with htmlBuf := st.htmlBuf ++ (line ++ ['\n']) }

/-- The template after the scanning loop, before the inference of variables. -/
def collect (ord : RangeOrders) (path : Str) (st : ScanState) : ParsedTemplate :=
  { FilePath := path
    Subject := st.Subject
    HTML := st.htmlBuf
    Structs := (rangeOrder ord.structs st.structMap).map (·.2)
    Types := (rangeOrder ord.types st.typeSet).map (fun kv => { Typ := kv.1 })
    Variables := st.Variables }

/-- The errors of `ParseFile`. -/
inductive ParseError
  /-- The file could not be read: `reading file: ...`. -/
  | reading
  /-- The scanner failed: `scanning file: ...`. -/
  | scanning (e : ScanError)
deriving DecidableEq, Repr

/-- The part of `ParseFile` after the file is read and split into lines: the scanning
loop, the copy of the maps into slices, and the inference of variables. -/
def parseLines (ord : RangeOrders) (path : Str) (lines : List Str) : ParsedTemplate :=
  inferSimpleVariables ord.candidates
    (collect ord path (lines.foldl parseLine ScanState.init))

/-- The function `ParseFile`. The file system is represented by the result of
`os.ReadFile(path)`: `none` when reading fails, else the content of the file. -/
def ParseFile (ord : RangeOrders) (path : Str) (file : Option Str) :
    Except ParseError ParsedTemplate :=
  match file with
  | none => .error .reading
  | some data =>
    match scanLines data with
    | .error e => .error (.scanning e)
    | .ok lines => .ok (parseLines ord path lines)

/-! ## Vocabulary of the specification -/

/-- The lines of a text as the scanner hands them to the loop of `ParseFile`. -/
def sourceLines (data : Str) : List Str := (rawLines data).map dropCR

/-- Every line of the text is shorter than the buffer of the scanner. -/
def linesFit (data : Str) : Prop := ∀ l ∈ rawLines data, byteLen l < MaxScanTokenSize

instance (data : Str) : Decidable (linesFit data) :=
  inferInstanceAs (Decidable (∀ l ∈ rawLines data, byteLen l < MaxScanTokenSize))

/-- What the scanning loop takes a line for. -/
inductive Directive
  /-- A subject directive, with the subject it sets. -/
  | subject (text : Str)
  /-- A type directive, with its name and its type (empty when there is none). -/
  | typeDecl (fullName fieldType : Str)
  /-- An ordinary line of the body. -/
  | body
deriving DecidableEq, Repr

/-- The decisions of the loop body of `ParseFile` on one line: first the subject
pattern, then the type pattern. -/
def classify (line : Str) : Directive :=
  if (FindStringSubmatch reSubject line).length > 1 then
    .subject (TrimSpace ((FindStringSubmatch reSubject line).getD 1 []))
  else if (FindStringSubmatch reTypeDef line).length > 0 then
    .typeDecl (TrimSpace ((FindStringSubmatch reTypeDef line).getD 1 []))
      (TrimSpace ((FindStringSubmatch reTypeDef line).getD 2 []))
  else .body

/-- The line matches the subject directive pattern. -/
def matchesSubject (line : Str) : Bool := (search reSubject line).isSome

/-- The line matches the type directive pattern. -/
def matchesTypeDef (line : Str) : Bool := (search reTypeDef line).isSome

/-- The line is copied to the body: it matches neither pattern. -/
def isBodyLine (line : Str) : Bool := !matchesSubject line && !matchesTypeDef line

/-! ## Auxiliary definitions for the statements and proofs -/

/-- Removes a literal from the start of a text. -/
def stripLit : Str → Str → Option Str
  | [], s => some s
  | _ :: _, [] => none
  | c :: cs, x :: xs => if x = c then stripLit cs xs else none

/-- Number of capture-group boundaries of an expression. -/
def countMarks : Regex → Nat
  | [] => 0
  | Tok.mark :: r => countMarks r + 1
  | _ :: r => countMarks r

/-- The text before the first occurrence of `pat`, when there is one. -/
def beforeFirst (pat : Str) : Str → Option Str
  | [] => if pat = [] then some [] else none
  | c :: cs =>
    if (stripLit pat (c :: cs)).isSome then some []
    else (beforeFirst pat cs).map (fun b => c :: b)

/-- The subject as the specification words it, for a subject directive comment that
starts at the beginning of `t`: after `<!--`, white space and `$Subject:`, the text up
to the first following `-->`, trimmed of white space. -/
def specSubjectAt (t : Str) : Option Str :=
  (stripLit "<!--".toList t).bind fun r =>
    (stripLit "$Subject:".toList (r.dropWhile reSpace)).bind fun r2 =>
      (beforeFirst "-->".toList r2).map TrimSpace

/-- The subject as the specification words it, for a line: that of its first subject
directive comment, when it has one. -/
def specSubjectOf : Str → Option Str
  | [] => specSubjectAt []
  | c :: cs =>
    match specSubjectAt (c :: cs) with
    | some t => some t
    | none => specSubjectOf cs

/-- The part of `reSubject` that ends the captured text: `\s*-->`. -/
def reSubjectClose : Regex := [Tok.mark, Tok.star reSpace] ++ reLit "-->"

/-- The part of `reSubject` after `$Subject:`. -/
def reSubjectText : Regex := [Tok.star reSpace, Tok.mark, Tok.lazyStar reAny] ++ reSubjectClose

/-- The simple template of the parser's tests. -/
def simpleTemplate : Str :=
  ("<!-- $Subject: Hello \x7b\x7busername\x7d\x7d -->\n" ++
   "<html><body><p>Welcome \x7b\x7bfirstName\x7d\x7d</p></body></html>").toList

/-- The order/user template of the parser's tests. -/
def orderTemplate : Str :=
  ("<!-- $Subject: Welcome \x7b\x7bUser.Name\x7d\x7d -->\n" ++
   "<!-- @type Order -->\n" ++
   "<!-- @type Order.ID int -->\n" ++
   "<!-- @type Order.Name string -->\n" ++
   "<!-- @type Order.Qty int -->\n" ++
   "<!-- @type Order.CreatedAt string -->\n" ++
   "<!-- @type User -->\n" ++
   "<!-- @type User.Name string -->\n" ++
   "<html><body>\n" ++
   "\x7b\x7bUser.Name\x7d\x7d #\x7b\x7bOrder.ID\x7d\x7d \x7b\x7bOrder.Name\x7d\x7d x\x7b\x7bOrder.Qty\x7d\x7d \x7b\x7bOrder.CreatedAt\x7d\x7d\n" ++
   "</body></html>").toList

/-- The keys of a map, in the order of insertion. -/
def GoMap.keys {V : Type} (m : GoMap V) : List Str := m.map (·.1)

/-- The variable that a type directive with the given name and type declares: one with
that name and type, when the name has no dot and the type is not empty. -/
def declVariable (n T : Str) : Option ParsedVariable :=
  if !Contains n '.' && decide (T ≠ []) then some { Name := n, Typ := T } else none

/-- The variable a line declares. -/
def declaredVariable (l : Str) : Option ParsedVariable :=
  match classify l with
  | .typeDecl n T => declVariable n T
  | _ => none

/-- The variables the type directives of the lines declare, in source order. -/
def declaredVariables (lines : List Str) : List ParsedVariable :=
  lines.filterMap declaredVariable

/-- The struct that a type directive with the given name and type mentions:
`UpperFirst n` for a directive `@type n` without type, `UpperFirst A` for a directive
`@type A.B [T]`. -/
def declStruct (n T : Str) : Option Str :=
  if !Contains n '.' then (if T = [] then some (UpperFirst n) else none)
  else some (UpperFirst (SplitN2 n).1)

/-- The struct a line mentions. -/
def mentionedStruct (l : Str) : Option Str :=
  match classify l with
  | .typeDecl n T => declStruct n T
  | _ => none

/-- The struct names the type directives of the lines mention, in source order. -/
def mentionedStructs (lines : List Str) : List Str := lines.filterMap mentionedStruct

/-- Adds a key at the end unless it is there. -/
def addKey (ks : List Str) (k : Str) : List Str := if k ∈ ks then ks else ks ++ [k]

/-- Every struct of the map is stored under its own name. -/
def namesOK (m : GoMap ParsedStruct) : Prop := ∀ kv ∈ m, kv.2.Name = kv.1

/-- The struct stored under `k` has the field `f`. -/
def hasField (m : GoMap ParsedStruct) (k : Str) (f : ParsedField) : Prop :=
  ∃ s, m.lookup k = some s ∧ f ∈ s.Fields

/-- The test of `inferSimpleVariables` on a candidate: it is no key of `existing`, and
its upper-cased form is the name of no struct. -/
def inferable (existing : GoMap Unit) (structs : List ParsedStruct) (name : Str) : Bool :=
  !(existing.lookup name).isSome && !(structs.any (fun s => decide (UpperFirst name = s.Name)))

/-- The set `existing` of `inferSimpleVariables`. -/
def existingOf (vars : List ParsedVariable) : GoMap Unit :=
  vars.foldl (fun m v => m.set v.Name ()) []

/-- The set `candidates` of `inferSimpleVariables`. -/
def candidatesOf (subject html : Str) : GoMap Unit :=
  addCandidates (addCandidates [] (FindAllStringSubmatch reSimpleVar subject))
    (FindAllStringSubmatch reSimpleVar html)

/-- The variable that the inference adds for a name. -/
def stringVariable (name : Str) : ParsedVariable := { Name := name, Typ := "string".toList }

/-- The invite template of the parser's tests. -/
def inviteTemplate : Str :=
  ("<!-- $Subject: Use the link -->\n" ++
   "<!-- @type inviteLink string -->\n" ++
   "<html><body><a href=\"\x7b\x7binviteLink\x7d\x7d\">link</a></body></html>").toList

/-- Comparison of two names without regard to the case of ASCII letters. -/
def equalFold (a b : Str) : Bool := a.map Char.toLower == b.map Char.toLower

/-- A variable collides with a struct: its name, with the first character upper-cased,
is the name of the struct up to case. -/
def collides (v : ParsedVariable) (s : ParsedStruct) : Bool :=
  equalFold (UpperFirst v.Name) s.Name

/-- A template that declares a variable `order` next to a struct `Order`, and uses a
placeholder `item` next to a struct `ITEM`. -/
def collisionTemplate : Str :=
  ("<!-- @type order string -->\n" ++
   "<!-- @type Order -->\n" ++
   "<!-- @type ITEM -->\n" ++
   "<p>\x7b\x7bitem\x7d\x7d</p>\n").toList

/-- A template that declares the name `x` twice. -/
def twiceTemplate : Str :=
  ("<!-- @type x int -->\n" ++
   "<!-- @type x string -->\n").toList

/-- A text of one line of `MaxScanTokenSize` bytes. -/
def longLine : Str := List.replicate MaxScanTokenSize 'a'

/-- An identifier as the placeholder pattern captures it: `[A-Za-z][A-Za-z0-9_]*`. -/
def isIdent : Str → Bool
  | [] => false
  | h :: t => reAlpha h && t.all reWord

/-- White space of the patterns: only characters of the class `\s`. -/
def isBlank (w : Str) : Bool := w.all reSpace

/-- A trim marker, or none. -/
def isTrimMarker (d : Str) : Bool := decide (d = []) || decide (d = ['-'])

/-- The text of a bare placeholder: two opening braces, white space, an optional trim
marker, white space, the name, white space, an optional trim marker, white space, two
closing braces. -/
def placeholderText (w1 d1 w2 x w3 d2 w4 : Str) : Str :=
  "\x7b\x7b".toList ++ (w1 ++ (d1 ++ (w2 ++ (x ++ (w3 ++ (d2 ++ (w4 ++ "\x7d\x7d".toList)))))))

/-- The identifier `x` occurs in `txt` as a bare placeholder. -/
def barePlaceholderIn (x txt : Str) : Prop :=
  ∃ front back w1 d1 w2 w3 d2 w4 : Str,
    isBlank w1 = true ∧ isTrimMarker d1 = true ∧ isBlank w2 = true ∧ isBlank w3 = true ∧
      isTrimMarker d2 = true ∧ isBlank w4 = true ∧
      txt = front ++ (placeholderText w1 d1 w2 x w3 d2 w4 ++ back)

/-- The part `\s*-?\s*` of the placeholder pattern, before the rest `r`. -/
def reGap (r : Regex) : Regex := Tok.star reSpace :: Tok.opt '-' :: Tok.star reSpace :: r

/-- The placeholder pattern after the opening braces. -/
def reSimpleVarBody : Regex :=
  reGap (Tok.mark :: Tok.one reAlpha :: Tok.star reWord :: Tok.mark ::
    reGap (("\x7d\x7d".toList).map Tok.lit))

/-- The text of a dotted placeholder with parent `A` and the rest `B` after the dot. -/
def dottedPlaceholder (A B : Str) : Str :=
  "\x7b\x7b".toList ++ (A ++ ('.' :: (B ++ "\x7d\x7d".toList)))

/-- A name or type as the type pattern captures it: only characters of `[A-Za-z0-9_.]`. -/
def isName (n : Str) : Bool := n.all reName

/-- The text of a type directive comment: `<!--`, white space, `@type`, white space,
the name, white space, the type, white space, `-->`. -/
def typeComment (w1 w2 n w3 T w4 : Str) : Str :=
  "<!--".toList ++ (w1 ++ ("@type".toList ++ (w2 ++ (n ++ (w3 ++ (T ++ (w4 ++ "-->".toList)))))))

/-- The parts of a type directive comment are well formed: the gaps are white space,
the one after `@type` is not empty, the name is a non-empty name, the type is a name or
empty, and a type is separated from the name by white space. -/
def typeCommentOK (w1 w2 n w3 T w4 : Str) : Bool :=
  isBlank w1 && isBlank w2 && !w2.isEmpty && isName n && !n.isEmpty && isBlank w3 && isName T
    && (T.isEmpty || !w3.isEmpty) && isBlank w4

/-- The type pattern after `@type` and the white space that follows it. -/
def reTypeDefBody : Regex :=
  [Tok.mark, Tok.one reName, Tok.star reName, Tok.mark, Tok.star reSpace, Tok.mark,
    Tok.star reName, Tok.mark, Tok.star reSpace] ++ reLit "-->"

/-! ## `internal/util`: names of generated identifiers -/

/-- The functions of the Go package `unicode` that `internal/util` calls. Their tables
are not part of the repository: they are a parameter of the functions below. -/
structure UnicodeTables where
  /-- The function `unicode.IsLetter`. -/
  IsLetter : Char → Bool
  /-- The function `unicode.IsDigit`. -/
  IsDigit : Char → Bool
  /-- The function `unicode.ToUpper`. -/
  ToUpper : Char → Char
  /-- The function `unicode.ToLower`. -/
  ToLower : Char → Char

/-- The function `LowerFirst` lowercases the first rune of the string. -/
def LowerFirst (U : UnicodeTables) : Str → Str
  | [] => []
  | r :: rest => U.ToLower r :: rest

/-- The variables `words` and `current` of `MakeExportedName`. -/
structure NameWords where
  words : List Str
  current : Str
deriving DecidableEq, Repr

/-- The closure `flush` of `MakeExportedName`: ends the current word, with its first
rune in upper case. -/
def flush (U : UnicodeTables) (st : NameWords) : NameWords :=
  match st.current with
  | [] => st
  | r0 :: rest => { words := st.words ++ [U.ToUpper r0 :: rest], current := [] }

/-- The body of the loop of `MakeExportedName` over the runes of the string. -/
def nameStep (U : UnicodeTables) (st : NameWords) (r : Char) : NameWords :=
  if U.IsLetter r || U.IsDigit r then { st with current := st.current ++ [r] }
  else flush U st

/-- The function `MakeExportedName`. -/
def MakeExportedName (U : UnicodeTables) (s : Str) : Str :=
  let st := flush U (s.foldl (nameStep U) { words := [], current := [] })
  let out := st.words.flatten
  match out with
  | [] => "X".toList
  | r :: _ => if !U.IsLetter r then 'X' :: out else out

/-- An excerpt of `unicode.IsLetter`: exact on ASCII and on the CJK unified ideographs
U+4E00 to U+9FA5, which are letters without case. Other characters, whose rows of the
table are not reproduced, count as no letters here. -/
def excerptIsLetter (r : Char) : Bool :=
  reAlpha r || (decide (0x4E00 ≤ r.toNat) && decide (r.toNat ≤ 0x9FA5))

/-- An excerpt of `unicode.IsDigit`: exact on ASCII, where the digits are `0` to `9`. -/
def excerptIsDigit (r : Char) : Bool :=
  decide ('0'.toNat ≤ r.toNat) && decide (r.toNat ≤ '9'.toNat)

/-- An excerpt of `unicode.IsUpper`: exact on ASCII and on the CJK unified ideographs,
none of which is an upper case letter. -/
def excerptIsUpper (r : Char) : Bool :=
  decide ('A'.toNat ≤ r.toNat) && decide (r.toNat ≤ 'Z'.toNat)

/-- An excerpt of `unicode.ToLower`: exact on ASCII and on the CJK unified ideographs,
which it leaves unchanged. -/
def excerptToLower (r : Char) : Char :=
  if 'A'.toNat ≤ r.toNat ∧ r.toNat ≤ 'Z'.toNat then Char.ofNat (r.toNat + 32) else r

/-- The excerpt of the tables of `unicode` on which the examples are evaluated: exact on
ASCII and on the CJK unified ideographs U+4E00 to U+9FA5. -/
def excerptTables : UnicodeTables :=
  { IsLetter := excerptIsLetter, IsDigit := excerptIsDigit, ToUpper := unicodeToUpper,
    ToLower := excerptToLower }

/-- The facts about the tables of `unicode` that the properties of `MakeExportedName`
rest on: `X` is a letter in upper case, the upper case of a letter is a letter, that of
a digit is a digit, and the upper case of an upper case is itself. -/
structure UnicodeTables.Lawful (U : UnicodeTables) : Prop where
  letter_X : U.IsLetter 'X' = true
  upper_X : U.ToUpper 'X' = 'X'
  upper_letter : ∀ r, U.IsLetter r = true → U.IsLetter (U.ToUpper r) = true
  upper_digit : ∀ r, U.IsDigit r = true → U.IsDigit (U.ToUpper r) = true
  upper_upper : ∀ r, U.ToUpper (U.ToUpper r) = U.ToUpper r

/-- A letter or a digit. -/
def UnicodeTables.isAlnum (U : UnicodeTables) (r : Char) : Bool := U.IsLetter r || U.IsDigit r

/-- The pieces of a text between its separators, empty pieces included. -/
def splitChunks (isSep : Char → Bool) : Str → List Str
  | [] => [[]]
  | c :: cs =>
    if isSep c then [] :: splitChunks isSep cs
    else match splitChunks isSep cs with
      | [] => [[c]]
      | w :: ws => (c :: w) :: ws

/-- Upper-cases the first character of a chunk, and leaves an empty chunk empty. -/
def upperFirstWith (U : UnicodeTables) : Str → Str
  | [] => []
  | r :: rest => U.ToUpper r :: rest

/-- The derivation of the exported name in the words of the specification: split the
text on every character that is neither letter nor digit, upper-case the first
character of each chunk, concatenate the chunks; the result is `X` when that is empty,
and gets the letter `X` in front when it does not start with a letter. -/
def specExportedName (U : UnicodeTables) (s : Str) : Str :=
  let out := ((splitChunks (fun c => !U.isAlnum c) s).map (upperFirstWith U)).flatten
  if out = [] then "X".toList
  else if (out.head?.map U.IsLetter) = some true then out
  else 'X' :: out

/-- The concatenation that `MakeExportedName` builds before it looks at the first
character. -/
def joinedWords (U : UnicodeTables) (s : Str) : Str :=
  ((splitChunks (fun c => !U.isAlnum c) s).map (upperFirstWith U)).flatten

/-- The field that a type directive with the given name and type adds, with the name of
the struct it adds it to: for a name `A.B`, the field `UpperFirst B` of the struct
`UpperFirst A`; none for a name without dot. -/
def declField (n T : Str) : Option (Str × ParsedField) :=
  if Contains n '.' then
    some (UpperFirst (SplitN2 n).1, { Name := UpperFirst (SplitN2 n).2, Typ := T })
  else none

/-- The field a line declares, with the name of its struct. -/
def declaredField (l : Str) : Option (Str × ParsedField) :=
  match classify l with
  | .typeDecl n T => declField n T
  | _ => none

/-- The fields of a list of declarations that belong to the struct `k`, in order. -/
def fieldsIn (acc : List (Str × ParsedField)) (k : Str) : List ParsedField :=
  (acc.filter (fun p => decide (p.1 = k))).map (·.2)

/-- The fields that the dotted type directives of the lines declare for the struct `k`,
in source order and with repetitions. -/
def fieldsOf (lines : List Str) (k : Str) : List ParsedField :=
  fieldsIn (lines.filterMap declaredField) k

/-- The map of structs holds the declarations `acc`: every struct is stored under its
name with the fields declared for it, and a name that is no key has no field. -/
def holdsFields (m : GoMap ParsedStruct) (acc : List (Str × ParsedField)) : Prop :=
  (∀ k s, m.lookup k = some s → s.Name = k ∧ s.Fields = fieldsIn acc k) ∧
    ∀ k, m.lookup k = none → fieldsIn acc k = []

/-- The line is a bare directive `@type n` without type whose name, with the first
character upper-cased, is `A`. -/
def isBareDecl (A : Str) (l : Str) : Bool :=
  match classify l with
  | .typeDecl n T => !Contains n '.' && decide (T = []) && decide (UpperFirst n = A)
  | _ => false

/-- The order template of the tests with the bare declaration of `Order` moved behind
the first dotted directive, and repeated after the last one. -/
def orderTemplateMoved : Str :=
  ("<!-- $Subject: Welcome \x7b\x7bUser.Name\x7d\x7d -->\n" ++
   "<!-- @type Order.ID int -->\n" ++
   "<!-- @type Order -->\n" ++
   "<!-- @type Order.Name string -->\n" ++
   "<!-- @type Order.Qty int -->\n" ++
   "<!-- @type Order.CreatedAt string -->\n" ++
   "<!-- @type Order -->\n" ++
   "<!-- @type User -->\n" ++
   "<!-- @type User.Name string -->\n" ++
   "<html><body>\n" ++
   "\x7b\x7bUser.Name\x7d\x7d #\x7b\x7bOrder.ID\x7d\x7d \x7b\x7bOrder.Name\x7d\x7d x\x7b\x7bOrder.Qty\x7d\x7d \x7b\x7bOrder.CreatedAt\x7d\x7d\n" ++
   "</body></html>").toList

/-- The text of a subject directive comment: `<!--`, white space, `$Subject:`, the text
of the subject, `-->`. -/
def subjectComment (w t : Str) : Str :=
  "<!--".toList ++ (w ++ ("$Subject:".toList ++ (t ++ "-->".toList)))

/-- A line with text on both sides of a type directive comment. -/
def besideTemplate : Str := "<p>Hello</p><!-- @type x int --><p>Bye</p>".toList

/-! ## `internal/generator` -/

/-- Modelled from the spec: the pattern of a placeholder that `GenerateCode` rewrites.
The source of `GenerateCode` (package `internal/generator`) is not in `src/`, only its
test is. The pattern is that of the inference pass, with dotted names admitted and with
groups around the gaps: `\{\{(\s*-?\s*)([A-Za-z][A-Za-z0-9_.]*)(\s*-?\s*)\}\}`. -/
def rePlaceholderRef : Regex :=
  ("\x7b\x7b".toList).map Tok.lit ++
    (Tok.mark :: reGap (Tok.mark :: Tok.mark :: Tok.one reAlpha :: Tok.star reName ::
      Tok.mark :: Tok.mark :: reGap (Tok.mark :: ("\x7d\x7d".toList).map Tok.lit)))

/-- Modelled from the spec: the re-casing of the name of a placeholder by the absent
`GenerateCode`, "upper-cased first character" so that it names the generated field; in
a dotted name every segment names a field and is re-cased. -/
def recaseName (n : Str) : Str :=
  ['.'].intercalate ((splitChunks (fun c => c == '.') n).map UpperFirst)

/-- Modelled from the spec: the normalized reference that the absent `GenerateCode`
writes for a placeholder, "addressed relative to the data value" and "preserving any
leading/trailing trim markers": two opening braces, the leading trim marker if there is
one, a blank, a dot, the re-cased name, a blank and the trailing trim marker if there is
one, two closing braces. -/
def normalizedRef (lead name trail : Str) : Str :=
  "\x7b\x7b".toList ++ ((if Contains lead '-' then ['-'] else []) ++ (" .".toList ++
    (recaseName name ++ ((if Contains trail '-' then " -".toList else []) ++
      "\x7d\x7d".toList))))

/-- Modelled from the spec: the text by which the absent `GenerateCode` replaces a match
of the placeholder pattern, from its submatches. -/
def rewriteMatch (sub : List Str) : Str :=
  normalizedRef (sub.getD 1 []) (sub.getD 2 []) (sub.getD 3 [])

/-- Modelled from the spec: the template normalization of the absent `GenerateCode`,
"each placeholder found in the subject/body text is rewritten": the text is scanned from
the left, every match of the placeholder pattern is replaced and the scan goes on behind
it; `skip` counts the characters still covered by the previous match. -/
def normalizeFrom : Nat → Str → Str
  | _, [] => []
  | skip + 1, _ :: cs => normalizeFrom skip cs
  | 0, c :: cs =>
    match matchAt rePlaceholderRef (c :: cs) with
    | some m =>
      rewriteMatch (submatches (c :: cs) m) ++
        normalizeFrom ((c :: cs).length - (m.getLastD []).length - 1) cs
    | none => c :: normalizeFrom 0 cs

/-- Modelled from the spec: the normalized text of a template, which the absent
`GenerateCode` embeds as a constant. -/
def normalizeTemplate (s : Str) : Str := normalizeFrom 0 s

/-- Modelled from the spec: the file stem from which the absent `GenerateCode` names
the output unit: the last element of the path, without its extension (`simple` for
`dir/simple.html`). -/
def fileStem (path : Str) : Str :=
  match splitChunks (fun c => c == '.') ((splitChunks (fun c => c == '/') path).getLastD []) with
  | [w] => w
  | ws => ['.'].intercalate ws.dropLast

/-- A field of a generated type. -/
structure GoField where
  Name : Str
  Typ : Str
deriving DecidableEq, Repr

/-- A generated record type. -/
structure GoType where
  Name : Str
  Fields : List GoField
deriving DecidableEq, Repr

/-- A generated string constant. -/
structure GoConst where
  Name : Str
  Value : Str
deriving DecidableEq, Repr

/-- Modelled from the spec: the rendering helpers that the render function of a unit of
the absent `GenerateCode` can use: the one that renders the body, and "the
subject-specific rendering helper". -/
inductive RenderHelper
  /-- The helper that renders the body. -/
  | body
  /-- The helper that renders the subject. -/
  | subject
deriving DecidableEq, Repr

/-- Modelled from the spec: the import by which a unit of the absent `GenerateCode`
depends on a rendering helper. The subject helper is `text/template`, as the test of the
generator names it. The spec does not name the helper of the body; it demands that the
body "must not require or reference the subject-specific rendering helper", and the
model takes `html/template`, the templating package of Go for HTML text. -/
def RenderHelper.importPath : RenderHelper → Str
  | .body => "html/template".toList
  | .subject => "text/template".toList

/-- Modelled from the spec: a step of the render function of a unit of the absent
`GenerateCode`: it renders one template constant with one helper into one field of the
result. -/
structure RenderStep where
  Helper : RenderHelper
  Const : Str
  Field : Str
deriving DecidableEq, Repr

/-- Modelled from the spec: the content of one output unit of the absent `GenerateCode`,
as the test of the generator reads it back: the name of the file, its imports of
rendering helpers, its type declarations, its constants, the name of the render function
and the steps of that function. -/
structure GeneratedUnit where
  FileName : Str
  Version : Str
  Imports : List Str
  Types : List GoType
  Consts : List GoConst
  RenderFunc : Str
  Render : List RenderStep
deriving DecidableEq, Repr

/-- Modelled from the spec: what the spec leaves to the implementation of the absent
`GenerateCode`: the name of the nested type generated for a struct of a template. -/
structure GeneratorChoices where
  structTypeName : Str → Str → Str

/-- Modelled from the spec: the data type of the absent `GenerateCode`, "one field per
top-level Variable (scalar field of the declared type) plus one field per declared
Struct". -/
def dataType (ch : GeneratorChoices) (base : Str) (pt : ParsedTemplate) : GoType :=
  { Name := base ++ "EmailData".toList
    Fields := pt.Variables.map (fun v => { Name := UpperFirst v.Name, Typ := v.Typ }) ++
      pt.Structs.map (fun s => { Name := s.Name, Typ := ch.structTypeName base s.Name }) }

/-- Modelled from the spec: the result type of the absent `GenerateCode`, "exactly two
fields, Subject (text) and HTML (text)". -/
def resultType (base : Str) : GoType :=
  { Name := base ++ "EmailResult".toList
    Fields := [{ Name := "Subject".toList, Typ := "string".toList },
      { Name := "HTML".toList, Typ := "string".toList }] }

/-- Modelled from the spec: the nested type that the absent `GenerateCode` emits for a
struct, "one field per ParsedField, field types taken verbatim from the annotation". -/
def structType (ch : GeneratorChoices) (base : Str) (s : ParsedStruct) : GoType :=
  { Name := ch.structTypeName base s.Name
    Fields := s.Fields.map (fun f => { Name := f.Name, Typ := f.Typ }) }

/-- Modelled from the spec: the steps of the render function of the absent
`GenerateCode`, which "must render the subject only if a non-empty subject template was
declared" and "must always render the body": a step for the subject constant with the
subject helper when the subject is not empty, then the step for the body constant with
the helper of the body. -/
def renderSteps (lowerBase : Str) (pt : ParsedTemplate) : List RenderStep :=
  (if pt.Subject = [] then []
    else [{ Helper := .subject, Const := lowerBase ++ "EmailSubjectTemplate".toList,
            Field := "Subject".toList }]) ++
    [{ Helper := .body, Const := lowerBase ++ "EmailHTMLTemplate".toList,
       Field := "HTML".toList }]

/-- Modelled from the spec: the imports of rendering helpers of a unit of the absent
`GenerateCode`: the import of every helper that a step of the render function uses, each
once ("no subject template, no subject-rendering dependency is emitted at all"). -/
def helperImports (steps : List RenderStep) : List Str :=
  (steps.map (fun st => st.Helper.importPath)).dedup

/-- Modelled from the spec: the output unit that the absent `GenerateCode` synthesizes
for one parsed template. The base name is `MakeExportedName` of the file stem; the unit
is named `<stem>.email.go`; it holds the data type, the result type, the nested types,
the render function `<Base>Email` with its steps, the imports of the helpers that the
steps use, the constant `<lowerBase>EmailHTMLTemplate` with the normalized body and,
only when the subject is not empty, the constant `<lowerBase>EmailSubjectTemplate` with
the normalized subject. -/
def generateUnit (U : UnicodeTables) (ch : GeneratorChoices) (version : Str)
    (pt : ParsedTemplate) : GeneratedUnit :=
  let base := MakeExportedName U (fileStem pt.FilePath)
  let lowerBase := LowerFirst U base
  { FileName := fileStem pt.FilePath ++ ".email.go".toList
    Version := version
    Imports := helperImports (renderSteps lowerBase pt)
    Types := dataType ch base pt :: resultType base :: pt.Structs.map (structType ch base)
    Consts :=
      { Name := lowerBase ++ "EmailHTMLTemplate".toList, Value := normalizeTemplate pt.HTML } ::
        (if pt.Subject = [] then []
          else [{ Name := lowerBase ++ "EmailSubjectTemplate".toList,
                  Value := normalizeTemplate pt.Subject }])
    RenderFunc := base ++ "Email".toList
    Render := renderSteps lowerBase pt }

/-- Modelled from the spec: the error of the absent `GenerateCode`, "WriteError: the
output directory or an output file could not be created/written". -/
inductive GenerateError
  | write (path : Str)
deriving DecidableEq, Repr

/-- Modelled from the spec: the batch of the absent `GenerateCode`. The output sink is
represented by the test `canWrite` on the path of a unit. Every template gives one
unit, written under the output directory; the first unit that cannot be written fails
the whole batch. The result lists the units written, with their paths. -/
def generateAll (U : UnicodeTables) (ch : GeneratorChoices) (canWrite : Str → Bool)
    (outputDir version : Str) :
    List ParsedTemplate → Except GenerateError (List (Str × GeneratedUnit))
  | [] => .ok []
  | pt :: rest =>
    if canWrite (outputDir ++ ('/' :: (generateUnit U ch version pt).FileName)) then
      match generateAll U ch canWrite outputDir version rest with
      | .ok files =>
        .ok ((outputDir ++ ('/' :: (generateUnit U ch version pt).FileName),
          generateUnit U ch version pt) :: files)
      | .error e => .error e
    else .error (.write (outputDir ++ ('/' :: (generateUnit U ch version pt).FileName)))

/-- Modelled from the spec: the absent `GenerateCode(templates, outputDir, version)`,
with the tables of `unicode`, the choices of the implementation and the output sink as
parameters. -/
def GenerateCode (U : UnicodeTables) (ch : GeneratorChoices) (canWrite : Str → Bool)
    (templates : List ParsedTemplate) (outputDir version : Str) :
    Except GenerateError (List (Str × GeneratedUnit)) :=
  generateAll U ch canWrite outputDir version templates

/-- The text `sub` occurs in the text `txt`. -/
def occursIn (sub txt : Str) : Prop := ∃ a b, txt = a ++ (sub ++ b)

/-- The choices on which the examples are evaluated: the nested type of a struct is
named by the base name followed by the name of the struct. -/
def exampleChoices : GeneratorChoices :=
  { structTypeName := fun base s => base ++ s }

/-- The normalized reference for the field of the bare placeholder `x` with the trim
markers `d1` and `d2`: `\x7b\x7b .X\x7d\x7d` without markers, `\x7b\x7b- .X -\x7d\x7d`
with both. -/
def normalizedPlaceholder (d1 x d2 : Str) : Str :=
  "\x7b\x7b".toList ++ (d1 ++ (" .".toList ++ (UpperFirst x ++
    ((if d2 = [] then [] else ' ' :: d2) ++ "\x7d\x7d".toList))))

/-- The base name of the generated identifiers of a template. -/
def baseName (U : UnicodeTables) (pt : ParsedTemplate) : Str :=
  MakeExportedName U (fileStem pt.FilePath)

/-- The path of the output unit of a template. -/
def unitPath (outputDir : Str) (pt : ParsedTemplate) : Str :=
  outputDir ++ ('/' :: (fileStem pt.FilePath ++ ".email.go".toList))

/-- The name of the constant with the normalized body. -/
def htmlConstName (U : UnicodeTables) (pt : ParsedTemplate) : Str :=
  LowerFirst U (baseName U pt) ++ "EmailHTMLTemplate".toList

/-- The name of the constant with the normalized subject. -/
def subjectConstName (U : UnicodeTables) (pt : ParsedTemplate) : Str :=
  LowerFirst U (baseName U pt) ++ "EmailSubjectTemplate".toList

/-- The template `simple.html` of the generator's test. -/
def genSimpleTemplate : Str :=
  ("<!-- $Subject: Welcome \x7b\x7busername\x7d\x7d -->\n" ++
   "\n" ++
   "<html>\n" ++
   "<body>\n" ++
   "Hi \x7b\x7bfirstName\x7d\x7d\n" ++
   "</body>\n" ++
   "</html>\n").toList

/-- The template `invite.html` of the generator's test. -/
def genInviteTemplate : Str :=
  ("<!-- $Subject: Invite -->\n" ++
   "<!-- @type inviteLink string -->\n" ++
   "<html><body><a href=\"\x7b\x7binviteLink\x7d\x7d\"></a></body></html>").toList

/-- The template `nosubject.html` of the generator's test. -/
def nosubjectTemplate : Str :=
  "<html>\n<body>\nHi \x7b\x7bfirstName\x7d\x7d\n</body>\n</html>\n".toList

/-- The result of `ParseFile` on a text whose lines the scanner accepts, with the maps
visited in the order of insertion. -/
def parsed (path : String) (data : Str) : ParsedTemplate :=
  parseLines ⟨[], [], []⟩ path.toList (sourceLines data)

/-- A text with a line that ends in two carriage returns. -/
def twoCRTemplate : Str := "<p>Hi</p>\r\r\n".toList

/-! # Theorems -/

/-! ## The scanner -/

theorem scanLines_of_linesFit {data : Str} (h : linesFit data) :
    scanLines data = .ok (sourceLines data) := by
  unfold scanLines sourceLines
  rw [if_neg]
  simp only [List.any_eq_true, decide_eq_true_eq, not_exists, not_and, not_le]
  exact h

theorem scanLines_of_not_linesFit {data : Str} (h : ¬ linesFit data) :
    scanLines data = .error .ErrTooLong := by
  unfold scanLines
  rw [if_pos]
  simp only [List.any_eq_true, decide_eq_true_eq]
  unfold linesFit at h
  push_neg at h
  exact h

theorem ParseFile_of_linesFit (ord : RangeOrders) (path : Str) {data : Str}
    (h : linesFit data) :
    ParseFile ord path (some data) = .ok (parseLines ord path (sourceLines data)) := by
  simp [ParseFile, scanLines_of_linesFit h]

theorem splitNL_ne_nil (s : Str) : splitNL s ≠ [] := by
  cases s with
  | nil => simp [splitNL]
  | cons c cs =>
    unfold splitNL
    split
    · simp
    · split <;> simp

theorem splitNL_no_newline (s : Str) : ∀ l ∈ splitNL s, '\n' ∉ l := by
  induction s with
  | nil => simp [splitNL]
  | cons c cs ih =>
    unfold splitNL
    split
    · intro l hl
      rcases List.mem_cons.1 hl with h | h
      · subst h; simp
      · exact ih l h
    · rename_i hc
      split
      · intro l hl; simp at hl; subst hl; simp; exact fun h => hc h.symm
      · rename_i l0 ls heq
        intro l hl
        rw [heq] at ih
        rcases List.mem_cons.1 hl with h | h
        · subst h
          have := ih l0 (by simp)
          simp only [List.mem_cons, not_or]
          exact ⟨fun h => hc h.symm, this⟩
        · exact ih l (by simp [h])

theorem rawLines_no_newline (data : Str) : ∀ l ∈ rawLines data, '\n' ∉ l := by
  intro l hl
  unfold rawLines at hl
  simp only at hl
  split at hl
  · exact splitNL_no_newline data l (List.mem_of_mem_dropLast hl)
  · exact splitNL_no_newline data l hl

theorem dropCR_no_newline {l : Str} (h : '\n' ∉ l) : '\n' ∉ dropCR l := by
  unfold dropCR
  split
  · exact fun h2 => h (List.mem_of_mem_dropLast h2)
  · exact h

theorem sourceLines_no_newline (data : Str) : ∀ l ∈ sourceLines data, '\n' ∉ l := by
  intro l hl
  unfold sourceLines at hl
  obtain ⟨r, hr, rfl⟩ := List.mem_map.1 hl
  exact dropCR_no_newline (rawLines_no_newline data r hr)

/-! ## The matcher -/

theorem stripLit_eq_some {p s e : Str} : stripLit p s = some e ↔ s = p ++ e := by
  induction p generalizing s with
  | nil => simp [stripLit, eq_comm]
  | cons c cs ih =>
    cases s with
    | nil => simp [stripLit]
    | cons x xs =>
      unfold stripLit
      split
      · rename_i h; subst h; simp [ih]
      · rename_i h; simp; intro h2; exact absurd h2 h

theorem stripLit_append (p e : Str) : stripLit p (p ++ e) = some e :=
  stripLit_eq_some.2 rfl

theorem matchAt_lits (p : Str) (r : Regex) (s : Str) :
    matchAt (p.map Tok.lit ++ r) s = (stripLit p s).bind (matchAt r) := by
  induction p generalizing s with
  | nil => simp [stripLit]
  | cons c cs ih =>
    cases s with
    | nil => simp [matchAt, stripLit]
    | cons x xs =>
      simp only [List.map_cons, List.cons_append, matchAt, stripLit]
      split
      · exact ih xs
      · rfl

theorem starG_some {R : Type} {p : Char → Bool} {k : Str → Option R} {s : Str} {r : R}
    (h : starG p k s = some r) :
    ∃ pre suf, s = pre ++ suf ∧ (∀ c ∈ pre, p c = true) ∧ k suf = some r := by
  induction s with
  | nil => exact ⟨[], [], rfl, by simp, h⟩
  | cons c cs ih =>
    unfold starG at h
    split at h
    · rename_i hp
      split at h
      · rename_i r0 h0
        simp only [Option.some.injEq] at h
        subst h
        obtain ⟨pre, suf, h1, h2, h3⟩ := ih h0
        refine ⟨c :: pre, suf, by simp [h1], ?_, h3⟩
        intro x hx
        rcases List.mem_cons.1 hx with hx | hx
        · subst hx; exact hp
        · exact h2 x hx
      · exact ⟨[], c :: cs, rfl, by simp, h⟩
    · exact ⟨[], c :: cs, rfl, by simp, h⟩

theorem starL_some {R : Type} {p : Char → Bool} {k : Str → Option R} {s : Str} {r : R}
    (h : starL p k s = some r) :
    ∃ pre suf, s = pre ++ suf ∧ (∀ c ∈ pre, p c = true) ∧ k suf = some r := by
  induction s with
  | nil => exact ⟨[], [], rfl, by simp, h⟩
  | cons c cs ih =>
    unfold starL at h
    split at h
    · rename_i r0 h0
      exact ⟨[], c :: cs, rfl, by simp, by simpa using h ▸ h0⟩
    · split at h
      · rename_i hp
        obtain ⟨pre, suf, h1, h2, h3⟩ := ih h
        refine ⟨c :: pre, suf, by simp [h1], ?_, h3⟩
        intro x hx
        rcases List.mem_cons.1 hx with hx | hx
        · subst hx; exact hp
        · exact h2 x hx
      · exact absurd h (by simp)

/-- The first attempt of a greedy star takes the whole run; when the rest matches
there, that is the match. -/
theorem starG_of_dropWhile {R : Type} {p : Char → Bool} {k : Str → Option R} {s : Str}
    {r : R} (h : k (s.dropWhile p) = some r) : starG p k s = some r := by
  induction s with
  | nil => simpa [starG] using h
  | cons c cs ih =>
    unfold starG
    by_cases hp : p c = true
    · simp only [hp, if_true]
      rw [List.dropWhile_cons_of_pos hp] at h
      rw [ih h]
    · simp only [hp]
      rw [List.dropWhile_cons_of_neg hp] at h
      simpa using h

/-- When the rest of the expression cannot start one character earlier than a place
where it fails, backtracking into the run is useless. -/
theorem starG_eq_dropWhile {R : Type} {p : Char → Bool} {k : Str → Option R}
    (hk : ∀ c cs, p c = true → k cs = none → k (c :: cs) = none) (s : Str) :
    starG p k s = k (s.dropWhile p) := by
  have aux : ∀ t : Str, k (t.dropWhile p) = none → k t = none := by
    intro t
    induction t with
    | nil => simp
    | cons c cs ih =>
      by_cases hp : p c = true
      · rw [List.dropWhile_cons_of_pos hp]
        intro h
        exact hk c cs hp (ih h)
      · rw [List.dropWhile_cons_of_neg hp]
        exact id
  induction s with
  | nil => simp [starG]
  | cons c cs ih =>
    unfold starG
    by_cases hp : p c = true
    · simp only [hp, if_true]
      rw [List.dropWhile_cons_of_pos hp, ih]
      cases h : k (cs.dropWhile p) with
      | some r => rfl
      | none => exact hk c cs hp (aux cs h)
    · simp only [hp]
      rw [List.dropWhile_cons_of_neg hp]
      rfl

theorem dropWhile_append_stop {p : Char → Bool} {w s : Str} (hw : ∀ c ∈ w, p c = true)
    (hs : ∀ c ∈ s.head?, p c = false) : (w ++ s).dropWhile p = s := by
  induction w with
  | nil =>
    cases s with
    | nil => rfl
    | cons x xs =>
      have := hs x (by simp)
      simp [List.dropWhile_cons, this]
  | cons c cs ih =>
    have hc := hw c (by simp)
    simp only [List.cons_append]
    rw [List.dropWhile_cons_of_pos hc]
    exact ih (fun x hx => hw x (by simp [hx]))

theorem matchAt_length {re : Regex} : ∀ {s : Str} {m : List Str},
    matchAt re s = some m → m.length = countMarks re + 1 := by
  induction re with
  | nil => intro s m h; simp [matchAt] at h; subst h; simp [countMarks]
  | cons t r ih =>
    intro s m h
    cases t with
    | lit c =>
      cases s with
      | nil => simp [matchAt] at h
      | cons x xs =>
        simp only [matchAt] at h
        split at h
        · simpa [countMarks] using ih h
        · exact absurd h (by simp)
    | one p =>
      cases s with
      | nil => simp [matchAt] at h
      | cons x xs =>
        simp only [matchAt] at h
        split at h
        · simpa [countMarks] using ih h
        · exact absurd h (by simp)
    | star p =>
      simp only [matchAt] at h
      obtain ⟨_, suf, _, _, h3⟩ := starG_some h
      simpa [countMarks] using ih h3
    | lazyStar p =>
      simp only [matchAt] at h
      obtain ⟨_, suf, _, _, h3⟩ := starL_some h
      simpa [countMarks] using ih h3
    | opt c =>
      cases s with
      | nil => simp only [matchAt] at h; simpa [countMarks] using ih h
      | cons x xs =>
        simp only [matchAt] at h
        split at h
        · split at h
          · rename_i m0 h0
            simp at h; subst h
            simpa [countMarks] using ih h0
          · simpa [countMarks] using ih h
        · simpa [countMarks] using ih h
    | mark =>
      simp only [matchAt, Option.map_eq_some'] at h
      obtain ⟨m0, h0, rfl⟩ := h
      simp [countMarks, ih h0]

theorem search_some {re : Regex} {s start : Str} {m : List Str}
    (h : search re s = some (start, m)) :
    matchAt re start = some m ∧ ∃ pre, s = pre ++ start := by
  induction s with
  | nil =>
    simp only [search, Option.map_eq_some'] at h
    obtain ⟨m0, h0, h1⟩ := h
    simp only [Prod.mk.injEq] at h1
    obtain ⟨rfl, rfl⟩ := h1
    exact ⟨h0, [], rfl⟩
  | cons c cs ih =>
    unfold search at h
    split at h
    · rename_i m0 h0
      simp only [Option.some.injEq, Prod.mk.injEq] at h
      obtain ⟨rfl, rfl⟩ := h
      exact ⟨h0, [], rfl⟩
    · obtain ⟨h1, pre, h2⟩ := ih h
      exact ⟨h1, c :: pre, by simp [h2]⟩

theorem search_eq_none {re : Regex} {s : Str} :
    search re s = none ↔ ∀ pre t, s = pre ++ t → matchAt re t = none := by
  induction s with
  | nil =>
    simp only [search, Option.map_eq_none']
    constructor
    · intro h pre t ht
      have : t = [] := by
        have := congrArg List.length ht
        simp at this
        exact List.length_eq_zero.1 (by omega)
      subst this; exact h
    · intro h; exact h [] [] rfl
  | cons c cs ih =>
    unfold search
    constructor
    · intro h pre t ht
      split at h
      · exact absurd h (by simp)
      · rename_i h0
        cases pre with
        | nil => simp at ht; subst ht; exact h0
        | cons x xs =>
          simp at ht
          exact (ih.1 h) xs t ht.2
    · intro h
      have h0 := h [] (c :: cs) rfl
      rw [h0]
      simp only
      exact ih.2 (fun pre t ht => h (c :: pre) t (by simp [ht]))

/-! ## The scanning loop -/

theorem countMarks_reSubject : countMarks reSubject = 2 := by decide
theorem countMarks_reTypeDef : countMarks reTypeDef = 4 := by decide
theorem countMarks_reSimpleVar : countMarks reSimpleVar = 2 := by decide

theorem FindStringSubmatch_reSubject_length (l : Str) :
    (FindStringSubmatch reSubject l).length > 1 ↔ matchesSubject l = true := by
  unfold FindStringSubmatch matchesSubject
  cases h : search reSubject l with
  | none => simp
  | some sm =>
    obtain ⟨start, m⟩ := sm
    have hl := matchAt_length (search_some h).1
    rw [countMarks_reSubject] at hl
    match m, hl with
    | [a, b, c], _ => simp [submatches, groups]

theorem FindStringSubmatch_reTypeDef_length (l : Str) :
    (FindStringSubmatch reTypeDef l).length > 0 ↔ matchesTypeDef l = true := by
  unfold FindStringSubmatch matchesTypeDef
  cases h : search reTypeDef l with
  | none => simp
  | some sm => simp [submatches]

theorem classify_eq_body_iff (l : Str) : classify l = .body ↔ isBodyLine l = true := by
  unfold classify isBodyLine
  by_cases h1 : (FindStringSubmatch reSubject l).length > 1
  · have := (FindStringSubmatch_reSubject_length l).1 h1
    simp [h1, this]
  · have h1b : matchesSubject l = false := by
      cases hm : matchesSubject l with
      | false => rfl
      | true => exact absurd ((FindStringSubmatch_reSubject_length l).2 hm) h1
    by_cases h2 : (FindStringSubmatch reTypeDef l).length > 0
    · have := (FindStringSubmatch_reTypeDef_length l).1 h2
      simp [h1, h2, this]
    · have h2b : matchesTypeDef l = false := by
        cases hm : matchesTypeDef l with
        | false => rfl
        | true => exact absurd ((FindStringSubmatch_reTypeDef_length l).2 hm) h2
      simp [h1, h2, h1b, h2b]

/-- The loop body, by the kind of the line. -/
theorem parseLine_eq (st : ScanState) (l : Str) :
    parseLine st l =
      match classify l with
      | .subject t => { st with Subject := t }
      | .typeDecl n T => typeDirective st n T
      | .body => { st with htmlBuf := st.htmlBuf ++ (l ++ ['\n']) } := by
  unfold parseLine classify
  by_cases h1 : (FindStringSubmatch reSubject l).length > 1
  · simp [h1]
  · by_cases h2 : (FindStringSubmatch reTypeDef l).length > 0
    · simp [h1, h2]
    · simp [h1, h2]

theorem typeDirective_htmlBuf (st : ScanState) (n T : Str) :
    (typeDirective st n T).htmlBuf = st.htmlBuf := by
  unfold typeDirective
  split
  · split <;> rfl
  · rfl

theorem typeDirective_Subject (st : ScanState) (n T : Str) :
    (typeDirective st n T).Subject = st.Subject := by
  unfold typeDirective
  split
  · split <;> rfl
  · rfl

theorem foldl_parseLine_htmlBuf (lines : List Str) (st : ScanState) :
    (lines.foldl parseLine st).htmlBuf =
      st.htmlBuf ++ ((lines.filter isBodyLine).map (· ++ ['\n'])).flatten := by
  induction lines generalizing st with
  | nil => simp
  | cons l ls ih =>
    rw [List.foldl_cons, ih, parseLine_eq]
    cases hc : classify l with
    | subject t =>
      have : isBodyLine l = false := by
        cases hb : isBodyLine l with
        | false => rfl
        | true => rw [(classify_eq_body_iff l).2 hb] at hc; cases hc
      simp [List.filter_cons, this]
    | typeDecl n T =>
      have : isBodyLine l = false := by
        cases hb : isBodyLine l with
        | false => rfl
        | true => rw [(classify_eq_body_iff l).2 hb] at hc; cases hc
      simp [List.filter_cons, this, typeDirective_htmlBuf]
    | body =>
      have := (classify_eq_body_iff l).1 hc
      simp [List.filter_cons, this]

/-! ## The inference of variables keeps the rest of the template -/

theorem inferStep_fields (ex : GoMap Unit) (pt : ParsedTemplate) (name : Str) :
    (inferStep ex pt name).HTML = pt.HTML ∧ (inferStep ex pt name).Subject = pt.Subject ∧
      (inferStep ex pt name).Structs = pt.Structs ∧
      (inferStep ex pt name).FilePath = pt.FilePath := by
  unfold inferStep
  split
  · simp
  · split <;> simp

theorem foldl_inferStep_fields (ex : GoMap Unit) (names : List Str) (pt : ParsedTemplate) :
    (names.foldl (inferStep ex) pt).HTML = pt.HTML ∧
      (names.foldl (inferStep ex) pt).Subject = pt.Subject ∧
      (names.foldl (inferStep ex) pt).Structs = pt.Structs ∧
      (names.foldl (inferStep ex) pt).FilePath = pt.FilePath := by
  induction names generalizing pt with
  | nil => simp
  | cons n ns ih =>
    rw [List.foldl_cons]
    obtain ⟨h1, h2, h3, h4⟩ := ih (inferStep ex pt n)
    obtain ⟨g1, g2, g3, g4⟩ := inferStep_fields ex pt n
    exact ⟨h1.trans g1, h2.trans g2, h3.trans g3, h4.trans g4⟩

theorem parseLines_HTML (ord : RangeOrders) (path : Str) (lines : List Str) :
    (parseLines ord path lines).HTML = (lines.foldl parseLine ScanState.init).htmlBuf := by
  unfold parseLines inferSimpleVariables
  exact (foldl_inferStep_fields _ _ _).1

theorem parseLines_Subject (ord : RangeOrders) (path : Str) (lines : List Str) :
    (parseLines ord path lines).Subject = (lines.foldl parseLine ScanState.init).Subject := by
  unfold parseLines inferSimpleVariables
  exact (foldl_inferStep_fields _ _ _).2.1

theorem parseLines_Structs (ord : RangeOrders) (path : Str) (lines : List Str) :
    (parseLines ord path lines).Structs =
      (rangeOrder ord.structs (lines.foldl parseLine ScanState.init).structMap).map (·.2) := by
  unfold parseLines inferSimpleVariables
  exact (foldl_inferStep_fields _ _ _).2.2.1

theorem splitNL_cons (c : Char) (cs : Str) :
    splitNL (c :: cs) =
      if c = '\n' then [] :: splitNL cs
      else match splitNL cs with
        | [] => [[c]]
        | l :: ls => (c :: l) :: ls := rfl

theorem splitNL_append_newline {l : Str} (h : '\n' ∉ l) (rest : Str) :
    splitNL (l ++ '\n' :: rest) = l :: splitNL rest := by
  induction l with
  | nil => simp [splitNL_cons]
  | cons c cs ih =>
    have hc : c ≠ '\n' := fun hc => h (by simp [hc])
    have hcs : '\n' ∉ cs := fun hcs => h (by simp [hcs])
    have e := ih hcs
    show splitNL (c :: (cs ++ '\n' :: rest)) = _
    rw [splitNL_cons, if_neg hc, e]

theorem splitNL_join_lines {ls : List Str} (h : ∀ l ∈ ls, '\n' ∉ l) :
    splitNL ((ls.map (· ++ ['\n'])).flatten) = ls ++ [[]] := by
  induction ls with
  | nil => simp [splitNL]
  | cons l ls ih =>
    have e := ih (fun x hx => h x (by simp [hx]))
    simp only [List.map_cons, List.flatten_cons, List.append_assoc, List.singleton_append,
      List.cons_append]
    rw [splitNL_append_newline (h l (by simp))]
    simpa using e

/-! ## White space -/

theorem reSpace_cases {c : Char} (h : reSpace c = true) :
    c = '\t' ∨ c = '\n' ∨ c = '\x0c' ∨ c = '\r' ∨ c = ' ' := by
  simpa [reSpace, or_assoc] using h

theorem unicodeIsSpace_of_reSpace {c : Char} (h : reSpace c = true) :
    unicodeIsSpace c = true := by
  rcases reSpace_cases h with h | h | h | h | h <;> subst h <;> decide

theorem dropWhile_append_all {p : Char → Bool} {w : Str} (hw : ∀ c ∈ w, p c = true) (x : Str) :
    (w ++ x).dropWhile p = x.dropWhile p := by
  induction w with
  | nil => rfl
  | cons c cs ih =>
    simp only [List.cons_append]
    rw [List.dropWhile_cons_of_pos (hw c (by simp))]
    exact ih (fun y hy => hw y (by simp [hy]))

theorem dropWhile_eq_nil_of_all {p : Char → Bool} {w : Str} (hw : ∀ c ∈ w, p c = true) :
    w.dropWhile p = [] := by
  simpa using dropWhile_append_all hw []

theorem dropWhile_append_right {p : Char → Bool} {w : Str} (hw : ∀ c ∈ w, p c = true)
    (x : Str) :
    (x ++ w).dropWhile p = if x.dropWhile p = [] then [] else x.dropWhile p ++ w := by
  induction x with
  | nil => simp [dropWhile_eq_nil_of_all hw]
  | cons c cs ih =>
    by_cases hp : p c = true
    · simp only [List.cons_append]
      rw [List.dropWhile_cons_of_pos hp, List.dropWhile_cons_of_pos hp]
      exact ih
    · simp only [List.cons_append]
      rw [List.dropWhile_cons_of_neg hp, List.dropWhile_cons_of_neg hp]
      simp

theorem TrimSpace_append_left {w : Str} (hw : ∀ c ∈ w, unicodeIsSpace c = true) (x : Str) :
    TrimSpace (w ++ x) = TrimSpace x := by
  unfold TrimSpace
  rw [dropWhile_append_all hw]

theorem TrimSpace_append_right {w : Str} (hw : ∀ c ∈ w, unicodeIsSpace c = true) (x : Str) :
    TrimSpace (x ++ w) = TrimSpace x := by
  unfold TrimSpace
  rw [dropWhile_append_right hw]
  split
  · rename_i h; rw [h]
  · rw [List.reverse_append, dropWhile_append_all]
    intro c hc
    exact hw c (List.mem_reverse.1 hc)

theorem TrimSpace_of_all {w : Str} (hw : ∀ c ∈ w, unicodeIsSpace c = true) :
    TrimSpace w = [] := by
  have := TrimSpace_append_left hw []
  simpa [TrimSpace] using this

/-! ## The subject pattern -/

theorem matchAt_mark (r : Regex) (s : Str) :
    matchAt (Tok.mark :: r) s = (matchAt r s).map (fun m => s :: m) := rfl

theorem matchAt_star (p : Char → Bool) (r : Regex) :
    matchAt (Tok.star p :: r) = starG p (matchAt r) := rfl

theorem matchAt_lazyStar (p : Char → Bool) (r : Regex) :
    matchAt (Tok.lazyStar p :: r) = starL p (matchAt r) := rfl

theorem starL_cons {R : Type} (p : Char → Bool) (k : Str → Option R) (c : Char) (cs : Str) :
    starL p k (c :: cs) =
      match k (c :: cs) with
      | some r => some r
      | none => if p c then starL p k cs else none := rfl

theorem reSubject_eq :
    reSubject = ("<!--".toList).map Tok.lit ++
      (Tok.star reSpace :: (("$Subject:".toList).map Tok.lit ++ reSubjectText)) := by
  rfl

/-- The end of the subject pattern, `\s*-->`, at a given place. -/
theorem matchAt_reSubjectClose (s : Str) :
    matchAt reSubjectClose s =
      (stripLit "-->".toList (s.dropWhile reSpace)).map (fun e => [s, e]) := by
  have h3 : ∀ t : Str, matchAt (("-->".toList).map Tok.lit ++ []) t =
      (stripLit "-->".toList t).map (fun e => [e]) := by
    intro t
    rw [matchAt_lits]
    cases stripLit "-->".toList t <;> simp [matchAt]
  have hk : ∀ (c : Char) (cs : Str), reSpace c = true →
      matchAt (("-->".toList).map Tok.lit ++ []) cs = none →
      matchAt (("-->".toList).map Tok.lit ++ []) (c :: cs) = none := by
    intro c cs hc _
    rw [h3]
    rcases reSpace_cases hc with h | h | h | h | h <;> subst h <;> rfl
  show (starG reSpace (matchAt (("-->".toList).map Tok.lit ++ [])) s).map (fun m => s :: m) = _
  rw [starG_eq_dropWhile hk, h3]
  cases stripLit "-->".toList (s.dropWhile reSpace) <;> rfl

theorem matchAt_reSubjectClose_cons_space {c : Char} (cs : Str) (hc : reSpace c = true) :
    (matchAt reSubjectClose (c :: cs)).isSome = (matchAt reSubjectClose cs).isSome := by
  rw [matchAt_reSubjectClose, matchAt_reSubjectClose, List.dropWhile_cons_of_pos hc]
  cases stripLit "-->".toList (cs.dropWhile reSpace) <;> rfl

theorem starL_none_here {R : Type} {p : Char → Bool} {k : Str → Option R} {s : Str}
    (h : starL p k s = none) : k s = none := by
  cases s with
  | nil => simpa [starL] using h
  | cons c cs =>
    unfold starL at h
    split at h
    · exact absurd h (by simp)
    · assumption

/-- After `$Subject:` the white space is skipped in full. -/
theorem matchAt_reSubjectText (s : Str) :
    matchAt reSubjectText s =
      (starL reAny (matchAt reSubjectClose) (s.dropWhile reSpace)).map
        (fun m => s.dropWhile reSpace :: m) := by
  have hk : ∀ (c : Char) (cs : Str), reSpace c = true →
      matchAt (Tok.mark :: Tok.lazyStar reAny :: reSubjectClose) cs = none →
      matchAt (Tok.mark :: Tok.lazyStar reAny :: reSubjectClose) (c :: cs) = none := by
    intro c cs hc h
    rw [matchAt_mark, matchAt_lazyStar, Option.map_eq_none'] at h ⊢
    have h2 := starL_none_here h
    have h3 : matchAt reSubjectClose (c :: cs) = none := by
      have := matchAt_reSubjectClose_cons_space cs hc
      rw [h2] at this
      simpa using this
    rw [starL_cons, h3]
    simp [h]
  show starG reSpace (matchAt (Tok.mark :: Tok.lazyStar reAny :: reSubjectClose)) s = _
  rw [starG_eq_dropWhile hk]
  rfl

/-- The subject pattern at a given place of a line. -/
theorem matchAt_reSubject (t : Str) :
    matchAt reSubject t =
      (stripLit "<!--".toList t).bind fun r =>
        (stripLit "$Subject:".toList (r.dropWhile reSpace)).bind fun r2 =>
          (starL reAny (matchAt reSubjectClose) (r2.dropWhile reSpace)).map
            (fun m => r2.dropWhile reSpace :: m) := by
  rw [reSubject_eq, matchAt_lits]
  congr 1
  funext r
  have hk : ∀ (c : Char) (cs : Str), reSpace c = true →
      matchAt (("$Subject:".toList).map Tok.lit ++ reSubjectText) cs = none →
      matchAt (("$Subject:".toList).map Tok.lit ++ reSubjectText) (c :: cs) = none := by
    intro c cs hc _
    rw [matchAt_lits]
    rcases reSpace_cases hc with h | h | h | h | h <;> subst h <;> rfl
  show starG reSpace (matchAt (("$Subject:".toList).map Tok.lit ++ reSubjectText)) r = _
  rw [starG_eq_dropWhile hk, matchAt_lits]
  congr 1
  funext r2
  exact matchAt_reSubjectText r2

theorem stripLit_arrow_space {c : Char} (cs : Str) (hc : reSpace c = true) :
    stripLit "-->".toList (c :: cs) = none := by
  rcases reSpace_cases hc with h | h | h | h | h <;> subst h <;> rfl

theorem beforeFirst_cons (pat : Str) (c : Char) (cs : Str) :
    beforeFirst pat (c :: cs) =
      if (stripLit pat (c :: cs)).isSome then some []
      else (beforeFirst pat cs).map (fun b => c :: b) := rfl

theorem beforeFirst_skip {w : Str} (hw : ∀ c ∈ w, reSpace c = true) (o : Str) :
    beforeFirst "-->".toList (w ++ o) = (beforeFirst "-->".toList o).map (fun b => w ++ b) := by
  induction w with
  | nil => simp
  | cons c cs ih =>
    have hc := hw c (by simp)
    have e := ih (fun x hx => hw x (by simp [hx]))
    show beforeFirst "-->".toList (c :: (cs ++ o)) = _
    rw [beforeFirst_cons, stripLit_arrow_space _ hc, e]
    cases beforeFirst "-->".toList o <;> simp

theorem beforeFirst_of_close {s e : Str}
    (h : stripLit "-->".toList (s.dropWhile reSpace) = some e) :
    beforeFirst "-->".toList s = some (s.takeWhile reSpace) := by
  have hs : s = s.takeWhile reSpace ++ s.dropWhile reSpace :=
    (List.takeWhile_append_dropWhile _ _).symm
  have hw : ∀ c ∈ s.takeWhile reSpace, reSpace c = true := fun c hc =>
    List.mem_takeWhile_imp hc
  have h2 : beforeFirst "-->".toList (s.dropWhile reSpace) = some [] := by
    cases hd : s.dropWhile reSpace with
    | nil => rw [hd] at h; cases h
    | cons x xs =>
      rw [hd] at h
      rw [beforeFirst_cons, h]
      rfl
  conv_lhs => rw [hs]
  rw [beforeFirst_skip hw, h2]
  simp

theorem stripLit_arrow_of_close_none {s : Str} (h : matchAt reSubjectClose s = none) :
    stripLit "-->".toList s = none := by
  rw [matchAt_reSubjectClose, Option.map_eq_none'] at h
  cases s with
  | nil => rfl
  | cons c cs =>
    by_cases hc : reSpace c = true
    · exact stripLit_arrow_space cs hc
    · rw [List.dropWhile_cons_of_neg hc] at h
      exact h

/-- The non-greedy capture of the subject pattern against the text up to the first
`-->`: they differ by white space at the end only. -/
theorem lazyCapture (o : Str) (hnl : '\n' ∉ o) :
    (starL reAny (matchAt reSubjectClose) o = none ∧ beforeFirst "-->".toList o = none) ∨
    (∃ n e w, n ≤ o.length ∧ starL reAny (matchAt reSubjectClose) o = some [o.drop n, e] ∧
      beforeFirst "-->".toList o = some (o.take n ++ w) ∧ ∀ c ∈ w, reSpace c = true) := by
  induction o with
  | nil => left; exact ⟨rfl, rfl⟩
  | cons c cs ih =>
    have hc : c ≠ '\n' := fun h => hnl (by simp [h])
    have hcs : '\n' ∉ cs := fun h => hnl (by simp [h])
    cases hK : matchAt reSubjectClose (c :: cs) with
    | some m =>
      right
      have hK2 := hK
      rw [matchAt_reSubjectClose, Option.map_eq_some'] at hK2
      obtain ⟨e, he, rfl⟩ := hK2
      refine ⟨0, e, (c :: cs).takeWhile reSpace, by simp, ?_, ?_, ?_⟩
      · rw [starL_cons, hK]; rfl
      · rw [beforeFirst_of_close he]; rfl
      · intro x hx; exact List.mem_takeWhile_imp hx
    | none =>
      have hs : starL reAny (matchAt reSubjectClose) (c :: cs) =
          starL reAny (matchAt reSubjectClose) cs := by
        rw [starL_cons, hK]
        have : reAny c = true := by simp [reAny, hc]
        simp [this]
      have hb : beforeFirst "-->".toList (c :: cs) =
          (beforeFirst "-->".toList cs).map (fun b => c :: b) := by
        rw [beforeFirst_cons, stripLit_arrow_of_close_none hK]
        rfl
      rcases ih hcs with ⟨h1, h2⟩ | ⟨n, e, w, h1, h2, h3, h4⟩
      · left
        exact ⟨hs.trans h1, by rw [hb, h2]; rfl⟩
      · right
        refine ⟨n + 1, e, w, by simpa using h1, ?_, ?_, h4⟩
        · rw [hs, h2]; rfl
        · rw [hb, h3]; rfl

theorem between_drop (o : Str) {n : Nat} (h : n ≤ o.length) : between o (o.drop n) = o.take n := by
  unfold between
  rw [List.length_drop]
  congr 1
  omega

/-- At each place of a line, the subject pattern and the specification's reading of a
subject directive agree: one matches when the other does, with the same subject. -/
theorem specSubjectAt_eq (t : Str) (hnl : '\n' ∉ t) :
    (matchAt reSubject t).map (fun m => TrimSpace ((submatches t m).getD 1 [])) =
      specSubjectAt t := by
  rw [matchAt_reSubject]
  unfold specSubjectAt
  cases h1 : stripLit "<!--".toList t with
  | none => rfl
  | some r =>
    simp only [Option.some_bind]
    cases h2 : stripLit "$Subject:".toList (r.dropWhile reSpace) with
    | none => rfl
    | some r2 =>
      simp only [Option.some_bind]
      have ht : t = "<!--".toList ++ r := stripLit_eq_some.1 h1
      have hr : r.dropWhile reSpace = "$Subject:".toList ++ r2 := stripLit_eq_some.1 h2
      have hr2 : '\n' ∉ r2 := by
        intro h
        apply hnl
        rw [ht, ← List.takeWhile_append_dropWhile reSpace r, hr]
        simp [h]
      have hs : r2 = r2.takeWhile reSpace ++ r2.dropWhile reSpace :=
        (List.takeWhile_append_dropWhile _ _).symm
      have hw : ∀ c ∈ r2.takeWhile reSpace, reSpace c = true := fun c hc =>
        List.mem_takeWhile_imp hc
      have ho : '\n' ∉ r2.dropWhile reSpace := fun h =>
        hr2 (by rw [hs]; exact List.mem_append_right _ h)
      have hb : beforeFirst "-->".toList r2 =
          (beforeFirst "-->".toList (r2.dropWhile reSpace)).map
            (fun b => r2.takeWhile reSpace ++ b) := by
        conv_lhs => rw [hs]
        exact beforeFirst_skip hw _
      rw [hb]
      rcases lazyCapture _ ho with ⟨g1, g2⟩ | ⟨n, e, w, g1, g2, g3, g4⟩
      · rw [g1, g2]; rfl
      · rw [g2, g3]
        simp only [Option.map_some', submatches, groups, List.getD_cons_succ, List.getD_cons_zero]
        rw [between_drop _ g1, TrimSpace_append_left (fun c hc => unicodeIsSpace_of_reSpace (hw c hc)),
          TrimSpace_append_right (fun c hc => unicodeIsSpace_of_reSpace (g4 c hc))]

/-- On a line, the leftmost match of the subject pattern yields the subject that the
specification's reading yields. -/
theorem search_reSubject_eq (l : Str) (hnl : '\n' ∉ l) :
    (search reSubject l).map (fun sm => TrimSpace ((submatches sm.1 sm.2).getD 1 [])) =
      specSubjectOf l := by
  induction l with
  | nil =>
    have := specSubjectAt_eq [] hnl
    unfold specSubjectOf search
    rw [← this]
    cases matchAt reSubject [] <;> rfl
  | cons c cs ih =>
    have hcs : '\n' ∉ cs := fun h => hnl (by simp [h])
    have := specSubjectAt_eq (c :: cs) hnl
    unfold specSubjectOf search
    rw [← this]
    cases matchAt reSubject (c :: cs) with
    | some m => rfl
    | none => exact ih hcs

theorem classify_subject_iff (l : Str) (hnl : '\n' ∉ l) (t : Str) :
    classify l = .subject t ↔ specSubjectOf l = some t := by
  rw [← search_reSubject_eq l hnl]
  unfold classify
  by_cases h1 : (FindStringSubmatch reSubject l).length > 1
  · rw [if_pos h1]
    have hm := (FindStringSubmatch_reSubject_length l).1 h1
    unfold matchesSubject at hm
    unfold FindStringSubmatch
    cases hs : search reSubject l with
    | none => rw [hs] at hm; cases hm
    | some sm =>
      obtain ⟨start, m⟩ := sm
      simp
  · rw [if_neg h1]
    have hm : matchesSubject l = false := by
      cases hm : matchesSubject l with
      | false => rfl
      | true => exact absurd ((FindStringSubmatch_reSubject_length l).2 hm) h1
    unfold matchesSubject at hm
    cases hs : search reSubject l with
    | some sm => rw [hs] at hm; cases hm
    | none =>
      simp only [Option.map_none']
      constructor
      · intro h; split at h <;> cases h
      · intro h; cases h

theorem specSubjectOf_isSome_iff (l : Str) (hnl : '\n' ∉ l) :
    (specSubjectOf l).isSome = matchesSubject l := by
  rw [← search_reSubject_eq l hnl]
  unfold matchesSubject
  cases search reSubject l <;> rfl

theorem foldl_parseLine_Subject_keep (lines : List Str) (st : ScanState)
    (h : ∀ l ∈ lines, ∀ t, classify l ≠ .subject t) :
    (lines.foldl parseLine st).Subject = st.Subject := by
  induction lines generalizing st with
  | nil => rfl
  | cons l ls ih =>
    rw [List.foldl_cons, ih _ (fun x hx => h x (by simp [hx])), parseLine_eq]
    cases hc : classify l with
    | subject t => exact absurd hc (h l (by simp) t)
    | typeDecl n T => exact typeDirective_Subject st n T
    | body => rfl

theorem foldl_parseLine_Subject_last (front back : List Str) (l t : Str) (st : ScanState)
    (hl : classify l = .subject t) (hback : ∀ x ∈ back, ∀ u, classify x ≠ .subject u) :
    ((front ++ l :: back).foldl parseLine st).Subject = t := by
  rw [List.foldl_append, List.foldl_cons, foldl_parseLine_Subject_keep back _ hback,
    parseLine_eq, hl]

theorem isBodyLine_nil : isBodyLine [] = true := by decide

/-! ## Maps -/

theorem rangeOrder_perm {α : Type} (ch : List Nat) (l : List α) : (rangeOrder ch l).Perm l := by
  induction l generalizing ch with
  | nil => cases ch <;> exact List.Perm.refl _
  | cons x xs ih =>
    have h : rangeOrder ch (x :: xs) =
        (rangeOrder ch.tail xs).insertIdx
          (ch.headD 0 % ((rangeOrder ch.tail xs).length + 1)) x := by
      cases ch <;> rfl
    rw [h]
    refine (List.perm_insertIdx x _ ?_).trans (List.Perm.cons x (ih ch.tail))
    exact Nat.le_of_lt_succ (Nat.mod_lt _ (Nat.succ_pos _))

theorem GoMap_keys_set {V : Type} (m : GoMap V) (k : Str) (v : V) :
    (m.set k v).keys = if k ∈ m.keys then m.keys else m.keys ++ [k] := by
  induction m with
  | nil => simp [GoMap.set, GoMap.keys]
  | cons kv m ih =>
    obtain ⟨k0, v0⟩ := kv
    unfold GoMap.set
    by_cases h : k0 = k
    · subst h
      simp only [GoMap.keys, List.map_cons, List.mem_cons, true_or, if_true]
    · have h2 : ¬ k = k0 := fun e => h e.symm
      simp only [h, if_false]
      unfold GoMap.keys at ih ⊢
      simp only [List.map_cons, List.mem_cons, h2, false_or, ih]
      split <;> simp

theorem GoMap_lookup_isSome {V : Type} (m : GoMap V) (k : Str) :
    (m.lookup k).isSome = true ↔ k ∈ m.keys := by
  induction m with
  | nil => simp [GoMap.keys, List.lookup]
  | cons kv m ih =>
    obtain ⟨k0, v0⟩ := kv
    by_cases h : k = k0
    · subst h
      simp only [GoMap.keys, List.lookup, beq_self_eq_true, Option.isSome_some, List.map_cons,
        List.mem_cons, true_or]
    · have hb : (k == k0) = false := by simpa using h
      simp only [List.lookup, hb, GoMap.keys, List.map_cons, List.mem_cons, h, false_or]
      exact ih

theorem GoMap_lookup_eq_none {V : Type} (m : GoMap V) (k : Str) :
    m.lookup k = none ↔ k ∉ m.keys := by
  rw [← GoMap_lookup_isSome]
  cases m.lookup k <;> simp

theorem GoMap_lookup_set_self {V : Type} (m : GoMap V) (k : Str) (v : V) :
    (m.set k v).lookup k = some v := by
  induction m with
  | nil => simp [GoMap.set, List.lookup]
  | cons kv m ih =>
    obtain ⟨k0, v0⟩ := kv
    unfold GoMap.set
    by_cases h : k0 = k
    · subst h; simp [List.lookup]
    · have hb : (k == k0) = false := by simpa using fun e : k = k0 => h e.symm
      simp only [h, if_false, List.lookup, hb]
      exact ih

theorem GoMap_lookup_set_ne {V : Type} (m : GoMap V) {k k1 : Str} (v : V) (hne : k1 ≠ k) :
    (m.set k v).lookup k1 = m.lookup k1 := by
  induction m with
  | nil =>
    have hb : (k1 == k) = false := by simpa using hne
    simp [GoMap.set, List.lookup, hb]
  | cons kv m ih =>
    obtain ⟨k0, v0⟩ := kv
    unfold GoMap.set
    by_cases h : k0 = k
    · subst h
      have hb : (k1 == k0) = false := by simpa using hne
      simp [List.lookup, hb]
    · simp only [h, if_false, List.lookup]
      cases (k1 == k0)
      · exact ih
      · rfl

theorem GoMap_mem_of_lookup {V : Type} {m : GoMap V} {k : Str} {v : V}
    (h : m.lookup k = some v) : (k, v) ∈ m := by
  induction m with
  | nil => simp [List.lookup] at h
  | cons kv m ih =>
    obtain ⟨k0, v0⟩ := kv
    by_cases hk : k = k0
    · subst hk
      simp [List.lookup] at h
      subst h; simp
    · have hb : (k == k0) = false := by simpa using hk
      simp only [List.lookup, hb] at h
      exact List.mem_cons_of_mem _ (ih h)

theorem GoMap_lookup_of_mem {V : Type} {m : GoMap V} {k : Str} {v : V}
    (hnd : m.keys.Nodup) (h : (k, v) ∈ m) : m.lookup k = some v := by
  induction m with
  | nil => cases h
  | cons kv m ih =>
    obtain ⟨k0, v0⟩ := kv
    simp only [GoMap.keys, List.map_cons, List.nodup_cons] at hnd
    rcases List.mem_cons.1 h with h1 | h2
    · simp only [Prod.mk.injEq] at h1
      obtain ⟨rfl, rfl⟩ := h1
      simp [List.lookup]
    · have hk : k ≠ k0 := by
        intro e; subst e
        exact hnd.1 (List.mem_map.2 ⟨(k, v), h2, rfl⟩)
      have hb : (k == k0) = false := by simpa using hk
      simp only [List.lookup, hb]
      exact ih hnd.2 h2

theorem GoMap_keys_set_nodup {V : Type} (m : GoMap V) (k : Str) (v : V) (h : m.keys.Nodup) :
    (m.set k v).keys.Nodup := by
  rw [GoMap_keys_set]
  split
  · exact h
  · rename_i hk
    exact List.Nodup.append h (by simp) (by simpa using hk)

/-! ## The struct map of the scanning loop -/

theorem GoMap_mem_set {V : Type} {m : GoMap V} {k : Str} {v : V} {kv : Str × V}
    (h : kv ∈ m.set k v) : kv = (k, v) ∨ kv ∈ m := by
  induction m with
  | nil => left; simpa [GoMap.set] using h
  | cons kv0 m ih =>
    obtain ⟨k0, v0⟩ := kv0
    unfold GoMap.set at h
    split at h
    · rcases List.mem_cons.1 h with h1 | h1
      · exact Or.inl h1
      · exact Or.inr (List.mem_cons_of_mem _ h1)
    · rcases List.mem_cons.1 h with h1 | h1
      · exact Or.inr (by rw [h1]; exact List.mem_cons_self _ _)
      · rcases ih h1 with h2 | h2
        · exact Or.inl h2
        · exact Or.inr (List.mem_cons_of_mem _ h2)

theorem ensureStruct_keys (m : GoMap ParsedStruct) (k : Str) :
    (ensureStruct m k).keys = addKey m.keys k := by
  unfold ensureStruct addKey
  by_cases h : k ∈ m.keys
  · rw [if_pos ((GoMap_lookup_isSome m k).2 h), if_pos h]
  · have : ¬ (m.lookup k).isSome = true := fun e => h ((GoMap_lookup_isSome m k).1 e)
    rw [if_neg this, if_neg h, GoMap_keys_set, if_neg h]

theorem appendField_keys (m : GoMap ParsedStruct) (k : Str) (f : ParsedField) :
    (appendField m k f).keys = m.keys := by
  unfold appendField
  cases h : m.lookup k with
  | none => rfl
  | some s =>
    have hk : k ∈ m.keys := (GoMap_lookup_isSome m k).1 (by rw [h]; rfl)
    simp only
    rw [GoMap_keys_set, if_pos hk]

theorem ensureStruct_namesOK {m : GoMap ParsedStruct} (k : Str) (h : namesOK m) :
    namesOK (ensureStruct m k) := by
  unfold ensureStruct
  split
  · exact h
  · intro kv hkv
    rcases GoMap_mem_set hkv with h1 | h1
    · rw [h1]
    · exact h kv h1

theorem appendField_namesOK {m : GoMap ParsedStruct} (k : Str) (f : ParsedField)
    (h : namesOK m) : namesOK (appendField m k f) := by
  unfold appendField
  cases hl : m.lookup k with
  | none => exact h
  | some s =>
    intro kv hkv
    rcases GoMap_mem_set hkv with h1 | h1
    · rw [h1]
      exact h (k, s) (GoMap_mem_of_lookup hl)
    · exact h kv h1

theorem ensureStruct_hasField {m : GoMap ParsedStruct} {k : Str} {f : ParsedField} (k2 : Str)
    (h : hasField m k f) : hasField (ensureStruct m k2) k f := by
  unfold ensureStruct
  split
  · exact h
  · rename_i hk2
    obtain ⟨s, hs, hf⟩ := h
    have hne : k ≠ k2 := by
      intro e; subst e
      rw [hs] at hk2
      exact hk2 rfl
    exact ⟨s, by rw [GoMap_lookup_set_ne _ _ hne]; exact hs, hf⟩

theorem appendField_hasField {m : GoMap ParsedStruct} {k : Str} {f : ParsedField} (k2 : Str)
    (f2 : ParsedField) (h : hasField m k f) : hasField (appendField m k2 f2) k f := by
  unfold appendField
  cases hl : m.lookup k2 with
  | none => exact h
  | some s2 =>
    obtain ⟨s, hs, hf⟩ := h
    by_cases hk : k = k2
    · subst hk
      rw [hs] at hl
      cases hl
      exact ⟨_, GoMap_lookup_set_self _ _ _, List.mem_append_left _ hf⟩
    · exact ⟨s, by rw [GoMap_lookup_set_ne _ _ hk]; exact hs, hf⟩

theorem appendField_ensureStruct_hasField (m : GoMap ParsedStruct) (k : Str) (f : ParsedField) :
    hasField (appendField (ensureStruct m k) k f) k f := by
  have hk : k ∈ (ensureStruct m k).keys := by
    rw [ensureStruct_keys]
    unfold addKey
    split
    · assumption
    · simp
  unfold appendField
  cases hl : (ensureStruct m k).lookup k with
  | none => exact absurd hk ((GoMap_lookup_eq_none _ _).1 hl)
  | some s => exact ⟨_, GoMap_lookup_set_self _ _ _, by simp⟩

/-- The keys of the struct map after a type directive. -/
theorem typeDirective_keys (st : ScanState) (n T : Str) :
    (typeDirective st n T).structMap.keys =
      match declStruct n T with
      | some k => addKey st.structMap.keys k
      | none => st.structMap.keys := by
  unfold typeDirective declStruct
  by_cases hdot : (!Contains n '.') = true
  · rw [if_pos hdot, if_pos hdot]
    by_cases hT : T = []
    · rw [if_pos hT, if_pos hT]
      exact ensureStruct_keys _ _
    · rw [if_neg hT, if_neg hT]
  · rw [if_neg hdot, if_neg hdot]
    simp only
    rw [appendField_keys, ensureStruct_keys]

theorem typeDirective_namesOK (st : ScanState) (n T : Str) (h : namesOK st.structMap) :
    namesOK (typeDirective st n T).structMap := by
  unfold typeDirective
  split
  · split
    · exact ensureStruct_namesOK _ h
    · exact h
  · exact appendField_namesOK _ _ (ensureStruct_namesOK _ h)

theorem typeDirective_hasField (st : ScanState) (n T : Str) {k : Str} {f : ParsedField}
    (h : hasField st.structMap k f) : hasField (typeDirective st n T).structMap k f := by
  unfold typeDirective
  split
  · split
    · exact ensureStruct_hasField _ h
    · exact h
  · exact appendField_hasField _ _ (ensureStruct_hasField _ h)

theorem typeDirective_Variables (st : ScanState) (n T : Str) :
    (typeDirective st n T).Variables = st.Variables ++ (declVariable n T).toList := by
  unfold typeDirective declVariable
  by_cases hdot : (!Contains n '.') = true
  · rw [if_pos hdot]
    by_cases hT : T = []
    · rw [if_pos hT]; simp [hT]
    · rw [if_neg hT]; simp [hdot, hT]
  · rw [if_neg hdot]
    simp [hdot]

/-- A directive with a dotted name puts its field into its struct. -/
theorem typeDirective_dotted (st : ScanState) (n T : Str) (hdot : Contains n '.' = true) :
    hasField (typeDirective st n T).structMap (UpperFirst (SplitN2 n).1)
      { Name := UpperFirst (SplitN2 n).2, Typ := T } := by
  unfold typeDirective
  rw [if_neg (by simp [hdot])]
  exact appendField_ensureStruct_hasField _ _ _

/-- A directive with a name without dot and a type leaves the struct map as it is. -/
theorem typeDirective_variable_structMap (st : ScanState) (n T : Str)
    (hdot : Contains n '.' = false) (hT : T ≠ []) :
    (typeDirective st n T).structMap = st.structMap := by
  unfold typeDirective
  rw [if_pos (by simp [hdot]), if_neg hT]

theorem parseLine_structMap_keys (st : ScanState) (l : Str) :
    (parseLine st l).structMap.keys =
      match mentionedStruct l with
      | some k => addKey st.structMap.keys k
      | none => st.structMap.keys := by
  rw [parseLine_eq]
  unfold mentionedStruct
  cases classify l with
  | subject t => rfl
  | typeDecl n T => exact typeDirective_keys st n T
  | body => rfl

theorem parseLine_namesOK (st : ScanState) (l : Str) (h : namesOK st.structMap) :
    namesOK (parseLine st l).structMap := by
  rw [parseLine_eq]
  cases classify l with
  | subject t => exact h
  | typeDecl n T => exact typeDirective_namesOK st n T h
  | body => exact h

theorem parseLine_hasField (st : ScanState) (l : Str) {k : Str} {f : ParsedField}
    (h : hasField st.structMap k f) : hasField (parseLine st l).structMap k f := by
  rw [parseLine_eq]
  cases classify l with
  | subject t => exact h
  | typeDecl n T => exact typeDirective_hasField st n T h
  | body => exact h

theorem parseLine_Variables (st : ScanState) (l : Str) :
    (parseLine st l).Variables = st.Variables ++ (declaredVariable l).toList := by
  rw [parseLine_eq]
  unfold declaredVariable
  cases classify l with
  | subject t => simp
  | typeDecl n T => exact typeDirective_Variables st n T
  | body => simp

theorem foldl_parseLine_keys (lines : List Str) (st : ScanState) :
    (lines.foldl parseLine st).structMap.keys =
      (mentionedStructs lines).foldl addKey st.structMap.keys := by
  induction lines generalizing st with
  | nil => rfl
  | cons l ls ih =>
    rw [List.foldl_cons, ih, parseLine_structMap_keys]
    unfold mentionedStructs
    cases h : mentionedStruct l with
    | none => simp [List.filterMap_cons, h]
    | some k => simp [List.filterMap_cons, h]

theorem foldl_parseLine_namesOK (lines : List Str) (st : ScanState) (h : namesOK st.structMap) :
    namesOK (lines.foldl parseLine st).structMap := by
  induction lines generalizing st with
  | nil => exact h
  | cons l ls ih => exact ih _ (parseLine_namesOK st l h)

theorem foldl_parseLine_hasField (lines : List Str) (st : ScanState) {k : Str}
    {f : ParsedField} (h : hasField st.structMap k f) :
    hasField (lines.foldl parseLine st).structMap k f := by
  induction lines generalizing st with
  | nil => exact h
  | cons l ls ih => exact ih _ (parseLine_hasField st l h)

theorem foldl_parseLine_Variables (lines : List Str) (st : ScanState) :
    (lines.foldl parseLine st).Variables = st.Variables ++ declaredVariables lines := by
  induction lines generalizing st with
  | nil => simp [declaredVariables]
  | cons l ls ih =>
    rw [List.foldl_cons, ih, parseLine_Variables]
    unfold declaredVariables
    cases h : declaredVariable l <;> simp [List.filterMap_cons, h]

theorem foldl_addKey_nodup (l ks : List Str) (h : ks.Nodup) : (l.foldl addKey ks).Nodup := by
  induction l generalizing ks with
  | nil => exact h
  | cons k l ih =>
    apply ih
    unfold addKey
    split
    · exact h
    · rename_i hk
      exact List.Nodup.append h (by simp) (by simpa using hk)

theorem mem_foldl_addKey (l ks : List Str) (x : Str) :
    x ∈ l.foldl addKey ks ↔ x ∈ ks ∨ x ∈ l := by
  induction l generalizing ks with
  | nil => simp
  | cons k l ih =>
    rw [List.foldl_cons, ih]
    unfold addKey
    by_cases hk : k ∈ ks
    · rw [if_pos hk]
      constructor
      · rintro (h | h)
        · exact Or.inl h
        · exact Or.inr (List.mem_cons_of_mem _ h)
      · rintro (h | h)
        · exact Or.inl h
        · rcases List.mem_cons.1 h with h1 | h1
          · subst h1; exact Or.inl hk
          · exact Or.inr h1
    · rw [if_neg hk]
      simp only [List.mem_append, List.mem_singleton, List.mem_cons]
      tauto

/-! ## The structs of the parsed template -/

theorem SplitN2_dotted {A : Str} (B : Str) (hA : '.' ∉ A) : SplitN2 (A ++ '.' :: B) = (A, B) := by
  induction A with
  | nil => simp [SplitN2]
  | cons c cs ih =>
    have hc : c ≠ '.' := fun h => hA (by simp [h])
    have hcs : '.' ∉ cs := fun h => hA (by simp [h])
    have e := ih hcs
    show SplitN2 (c :: (cs ++ '.' :: B)) = _
    rw [SplitN2, if_neg hc, e]

theorem Contains_iff (s : Str) (c : Char) : Contains s c = true ↔ c ∈ s := by
  unfold Contains
  induction s with
  | nil => simp
  | cons x xs ih =>
    rw [List.any_cons, Bool.or_eq_true, ih, List.mem_cons, beq_iff_eq]
    constructor
    · rintro (h | h)
      · exact Or.inl h.symm
      · exact Or.inr h
    · rintro (h | h)
      · exact Or.inl h.symm
      · exact Or.inr h

theorem namesOK_init : namesOK ScanState.init.structMap := by
  intro kv h; cases h

/-- The names of the structs are the keys of the struct map, rearranged. -/
theorem parseLines_struct_names_perm (ord : RangeOrders) (path : Str) (lines : List Str) :
    ((parseLines ord path lines).Structs.map (·.Name)).Perm
      ((mentionedStructs lines).foldl addKey []) := by
  rw [parseLines_Structs]
  have hok := foldl_parseLine_namesOK lines ScanState.init namesOK_init
  have hk := foldl_parseLine_keys lines ScanState.init
  have hp := rangeOrder_perm ord.structs (lines.foldl parseLine ScanState.init).structMap
  have h1 : ((rangeOrder ord.structs (lines.foldl parseLine ScanState.init).structMap).map
      (·.2)).map (·.Name) =
      (rangeOrder ord.structs (lines.foldl parseLine ScanState.init).structMap).map (·.1) := by
    rw [List.map_map]
    apply List.map_congr_left
    intro kv hkv
    exact hok kv (hp.subset hkv)
  rw [h1]
  have h2 := hp.map (·.1)
  unfold GoMap.keys at hk
  rw [hk] at h2
  exact h2

theorem mem_Structs_of_hasField {ord : RangeOrders} {path : Str} {lines : List Str} {k : Str}
    {f : ParsedField} (h : hasField (lines.foldl parseLine ScanState.init).structMap k f) :
    ∃ s ∈ (parseLines ord path lines).Structs, s.Name = k ∧ f ∈ s.Fields := by
  obtain ⟨s, hs, hf⟩ := h
  have hmem := GoMap_mem_of_lookup hs
  have hok := foldl_parseLine_namesOK lines ScanState.init namesOK_init
  refine ⟨s, ?_, hok (k, s) hmem, hf⟩
  rw [parseLines_Structs]
  exact List.mem_map.2 ⟨(k, s), (rangeOrder_perm _ _).mem_iff.2 hmem, rfl⟩

/-- A line that the loop takes for a type directive with the dotted name `A.B` and the
type `T` puts the field `UpperFirst B` of type `T` into the struct `UpperFirst A` of the
result, whatever the other lines are. -/
theorem dotted_directive_field (ord : RangeOrders) (path : Str) (lines : List Str)
    (l A B T : Str) (hl : l ∈ lines) (hA : '.' ∉ A)
    (hc : classify l = .typeDecl (A ++ '.' :: B) T) :
    ∃ s ∈ (parseLines ord path lines).Structs, s.Name = UpperFirst A ∧
      ({ Name := UpperFirst B, Typ := T } : ParsedField) ∈ s.Fields := by
  obtain ⟨front, back, hsplit⟩ := List.append_of_mem hl
  apply mem_Structs_of_hasField
  rw [hsplit, List.foldl_append, List.foldl_cons]
  apply foldl_parseLine_hasField
  rw [parseLine_eq, hc]
  have hdot : Contains (A ++ '.' :: B) '.' = true := (Contains_iff _ _).2 (by simp)
  have := typeDirective_dotted (front.foldl parseLine ScanState.init) (A ++ '.' :: B) T hdot
  rw [SplitN2_dotted B hA] at this
  exact this

/-! ## The inference of variables -/

theorem inferStep_eq (ex : GoMap Unit) (pt : ParsedTemplate) (name : Str) :
    inferStep ex pt name =
      if inferable ex pt.Structs name then
        { pt with
          Variables := pt.Variables ++ [stringVariable name]
          Types := pt.Types ++ [{ Typ := "string".toList }] }
      else pt := by
  unfold inferStep inferable
  by_cases h1 : (ex.lookup name).isSome = true
  · simp [h1]
  · by_cases h2 : pt.Structs.any (fun s => decide (UpperFirst name = s.Name)) = true
    · simp only [h1, h2]
      simp
    · simp only [h1, h2]
      simp [stringVariable]

theorem foldl_inferStep_Variables (ex : GoMap Unit) (names : List Str) (pt : ParsedTemplate) :
    (names.foldl (inferStep ex) pt).Variables =
        pt.Variables ++ (names.filter (inferable ex pt.Structs)).map stringVariable ∧
      (names.foldl (inferStep ex) pt).Types =
        pt.Types ++ (names.filter (inferable ex pt.Structs)).map
          (fun _ => ({ Typ := "string".toList } : ParsedType)) := by
  induction names generalizing pt with
  | nil => simp
  | cons n ns ih =>
    rw [List.foldl_cons]
    obtain ⟨h1, h2⟩ := ih (inferStep ex pt n)
    rw [h1, h2, (inferStep_fields ex pt n).2.2.1, inferStep_eq]
    by_cases hi : inferable ex pt.Structs n = true
    · simp [hi, List.filter_cons]
    · simp [hi, List.filter_cons]

theorem existingOf_keys_aux (vars : List ParsedVariable) (m : GoMap Unit) :
    (vars.foldl (fun m v => m.set v.Name ()) m).keys =
      (vars.map (·.Name)).foldl addKey m.keys := by
  induction vars generalizing m with
  | nil => rfl
  | cons v vs ih =>
    rw [List.foldl_cons, ih, GoMap_keys_set]
    rfl

theorem existingOf_lookup (vars : List ParsedVariable) (name : Str) :
    ((existingOf vars).lookup name).isSome = true ↔ name ∈ vars.map (·.Name) := by
  rw [GoMap_lookup_isSome]
  unfold existingOf
  rw [existingOf_keys_aux, mem_foldl_addKey]
  simp [GoMap.keys]

theorem addCandidates_keys_nodup (ms : List (List Str)) (c : GoMap Unit) (h : c.keys.Nodup) :
    (addCandidates c ms).keys.Nodup := by
  unfold addCandidates
  induction ms generalizing c with
  | nil => exact h
  | cons m ms ih =>
    rw [List.foldl_cons]
    apply ih
    split
    · exact GoMap_keys_set_nodup _ _ _ h
    · exact h

theorem candidatesOf_keys_nodup (subject html : Str) : (candidatesOf subject html).keys.Nodup :=
  addCandidates_keys_nodup _ _ (addCandidates_keys_nodup _ _ List.nodup_nil)

/-- The names the loop of `inferSimpleVariables` visits, in the order of the visit. -/
theorem inferSimpleVariables_eq (ord : List Nat) (pt : ParsedTemplate) :
    inferSimpleVariables ord pt =
      ((rangeOrder ord (candidatesOf pt.Subject pt.HTML)).map (·.1)).foldl
        (inferStep (existingOf pt.Variables)) pt := rfl

theorem collect_fields (ord : RangeOrders) (path : Str) (st : ScanState) :
    (collect ord path st).Variables = st.Variables ∧ (collect ord path st).Subject = st.Subject ∧
      (collect ord path st).HTML = st.htmlBuf := ⟨rfl, rfl, rfl⟩

/-- The variables of the parsed template: the declared ones in source order, then the
inferred ones. -/
theorem parseLines_Variables (ord : RangeOrders) (path : Str) (lines : List Str) :
    (parseLines ord path lines).Variables =
      declaredVariables lines ++
        (((rangeOrder ord.candidates
            (candidatesOf (parseLines ord path lines).Subject
              (parseLines ord path lines).HTML)).map (·.1)).filter
          (inferable (existingOf (declaredVariables lines))
            (parseLines ord path lines).Structs)).map stringVariable := by
  have hS := parseLines_Subject ord path lines
  have hH := parseLines_HTML ord path lines
  have hSt := parseLines_Structs ord path lines
  have hV : (collect ord path (lines.foldl parseLine ScanState.init)).Variables =
      declaredVariables lines := by
    rw [(collect_fields _ _ _).1, foldl_parseLine_Variables]
    rfl
  rw [hS, hH, hSt]
  unfold parseLines
  rw [inferSimpleVariables_eq, (foldl_inferStep_Variables _ _ _).1, hV]
  rfl

theorem inferred_names_nodup (ord : List Nat) (c : GoMap Unit) (p : Str → Bool)
    (h : c.keys.Nodup) : (((rangeOrder ord c).map (·.1)).filter p).Nodup := by
  apply List.Nodup.filter
  have hp : ((rangeOrder ord c).map (·.1)).Perm (c.map (·.1)) :=
    (rangeOrder_perm ord c).map _
  exact hp.nodup_iff.2 h

theorem mem_declaredVariables_of_classify {lines : List Str} {l n T : Str} (hl : l ∈ lines)
    (hc : classify l = .typeDecl n T) (hn : '.' ∉ n) (hT : T ≠ []) :
    ({ Name := n, Typ := T } : ParsedVariable) ∈ declaredVariables lines := by
  unfold declaredVariables
  rw [List.mem_filterMap]
  refine ⟨l, hl, ?_⟩
  unfold declaredVariable declVariable
  rw [hc]
  have hdot : Contains n '.' = false := by
    cases h : Contains n '.' with
    | false => rfl
    | true => exact absurd ((Contains_iff _ _).1 h) hn
  simp [hdot, hT]

/-- A line that the loop takes for a type directive with a name `n` without dot and a
non-empty type `T` adds the variable `n` of type `T`, and leaves the struct map as it
is. -/
theorem typed_directive_variable (ord : RangeOrders) (path : Str) (lines : List Str)
    (l n T : Str) (hl : l ∈ lines) (hc : classify l = .typeDecl n T) (hn : '.' ∉ n)
    (hT : T ≠ []) :
    ({ Name := n, Typ := T } : ParsedVariable) ∈ (parseLines ord path lines).Variables ∧
      ∀ st : ScanState, (parseLine st l).structMap = st.structMap := by
  refine ⟨?_, ?_⟩
  · rw [parseLines_Variables]
    exact List.mem_append_left _ (mem_declaredVariables_of_classify hl hc hn hT)
  · intro st
    rw [parseLine_eq, hc]
    have hdot : Contains n '.' = false := by
      cases h : Contains n '.' with
      | false => rfl
      | true => exact absurd ((Contains_iff _ _).1 h) hn
    exact typeDirective_variable_structMap st n T hdot hT

theorem parseLines_Types (ord : RangeOrders) (path : Str) (lines : List Str) :
    (parseLines ord path lines).Types =
      (rangeOrder ord.types (lines.foldl parseLine ScanState.init).typeSet).map
          (fun kv => ({ Typ := kv.1 } : ParsedType)) ++
        (((rangeOrder ord.candidates
            (candidatesOf (lines.foldl parseLine ScanState.init).Subject
              (lines.foldl parseLine ScanState.init).htmlBuf)).map (·.1)).filter
          (inferable (existingOf (lines.foldl parseLine ScanState.init).Variables)
            ((rangeOrder ord.structs
              (lines.foldl parseLine ScanState.init).structMap).map (·.2)))).map
          (fun _ => ({ Typ := "string".toList } : ParsedType)) := by
  unfold parseLines
  rw [inferSimpleVariables_eq, (foldl_inferStep_Variables _ _ _).2]
  rfl

theorem rangeOrder_nil {α : Type} (ch : List Nat) : rangeOrder ch ([] : List α) = [] := by
  cases ch <;> rfl

/-! ## Errors -/

theorem splitNL_replicate (n : Nat) : splitNL (List.replicate n 'a') = [List.replicate n 'a'] := by
  induction n with
  | zero => rfl
  | succ n ih =>
    rw [List.replicate_succ, splitNL_cons, if_neg (by decide), ih]

theorem byteLen_replicate (n : Nat) : byteLen (List.replicate n 'a') = n := by
  induction n with
  | zero => rfl
  | succ n ih =>
    unfold byteLen at ih ⊢
    rw [List.replicate_succ, List.map_cons, List.sum_cons, ih]
    have : Char.utf8Size 'a' = 1 := by decide
    omega

theorem rawLines_replicate (n : Nat) :
    rawLines (List.replicate (n + 1) 'a') = [List.replicate (n + 1) 'a'] := by
  unfold rawLines
  rw [splitNL_replicate, List.replicate_succ]
  simp

theorem not_linesFit_replicate (n : Nat) (h : MaxScanTokenSize ≤ n + 1) :
    ¬ linesFit (List.replicate (n + 1) 'a') := by
  intro hfit
  have := hfit (List.replicate (n + 1) 'a') (by rw [rawLines_replicate]; exact List.mem_singleton.2 rfl)
  rw [byteLen_replicate] at this
  omega

theorem not_linesFit_longLine : ¬ linesFit longLine :=
  not_linesFit_replicate 65535 (by decide)

theorem ParseFile_of_not_linesFit (ord : RangeOrders) (path : Str) {data : Str}
    (h : ¬ linesFit data) :
    ParseFile ord path (some data) = .error (.scanning .ErrTooLong) := by
  simp [ParseFile, scanLines_of_not_linesFit h]

/-! ## The placeholder pattern -/

theorem reSimpleVar_eq :
    reSimpleVar = ("\x7b\x7b".toList).map Tok.lit ++ reSimpleVarBody := rfl

theorem matchAt_opt_take {c : Char} {r : Regex} {xs : Str} {m : List Str}
    (h : matchAt r xs = some m) : matchAt (Tok.opt c :: r) (c :: xs) = some m := by
  simp only [matchAt, if_true, h]

theorem matchAt_opt_skip {c : Char} {r : Regex} {s : Str} (h : ∀ x ∈ s.head?, x ≠ c) :
    matchAt (Tok.opt c :: r) s = matchAt r s := by
  cases s with
  | nil => rfl
  | cons x xs =>
    have hx : x ≠ c := h x (by simp)
    simp only [matchAt, hx, if_false]

theorem matchAt_opt_some {c : Char} {r : Regex} {s : Str} {m : List Str}
    (h : matchAt (Tok.opt c :: r) s = some m) :
    ∃ d suf, s = d ++ suf ∧ (d = [] ∨ d = [c]) ∧ matchAt r suf = some m := by
  cases s with
  | nil => exact ⟨[], [], rfl, Or.inl rfl, h⟩
  | cons x xs =>
    simp only [matchAt] at h
    split at h
    · rename_i hx
      subst hx
      split at h
      · rename_i m0 h0
        simp only [Option.some.injEq] at h
        subst h
        exact ⟨[x], xs, rfl, Or.inr rfl, h0⟩
      · exact ⟨[], x :: xs, rfl, Or.inl rfl, h⟩
    · exact ⟨[], x :: xs, rfl, Or.inl rfl, h⟩

theorem matchAt_one_some {p : Char → Bool} {r : Regex} {s : Str} {m : List Str}
    (h : matchAt (Tok.one p :: r) s = some m) :
    ∃ x xs, s = x :: xs ∧ p x = true ∧ matchAt r xs = some m := by
  cases s with
  | nil => simp [matchAt] at h
  | cons x xs =>
    simp only [matchAt] at h
    split at h
    · rename_i hx
      exact ⟨x, xs, rfl, hx, h⟩
    · exact absurd h (by simp)

theorem matchAt_one_cons {p : Char → Bool} {r : Regex} {x : Char} {xs : Str} (hx : p x = true) :
    matchAt (Tok.one p :: r) (x :: xs) = matchAt r xs := by
  simp only [matchAt, hx, if_true]

theorem isBlank_iff {w : Str} : isBlank w = true ↔ ∀ c ∈ w, reSpace c = true := by
  unfold isBlank
  exact List.all_eq_true

theorem isTrimMarker_iff {d : Str} : isTrimMarker d = true ↔ d = [] ∨ d = ['-'] := by
  unfold isTrimMarker
  simp

/-- The gap `\s*-?\s*` in front of a text that starts with neither white space nor a
trim marker: the first attempt of the matcher skips the whole gap. -/
theorem matchAt_reGap_skip {r : Regex} {w1 d1 w2 y : Str} {m : List Str}
    (hw1 : isBlank w1 = true) (hd1 : isTrimMarker d1 = true) (hw2 : isBlank w2 = true)
    (hy : ∀ c ∈ y.head?, reSpace c = false ∧ c ≠ '-') (h : matchAt r y = some m) :
    matchAt (reGap r) (w1 ++ (d1 ++ (w2 ++ y))) = some m := by
  have hy1 : ∀ c ∈ y.head?, reSpace c = false := fun c hc => (hy c hc).1
  have hy2 : ∀ c ∈ y.head?, c ≠ '-' := fun c hc => (hy c hc).2
  have hstar2 : matchAt (Tok.star reSpace :: r) (w2 ++ y) = some m := by
    rw [matchAt_star]
    apply starG_of_dropWhile
    rw [dropWhile_append_stop (isBlank_iff.1 hw2) hy1]
    exact h
  unfold reGap
  rw [matchAt_star]
  apply starG_of_dropWhile
  rcases isTrimMarker_iff.1 hd1 with hd | hd
  · subst hd
    have hw : ∀ c ∈ w1 ++ w2, reSpace c = true := by
      intro c hc
      rcases List.mem_append.1 hc with h1 | h1
      · exact isBlank_iff.1 hw1 c h1
      · exact isBlank_iff.1 hw2 c h1
    rw [List.nil_append, ← List.append_assoc, dropWhile_append_stop hw hy1,
      matchAt_opt_skip hy2, matchAt_star]
    apply starG_of_dropWhile
    have : y.dropWhile reSpace = y := by
      simpa using dropWhile_append_stop (w := []) (by simp) hy1
    rw [this]
    exact h
  · subst hd
    rw [dropWhile_append_stop (isBlank_iff.1 hw1) (by simp [reSpace])]
    exact matchAt_opt_take hstar2

/-- Every match of the gap `\s*-?\s*` consumes white space and at most one trim marker. -/
theorem matchAt_reGap_some {r : Regex} {s : Str} {m : List Str}
    (h : matchAt (reGap r) s = some m) :
    ∃ w1 d1 w2 y, s = w1 ++ (d1 ++ (w2 ++ y)) ∧ isBlank w1 = true ∧ isTrimMarker d1 = true ∧
      isBlank w2 = true ∧ matchAt r y = some m := by
  unfold reGap at h
  rw [matchAt_star] at h
  obtain ⟨w1, s1, h1, hw1, k1⟩ := starG_some h
  obtain ⟨d1, s2, h2, hd1, k2⟩ := matchAt_opt_some k1
  rw [matchAt_star] at k2
  obtain ⟨w2, y, h3, hw2, k3⟩ := starG_some k2
  refine ⟨w1, d1, w2, y, ?_, isBlank_iff.2 hw1, isTrimMarker_iff.2 hd1, isBlank_iff.2 hw2, k3⟩
  rw [h1, h2, h3]

theorem between_append (x r : Str) : between (x ++ r) r = x := by
  unfold between
  rw [List.length_append, Nat.add_sub_cancel, List.take_left']
  rfl

theorem reSpace_not_reWord {c : Char} (h : reSpace c = true) : reWord c = false := by
  rcases reSpace_cases h with h | h | h | h | h <;> subst h <;> decide

theorem reAlpha_not_blank_dash {c : Char} (h : reAlpha c = true) :
    reSpace c = false ∧ c ≠ '-' := by
  constructor
  · cases hs : reSpace c with
    | false => rfl
    | true =>
      rcases reSpace_cases hs with h1 | h1 | h1 | h1 | h1 <;> subst h1 <;>
        exact absurd h (by decide)
  · intro hc
    subst hc
    exact absurd h (by decide)

/-- The text that can follow the name in a placeholder starts with no character of the
class of the name. -/
theorem tail_head_not_word (w3 d2 w4 e : Str) (hw3 : isBlank w3 = true)
    (hd2 : isTrimMarker d2 = true) (hw4 : isBlank w4 = true) :
    ∀ c ∈ (w3 ++ (d2 ++ (w4 ++ ("\x7d\x7d".toList ++ e)))).head?, reWord c = false := by
  intro c hc
  cases w3 with
  | cons a as =>
    simp only [List.cons_append, List.head?_cons, Option.mem_def, Option.some.injEq] at hc
    subst hc
    exact reSpace_not_reWord (isBlank_iff.1 hw3 a (by simp))
  | nil =>
    rcases isTrimMarker_iff.1 hd2 with hd | hd
    · subst hd
      cases w4 with
      | cons a as =>
        simp only [List.nil_append, List.cons_append, List.head?_cons, Option.mem_def,
          Option.some.injEq] at hc
        subst hc
        exact reSpace_not_reWord (isBlank_iff.1 hw4 a (by simp))
      | nil =>
        simp only [List.nil_append] at hc
        have : c = '\x7d' := by
          simpa [eq_comm] using hc
        subst this
        decide
    · subst hd
      simp only [List.nil_append, List.cons_append, List.head?_cons, Option.mem_def,
        Option.some.injEq] at hc
      subst hc
      decide

/-- At a bare placeholder the pattern matches, the first submatch is the name, and the
match ends where the placeholder ends. -/
theorem matchAt_placeholder {w1 d1 w2 x w3 d2 w4 : Str} (e : Str)
    (hw1 : isBlank w1 = true) (hd1 : isTrimMarker d1 = true) (hw2 : isBlank w2 = true)
    (hx : isIdent x = true) (hw3 : isBlank w3 = true) (hd2 : isTrimMarker d2 = true)
    (hw4 : isBlank w4 = true) :
    matchAt reSimpleVar (placeholderText w1 d1 w2 x w3 d2 w4 ++ e) =
      some [x ++ (w3 ++ (d2 ++ (w4 ++ ("\x7d\x7d".toList ++ e)))),
        w3 ++ (d2 ++ (w4 ++ ("\x7d\x7d".toList ++ e))), e] := by
  cases x with
  | nil => simp [isIdent] at hx
  | cons a t =>
    simp only [isIdent, Bool.and_eq_true] at hx
    obtain ⟨ha, ht⟩ := hx
    have htw : ∀ c ∈ t, reWord c = true := List.all_eq_true.1 ht
    have hclose : matchAt (("\x7d\x7d".toList).map Tok.lit) ("\x7d\x7d".toList ++ e) = some [e] := by
      have := matchAt_lits "\x7d\x7d".toList [] ("\x7d\x7d".toList ++ e)
      rw [List.append_nil] at this
      rw [this, stripLit_append]
      rfl
    have htail : matchAt (reGap (("\x7d\x7d".toList).map Tok.lit))
        (w3 ++ (d2 ++ (w4 ++ ("\x7d\x7d".toList ++ e)))) = some [e] := by
      apply matchAt_reGap_skip hw3 hd2 hw4 _ hclose
      intro c hc
      have : c = '\x7d' := by simpa [eq_comm] using hc
      subst this
      decide
    have hname : matchAt (Tok.mark :: Tok.one reAlpha :: Tok.star reWord :: Tok.mark ::
        reGap (("\x7d\x7d".toList).map Tok.lit))
        ((a :: t) ++ (w3 ++ (d2 ++ (w4 ++ ("\x7d\x7d".toList ++ e))))) =
        some [(a :: t) ++ (w3 ++ (d2 ++ (w4 ++ ("\x7d\x7d".toList ++ e)))),
          w3 ++ (d2 ++ (w4 ++ ("\x7d\x7d".toList ++ e))), e] := by
      rw [matchAt_mark, List.cons_append, matchAt_one_cons ha, matchAt_star]
      have : starG reWord (matchAt (Tok.mark :: reGap (("\x7d\x7d".toList).map Tok.lit)))
          (t ++ (w3 ++ (d2 ++ (w4 ++ ("\x7d\x7d".toList ++ e))))) =
          some [w3 ++ (d2 ++ (w4 ++ ("\x7d\x7d".toList ++ e))), e] := by
        apply starG_of_dropWhile
        rw [dropWhile_append_stop htw (tail_head_not_word w3 d2 w4 e hw3 hd2 hw4), matchAt_mark,
          htail]
        rfl
      rw [this]
      rfl
    rw [reSimpleVar_eq, matchAt_lits]
    unfold placeholderText
    rw [List.append_assoc, stripLit_append, Option.some_bind]
    unfold reSimpleVarBody
    have hassoc : w1 ++ (d1 ++ (w2 ++ (a :: t ++ (w3 ++ (d2 ++ (w4 ++ "\x7d\x7d".toList)))))) ++ e =
        w1 ++ (d1 ++ (w2 ++ ((a :: t) ++ (w3 ++ (d2 ++ (w4 ++ ("\x7d\x7d".toList ++ e))))))) := by
      simp only [List.append_assoc]
    rw [hassoc]
    apply matchAt_reGap_skip hw1 hd1 hw2 _ hname
    intro c hc
    simp only [List.cons_append, List.head?_cons, Option.mem_def, Option.some.injEq] at hc
    subst hc
    exact reAlpha_not_blank_dash ha

/-- Every match of the placeholder pattern is a bare placeholder; its first submatch is
the name. -/
theorem matchAt_reSimpleVar_some {s : Str} {m : List Str} (h : matchAt reSimpleVar s = some m) :
    ∃ w1 d1 w2 x w3 d2 w4 e, isBlank w1 = true ∧ isTrimMarker d1 = true ∧ isBlank w2 = true ∧
      isIdent x = true ∧ isBlank w3 = true ∧ isTrimMarker d2 = true ∧ isBlank w4 = true ∧
      s = placeholderText w1 d1 w2 x w3 d2 w4 ++ e ∧
      m = [x ++ (w3 ++ (d2 ++ (w4 ++ ("\x7d\x7d".toList ++ e)))),
        w3 ++ (d2 ++ (w4 ++ ("\x7d\x7d".toList ++ e))), e] := by
  rw [reSimpleVar_eq, matchAt_lits] at h
  cases hs : stripLit "\x7b\x7b".toList s with
  | none => rw [hs] at h; cases h
  | some r0 =>
    rw [hs, Option.some_bind] at h
    have hs0 := stripLit_eq_some.1 hs
    unfold reSimpleVarBody at h
    obtain ⟨w1, d1, w2, y, hy, hw1, hd1, hw2, k1⟩ := matchAt_reGap_some h
    rw [matchAt_mark] at k1
    obtain ⟨m1, k2, hm⟩ := Option.map_eq_some'.1 k1
    obtain ⟨a, y1, hy1, ha, k3⟩ := matchAt_one_some k2
    rw [matchAt_star] at k3
    obtain ⟨t, y2, hy2, ht, k4⟩ := starG_some k3
    rw [matchAt_mark] at k4
    obtain ⟨m2, k5, hm2⟩ := Option.map_eq_some'.1 k4
    obtain ⟨w3, d2, w4, y3, hy3, hw3, hd2, hw4, k6⟩ := matchAt_reGap_some k5
    have k7 := matchAt_lits "\x7d\x7d".toList [] y3
    rw [List.append_nil] at k7
    rw [k7] at k6
    cases hs3 : stripLit "\x7d\x7d".toList y3 with
    | none => rw [hs3] at k6; cases k6
    | some e =>
      rw [hs3, Option.some_bind] at k6
      have he : m2 = [e] := by
        simp only [matchAt, Option.some.injEq] at k6
        exact k6.symm
      have hy3e := stripLit_eq_some.1 hs3
      refine ⟨w1, d1, w2, a :: t, w3, d2, w4, e, hw1, hd1, hw2, ?_, hw3, hd2, hw4, ?_, ?_⟩
      · simp only [isIdent, Bool.and_eq_true]
        exact ⟨ha, List.all_eq_true.2 ht⟩
      · rw [hs0, hy, hy1, hy2, hy3, hy3e]
        unfold placeholderText
        simp only [List.append_assoc, List.cons_append]
      · rw [← hm, ← hm2, he, hy1, hy2, hy3, hy3e]
        simp only [List.append_assoc, List.cons_append]

/-! ## Successive matches -/

theorem findAllFrom_cons_zero (re : Regex) (c : Char) (cs : Str) :
    findAllFrom re 0 (c :: cs) =
      match matchAt re (c :: cs) with
      | some m =>
        submatches (c :: cs) m ::
          findAllFrom re ((c :: cs).length - (m.getLastD []).length - 1) cs
      | none => findAllFrom re 0 cs := rfl

theorem findAllFrom_cons_succ (re : Regex) (k : Nat) (c : Char) (cs : Str) :
    findAllFrom re (k + 1) (c :: cs) = findAllFrom re k cs := rfl

/-- A match is among the successive matches when no match that starts before it
reaches into it. -/
theorem mem_findAllFrom {re : Regex} {s : Str} {m : List Str} (hs : s ≠ [])
    (hm : matchAt re s = some m) :
    ∀ (front : Str) (skip : Nat), skip ≤ front.length →
      (∀ f1 f2 m1, front = f1 ++ f2 → f2 ≠ [] → matchAt re (f2 ++ s) = some m1 →
        (f2 ++ s).length - (m1.getLastD []).length ≤ f2.length) →
      submatches s m ∈ findAllFrom re skip (front ++ s) := by
  intro front
  induction front with
  | nil =>
    intro skip hskip _
    have : skip = 0 := by simpa using hskip
    subst this
    cases s with
    | nil => exact absurd rfl hs
    | cons c cs =>
      rw [List.nil_append, findAllFrom_cons_zero, hm]
      exact List.mem_cons_self _ _
  | cons p ps ih =>
    intro skip hskip hno
    have hno2 : ∀ f1 f2 m1, ps = f1 ++ f2 → f2 ≠ [] → matchAt re (f2 ++ s) = some m1 →
        (f2 ++ s).length - (m1.getLastD []).length ≤ f2.length := by
      intro f1 f2 m1 hf hf2 hm1
      exact hno (p :: f1) f2 m1 (by rw [hf]; rfl) hf2 hm1
    cases skip with
    | succ k =>
      rw [List.cons_append, findAllFrom_cons_succ]
      exact ih k (by simpa using hskip) hno2
    | zero =>
      rw [List.cons_append, findAllFrom_cons_zero]
      cases hp : matchAt re (p :: (ps ++ s)) with
      | none => exact ih 0 (Nat.zero_le _) hno2
      | some m1 =>
        have hb := hno [] (p :: ps) m1 rfl (by simp) hp
        apply List.mem_cons_of_mem
        apply ih _ _ hno2
        simp only [List.cons_append, List.length_cons] at hb ⊢
        omega

/-- Every one of the successive matches is a match of the pattern at some place. -/
theorem findAllFrom_sound {re : Regex} {sm : List Str} :
    ∀ (txt : Str) (skip : Nat), sm ∈ findAllFrom re skip txt →
      ∃ f t m, txt = f ++ t ∧ matchAt re t = some m ∧ sm = submatches t m := by
  intro txt
  induction txt with
  | nil => intro skip h; cases skip <;> simp [findAllFrom] at h
  | cons c cs ih =>
    intro skip h
    cases skip with
    | succ k =>
      rw [findAllFrom_cons_succ] at h
      obtain ⟨f, t, m, h1, h2, h3⟩ := ih k h
      exact ⟨c :: f, t, m, by rw [h1]; rfl, h2, h3⟩
    | zero =>
      rw [findAllFrom_cons_zero] at h
      cases hp : matchAt re (c :: cs) with
      | none =>
        rw [hp] at h
        obtain ⟨f, t, m, h1, h2, h3⟩ := ih 0 h
        exact ⟨c :: f, t, m, by rw [h1]; rfl, h2, h3⟩
      | some m1 =>
        rw [hp] at h
        rcases List.mem_cons.1 h with h0 | h0
        · exact ⟨[], c :: cs, m1, rfl, hp, h0⟩
        · obtain ⟨f, t, m, h1, h2, h3⟩ := ih _ h0
          exact ⟨c :: f, t, m, by rw [h1]; rfl, h2, h3⟩

/-! ## Matches of the placeholder pattern do not reach into a later placeholder -/

theorem reSpace_ne_brace {c : Char} (h : reSpace c = true) : c ≠ '\x7b' := by
  rcases reSpace_cases h with h | h | h | h | h <;> subst h <;> decide

theorem reWord_ne_brace {c : Char} (h : reWord c = true) : c ≠ '\x7b' := by
  intro hc; subst hc; exact absurd h (by decide)

theorem reAlpha_reWord {c : Char} (h : reAlpha c = true) : reWord c = true := by
  unfold reWord; simp [h]

theorem isBlank_no_brace {w : Str} (h : isBlank w = true) : ∀ c ∈ w, c ≠ '\x7b' :=
  fun c hc => reSpace_ne_brace (isBlank_iff.1 h c hc)

theorem isTrimMarker_no_brace {d : Str} (h : isTrimMarker d = true) : ∀ c ∈ d, c ≠ '\x7b' := by
  intro c hc
  rcases isTrimMarker_iff.1 h with hd | hd
  · subst hd; cases hc
  · subst hd
    have : c = '-' := by simpa using hc
    subst this; decide

theorem isIdent_no_brace {x : Str} (h : isIdent x = true) : ∀ c ∈ x, c ≠ '\x7b' := by
  cases x with
  | nil => intro c hc; cases hc
  | cons a t =>
    simp only [isIdent, Bool.and_eq_true] at h
    intro c hc
    rcases List.mem_cons.1 hc with h1 | h1
    · subst h1; exact reWord_ne_brace (reAlpha_reWord h.1)
    · exact reWord_ne_brace (List.all_eq_true.1 h.2 c h1)

/-- The inside of a placeholder has no opening brace. -/
theorem placeholder_inside_no_brace {w1 d1 w2 x w3 d2 w4 : Str}
    (hw1 : isBlank w1 = true) (hd1 : isTrimMarker d1 = true) (hw2 : isBlank w2 = true)
    (hx : isIdent x = true) (hw3 : isBlank w3 = true) (hd2 : isTrimMarker d2 = true)
    (hw4 : isBlank w4 = true) :
    ∀ c ∈ w1 ++ (d1 ++ (w2 ++ (x ++ (w3 ++ (d2 ++ (w4 ++ "\x7d\x7d".toList)))))), c ≠ '\x7b' := by
  intro c hc
  simp only [List.mem_append] at hc
  rcases hc with h | h | h | h | h | h | h | h
  · exact isBlank_no_brace hw1 c h
  · exact isTrimMarker_no_brace hd1 c h
  · exact isBlank_no_brace hw2 c h
  · exact isIdent_no_brace hx c h
  · exact isBlank_no_brace hw3 c h
  · exact isTrimMarker_no_brace hd2 c h
  · exact isBlank_no_brace hw4 c h
  · have : c = '\x7d' := by simpa using h
    subst this; decide

theorem mem_of_append_eq_append {qs t Q e : Str} {c : Char} (h : qs ++ c :: t = Q ++ e)
    (hlen : qs.length < Q.length) : c ∈ Q := by
  induction qs generalizing Q with
  | nil =>
    cases Q with
    | nil => simp at hlen
    | cons q0 Q1 =>
      simp only [List.nil_append, List.cons_append, List.cons.injEq] at h
      rw [h.1]; exact List.mem_cons_self _ _
  | cons a as ih =>
    cases Q with
    | nil => simp at hlen
    | cons q0 Q1 =>
      simp only [List.cons_append, List.cons.injEq] at h
      exact List.mem_cons_of_mem _ (ih h.2 (by simpa using hlen))

/-- A match of the placeholder pattern that starts before an opening pair of braces
ends before it. -/
theorem reSimpleVar_no_overlap {f2 s1 : Str} {m1 : List Str} (hf2 : f2 ≠ [])
    (hm1 : matchAt reSimpleVar (f2 ++ '\x7b' :: '\x7b' :: s1) = some m1) :
    (f2 ++ '\x7b' :: '\x7b' :: s1).length - (m1.getLastD []).length ≤ f2.length := by
  obtain ⟨w1, d1, w2, x, w3, d2, w4, e, hw1, hd1, hw2, hx, hw3, hd2, hw4, hs, hm⟩ :=
    matchAt_reSimpleVar_some hm1
  have hQ := placeholder_inside_no_brace hw1 hd1 hw2 hx hw3 hd2 hw4
  have hlast : m1.getLastD [] = e := by rw [hm]; rfl
  rw [hlast, hs, List.length_append, Nat.add_sub_cancel]
  have hQlen : 1 ≤
      (w1 ++ (d1 ++ (w2 ++ (x ++ (w3 ++ (d2 ++ (w4 ++ "\x7d\x7d".toList))))))).length := by
    simp only [List.length_append]
    have : ("\x7d\x7d".toList).length = 2 := rfl
    omega
  unfold placeholderText at hs ⊢
  generalize w1 ++ (d1 ++ (w2 ++ (x ++ (w3 ++ (d2 ++ (w4 ++ "\x7d\x7d".toList)))))) = Q
    at hs hQ hQlen ⊢
  cases f2 with
  | nil => exact absurd rfl hf2
  | cons p ps =>
    have hs2 : p :: (ps ++ '\x7b' :: '\x7b' :: s1) = '\x7b' :: '\x7b' :: (Q ++ e) := by
      simpa using hs
    simp only [List.cons.injEq] at hs2
    obtain ⟨_, hs3⟩ := hs2
    cases ps with
    | nil =>
      simp only [List.nil_append, List.cons.injEq, true_and] at hs3
      cases Q with
      | nil => simp at hQlen
      | cons q0 Q1 =>
        simp only [List.cons_append, List.cons.injEq] at hs3
        exact absurd hs3.1.symm (hQ q0 (List.mem_cons_self _ _))
    | cons q qs =>
      simp only [List.cons_append, List.cons.injEq] at hs3
      obtain ⟨_, hs4⟩ := hs3
      by_cases hlen : qs.length < Q.length
      · exact absurd rfl (hQ _ (mem_of_append_eq_append hs4 hlen))
      · simp only [List.length_append, List.length_cons, List.length_nil]
        have : ("\x7b\x7b".toList).length = 2 := rfl
        omega

/-! ## The candidates of the inference -/

theorem mem_addCandidates_keys (ms : List (List Str)) (c : GoMap Unit) (x : Str) :
    x ∈ (addCandidates c ms).keys ↔
      x ∈ c.keys ∨ ∃ m ∈ ms, m.length > 1 ∧ m.getD 1 [] = x := by
  unfold addCandidates
  induction ms generalizing c with
  | nil => simp
  | cons m ms ih =>
    rw [List.foldl_cons, ih]
    by_cases hm : m.length > 1
    · rw [if_pos hm, GoMap_keys_set]
      constructor
      · rintro (h | ⟨m0, h0, h1⟩)
        · split at h
          · exact Or.inl h
          · rcases List.mem_append.1 h with h2 | h2
            · exact Or.inl h2
            · exact Or.inr ⟨m, List.mem_cons_self _ _, hm, (List.mem_singleton.1 h2).symm⟩
        · exact Or.inr ⟨m0, List.mem_cons_of_mem _ h0, h1⟩
      · rintro (h | ⟨m0, h0, h1⟩)
        · left
          split
          · exact h
          · exact List.mem_append_left _ h
        · rcases List.mem_cons.1 h0 with h2 | h2
          · subst h2
            left
            split
            · rename_i hk; rw [← h1.2]; exact hk
            · exact List.mem_append_right _ (List.mem_singleton.2 h1.2.symm)
          · exact Or.inr ⟨m0, h2, h1⟩
    · rw [if_neg hm]
      constructor
      · rintro (h | ⟨m0, h0, h1⟩)
        · exact Or.inl h
        · exact Or.inr ⟨m0, List.mem_cons_of_mem _ h0, h1⟩
      · rintro (h | ⟨m0, h0, h1⟩)
        · exact Or.inl h
        · rcases List.mem_cons.1 h0 with h2 | h2
          · subst h2; exact absurd h1.1 hm
          · exact Or.inr ⟨m0, h2, h1⟩

theorem mem_candidatesOf_keys (subject html x : Str) :
    x ∈ (candidatesOf subject html).keys ↔
      (∃ m ∈ FindAllStringSubmatch reSimpleVar subject, m.length > 1 ∧ m.getD 1 [] = x) ∨
      (∃ m ∈ FindAllStringSubmatch reSimpleVar html, m.length > 1 ∧ m.getD 1 [] = x) := by
  unfold candidatesOf
  rw [mem_addCandidates_keys, mem_addCandidates_keys]
  simp [GoMap.keys]

/-- The submatches of a match of the placeholder pattern: the whole match and the name. -/
theorem submatches_placeholder (s x tail e : Str) :
    (submatches s [x ++ tail, tail, e]).length > 1 ∧
      (submatches s [x ++ tail, tail, e]).getD 1 [] = x := by
  constructor
  · simp [submatches, groups]
  · simp only [submatches, groups, List.getD_cons_succ, List.getD_cons_zero]
    exact between_append x tail

/-- A bare placeholder of a text yields its name as a candidate. -/
theorem candidate_of_placeholder {x txt : Str} (hx : isIdent x = true)
    (h : barePlaceholderIn x txt) :
    ∃ m ∈ FindAllStringSubmatch reSimpleVar txt, m.length > 1 ∧ m.getD 1 [] = x := by
  obtain ⟨front, back, w1, d1, w2, w3, d2, w4, hw1, hd1, hw2, hw3, hd2, hw4, htxt⟩ := h
  have hm := matchAt_placeholder back hw1 hd1 hw2 hx hw3 hd2 hw4
  have hne : placeholderText w1 d1 w2 x w3 d2 w4 ++ back ≠ [] := by
    unfold placeholderText
    intro h0
    have := congrArg List.length h0
    simp at this
  have hstart : ∃ s1, placeholderText w1 d1 w2 x w3 d2 w4 ++ back = '\x7b' :: '\x7b' :: s1 :=
    ⟨_, rfl⟩
  obtain ⟨s1, hs1⟩ := hstart
  refine ⟨submatches (placeholderText w1 d1 w2 x w3 d2 w4 ++ back)
    [x ++ (w3 ++ (d2 ++ (w4 ++ ("\x7d\x7d".toList ++ back)))),
      w3 ++ (d2 ++ (w4 ++ ("\x7d\x7d".toList ++ back))), back], ?_,
    submatches_placeholder _ x _ back⟩
  unfold FindAllStringSubmatch
  rw [htxt]
  apply mem_findAllFrom hne hm front 0 (Nat.zero_le _)
  intro f1 f2 m1 _ hf2 hm1
  rw [hs1] at hm1 ⊢
  exact reSimpleVar_no_overlap hf2 hm1

/-- Every candidate is the name of a bare placeholder of the text. -/
theorem placeholder_of_candidate {txt : Str} {m : List Str}
    (h : m ∈ FindAllStringSubmatch reSimpleVar txt) :
    isIdent (m.getD 1 []) = true ∧ barePlaceholderIn (m.getD 1 []) txt := by
  obtain ⟨f, t, m0, h1, h2, h3⟩ := findAllFrom_sound txt 0 h
  obtain ⟨w1, d1, w2, x, w3, d2, w4, e, hw1, hd1, hw2, hx, hw3, hd2, hw4, hs, hm⟩ :=
    matchAt_reSimpleVar_some h2
  have hx1 : m.getD 1 [] = x := by
    rw [h3, hm]
    exact (submatches_placeholder t x _ e).2
  rw [hx1]
  exact ⟨hx, f, e, w1, d1, w2, w3, d2, w4, hw1, hd1, hw2, hw3, hd2, hw4, by rw [h1, hs]⟩

theorem any_struct_name (structs : List ParsedStruct) (k : Str) :
    structs.any (fun s => decide (k = s.Name)) = true ↔ k ∈ structs.map (·.Name) := by
  simp only [List.any_eq_true, decide_eq_true_eq, List.mem_map]
  constructor
  · rintro ⟨s, hs, h⟩; exact ⟨s, hs, h.symm⟩
  · rintro ⟨s, hs, h⟩; exact ⟨s, hs, h.symm⟩

theorem inferable_iff (ex : GoMap Unit) (structs : List ParsedStruct) (name : Str) :
    inferable ex structs name = true ↔
      name ∉ ex.keys ∧ UpperFirst name ∉ structs.map (·.Name) := by
  unfold inferable
  rw [Bool.and_eq_true, Bool.not_eq_true', Bool.not_eq_true', ← any_struct_name,
    ← GoMap_lookup_isSome]
  constructor
  · rintro ⟨h1, h2⟩
    exact ⟨by rw [h1]; exact Bool.false_ne_true, by rw [h2]; exact Bool.false_ne_true⟩
  · rintro ⟨h1, h2⟩
    exact ⟨Bool.eq_false_iff.2 h1, Bool.eq_false_iff.2 h2⟩

theorem existingOf_keys (vars : List ParsedVariable) (name : Str) :
    name ∈ (existingOf vars).keys ↔ name ∈ vars.map (·.Name) := by
  rw [← GoMap_lookup_isSome]
  exact existingOf_lookup vars name

/-- The inferred variables of the parsed template: the candidates that are not
declared and do not collide with a struct. -/
theorem mem_parseLines_Variables (ord : RangeOrders) (path : Str) (lines : List Str)
    (v : ParsedVariable) :
    v ∈ (parseLines ord path lines).Variables ↔
      v ∈ declaredVariables lines ∨
      ∃ name, v = stringVariable name ∧
        name ∈ (candidatesOf (parseLines ord path lines).Subject
          (parseLines ord path lines).HTML).keys ∧
        name ∉ (declaredVariables lines).map (·.Name) ∧
        UpperFirst name ∉ (parseLines ord path lines).Structs.map (·.Name) := by
  have hperm : ∀ name, name ∈ (rangeOrder ord.candidates
      (candidatesOf (parseLines ord path lines).Subject
        (parseLines ord path lines).HTML)).map (·.1) ↔
      name ∈ (candidatesOf (parseLines ord path lines).Subject
        (parseLines ord path lines).HTML).keys := by
    intro name
    exact ((rangeOrder_perm _ _).map _).mem_iff
  conv_lhs => rw [parseLines_Variables]
  rw [List.mem_append, List.mem_map]
  constructor
  · rintro (h | ⟨name, hn, rfl⟩)
    · exact Or.inl h
    · right
      obtain ⟨h1, h2⟩ := List.mem_filter.1 hn
      rw [inferable_iff, existingOf_keys] at h2
      exact ⟨name, rfl, (hperm name).1 h1, h2.1, h2.2⟩
  · rintro (h | ⟨name, rfl, h1, h2, h3⟩)
    · exact Or.inl h
    · right
      refine ⟨name, List.mem_filter.2 ⟨(hperm name).2 h1, ?_⟩, rfl⟩
      rw [inferable_iff, existingOf_keys]
      exact ⟨h2, h3⟩

/-! ## Dotted placeholders -/

theorem starG_cons_neg {R : Type} {p : Char → Bool} (k : Str → Option R) {c : Char} (cs : Str)
    (h : p c = false) : starG p k (c :: cs) = k (c :: cs) := by
  rw [starG]
  simp [h]

/-- After the name of a placeholder only white space, a trim marker or the closing
braces can follow. -/
theorem matchAt_gapClose_none {c : Char} (cs : Str) (h1 : reSpace c = false) (h2 : c ≠ '-')
    (h3 : c ≠ '\x7d') :
    matchAt (reGap (("\x7d\x7d".toList).map Tok.lit)) (c :: cs) = none := by
  unfold reGap
  rw [matchAt_star, starG_cons_neg _ _ h1, matchAt_opt_skip (by simpa using h2), matchAt_star,
    starG_cons_neg _ _ h1]
  have := matchAt_lits "\x7d\x7d".toList [] (c :: cs)
  rw [List.append_nil] at this
  rw [this]
  have : stripLit "\x7d\x7d".toList (c :: cs) = none := by
    show stripLit ('\x7d' :: ['\x7d']) (c :: cs) = none
    rw [stripLit, if_neg h3]
  rw [this]
  rfl

theorem reWord_not_gap {c : Char} (h : reWord c = true) :
    reSpace c = false ∧ c ≠ '-' ∧ c ≠ '\x7d' := by
  refine ⟨?_, ?_, ?_⟩
  · cases hs : reSpace c with
    | false => rfl
    | true => rw [reSpace_not_reWord hs] at h; cases h
  · intro hc; subst hc; exact absurd h (by decide)
  · intro hc; subst hc; exact absurd h (by decide)

/-- The placeholder pattern does not match at a dotted placeholder. -/
theorem matchAt_dotted_none {A : Str} (rest : Str) (hA : isIdent A = true) :
    matchAt reSimpleVar ("\x7b\x7b".toList ++ (A ++ ('.' :: rest))) = none := by
  cases A with
  | nil => simp [isIdent] at hA
  | cons a t =>
    simp only [isIdent, Bool.and_eq_true] at hA
    obtain ⟨ha, ht⟩ := hA
    have htw : ∀ c ∈ t, reWord c = true := List.all_eq_true.1 ht
    obtain ⟨ha1, ha2⟩ := reAlpha_not_blank_dash ha
    have hK : ∀ (c : Char) (cs : Str), reWord c = true →
        matchAt (Tok.mark :: reGap (("\x7d\x7d".toList).map Tok.lit)) cs = none →
        matchAt (Tok.mark :: reGap (("\x7d\x7d".toList).map Tok.lit)) (c :: cs) = none := by
      intro c cs hc _
      obtain ⟨g1, g2, g3⟩ := reWord_not_gap hc
      rw [matchAt_mark, matchAt_gapClose_none cs g1 g2 g3]
      rfl
    have hstar : starG reWord (matchAt (Tok.mark :: reGap (("\x7d\x7d".toList).map Tok.lit)))
        (t ++ ('.' :: rest)) = none := by
      rw [starG_eq_dropWhile hK, dropWhile_append_stop htw (by simp; decide), matchAt_mark,
        matchAt_gapClose_none rest (by decide) (by decide) (by decide)]
      rfl
    rw [reSimpleVar_eq, matchAt_lits, stripLit_append, Option.some_bind]
    unfold reSimpleVarBody reGap
    rw [List.cons_append, matchAt_star, starG_cons_neg _ _ ha1,
      matchAt_opt_skip (by simpa using ha2), matchAt_star, starG_cons_neg _ _ ha1, matchAt_mark,
      matchAt_one_cons ha, matchAt_star]
    show Option.map _ (starG reWord
      (matchAt (Tok.mark :: reGap (("\x7d\x7d".toList).map Tok.lit))) (t ++ ('.' :: rest))) = none
    rw [hstar]
    rfl

theorem matchAt_reSimpleVar_start {s : Str} {m : List Str} (h : matchAt reSimpleVar s = some m) :
    ∃ s1, s = '\x7b' :: '\x7b' :: s1 := by
  obtain ⟨w1, d1, w2, x, w3, d2, w4, e, _, _, _, _, _, _, _, hs, _⟩ := matchAt_reSimpleVar_some h
  exact ⟨_, hs⟩

theorem findAllFrom_no_brace (txt : Str) (h : ∀ c ∈ txt, c ≠ '\x7b') (k : Nat) :
    findAllFrom reSimpleVar k txt = [] := by
  induction txt generalizing k with
  | nil => cases k <;> rfl
  | cons c cs ih =>
    have hcs : ∀ x ∈ cs, x ≠ '\x7b' := fun x hx => h x (List.mem_cons_of_mem _ hx)
    cases k with
    | succ k => rw [findAllFrom_cons_succ]; exact ih hcs k
    | zero =>
      rw [findAllFrom_cons_zero]
      cases hm : matchAt reSimpleVar (c :: cs) with
      | none => exact ih hcs 0
      | some m =>
        obtain ⟨s1, hs1⟩ := matchAt_reSimpleVar_start hm
        simp only [List.cons.injEq] at hs1
        exact absurd hs1.1 (h c (List.mem_cons_self _ _))

theorem reName_ne_brace {c : Char} (h : reName c = true) : c ≠ '\x7b' := by
  intro hc; subst hc; exact absurd h (by decide)

/-- A dotted placeholder yields no match of the placeholder pattern. -/
theorem FindAll_dottedPlaceholder {A B : Str} (hA : isIdent A = true)
    (hB : ∀ c ∈ B, reName c = true) :
    FindAllStringSubmatch reSimpleVar (dottedPlaceholder A B) = [] := by
  have hin : ∀ c ∈ A ++ ('.' :: (B ++ "\x7d\x7d".toList)), c ≠ '\x7b' := by
    intro c hc
    rcases List.mem_append.1 hc with h | h
    · exact isIdent_no_brace hA c h
    · rcases List.mem_cons.1 h with h1 | h1
      · subst h1; decide
      · rcases List.mem_append.1 h1 with h2 | h2
        · exact reName_ne_brace (hB c h2)
        · have : c = '\x7d' := by simpa using h2
          subst this; decide
  unfold FindAllStringSubmatch dottedPlaceholder
  show findAllFrom reSimpleVar 0 ('\x7b' :: '\x7b' :: (A ++ ('.' :: (B ++ "\x7d\x7d".toList)))) = []
  rw [findAllFrom_cons_zero]
  have h0 := matchAt_dotted_none (B ++ "\x7d\x7d".toList) hA
  have h0b : matchAt reSimpleVar ('\x7b' :: '\x7b' :: (A ++ ('.' :: (B ++ "\x7d\x7d".toList)))) =
      none := h0
  rw [h0b]
  simp only
  rw [findAllFrom_cons_zero]
  cases hm : matchAt reSimpleVar ('\x7b' :: (A ++ ('.' :: (B ++ "\x7d\x7d".toList)))) with
  | none => exact findAllFrom_no_brace _ hin 0
  | some m =>
    obtain ⟨s1, hs1⟩ := matchAt_reSimpleVar_start hm
    simp only [List.cons.injEq, true_and] at hs1
    cases A with
    | nil => simp [isIdent] at hA
    | cons a t =>
      simp only [List.cons_append, List.cons.injEq] at hs1
      exact absurd hs1.1 (hin a (by simp))

/-! ## The type pattern at a type directive comment -/

theorem reTypeDef_eq :
    reTypeDef = ("<!--".toList).map Tok.lit ++
      (Tok.star reSpace :: (("@type".toList).map Tok.lit ++
        (Tok.one reSpace :: Tok.star reSpace :: reTypeDefBody))) := rfl

theorem isName_iff {n : Str} : isName n = true ↔ ∀ c ∈ n, reName c = true := by
  unfold isName
  exact List.all_eq_true

theorem reSpace_not_reName {c : Char} (h : reSpace c = true) : reName c = false := by
  rcases reSpace_cases h with h | h | h | h | h <;> subst h <;> decide

theorem reName_not_reSpace {c : Char} (h : reName c = true) : reSpace c = false := by
  cases hs : reSpace c with
  | false => rfl
  | true => rw [reSpace_not_reName hs] at h; cases h

theorem reName_toNat {c : Char} (h : reName c = true) :
    (65 ≤ c.toNat ∧ c.toNat ≤ 90) ∨ (97 ≤ c.toNat ∧ c.toNat ≤ 122) ∨
      (48 ≤ c.toNat ∧ c.toNat ≤ 57) ∨ c.toNat = 95 ∨ c.toNat = 46 := by
  unfold reName reWord reAlpha at h
  simp only [Bool.or_eq_true, Bool.and_eq_true, decide_eq_true_eq, beq_iff_eq] at h
  rcases h with ((h | h) | h) | h
  · rcases h with h | h
    · exact Or.inl h
    · exact Or.inr (Or.inl h)
  · exact Or.inr (Or.inr (Or.inl h))
  · subst h; exact Or.inr (Or.inr (Or.inr (Or.inl rfl)))
  · subst h; exact Or.inr (Or.inr (Or.inr (Or.inr rfl)))

theorem reName_not_unicodeIsSpace {c : Char} (h : reName c = true) :
    unicodeIsSpace c = false := by
  have hn := reName_toNat h
  unfold unicodeIsSpace
  have hle : c.toNat ≤ 0xFF := by omega
  simp only [hle, if_true]
  simp only [Bool.or_eq_false_iff, beq_eq_false_iff_ne, ne_eq]
  refine ⟨⟨⟨⟨⟨⟨⟨?_, ?_⟩, ?_⟩, ?_⟩, ?_⟩, ?_⟩, ?_⟩, ?_⟩ <;> omega

theorem TrimSpace_of_no_space {x : Str} (h : ∀ c ∈ x, unicodeIsSpace c = false) :
    TrimSpace x = x := by
  unfold TrimSpace
  have h1 : ∀ y : Str, (∀ c ∈ y, unicodeIsSpace c = false) → y.dropWhile unicodeIsSpace = y := by
    intro y hy
    cases y with
    | nil => rfl
    | cons a as =>
      rw [List.dropWhile_cons_of_neg]
      rw [hy a (List.mem_cons_self _ _)]
      exact Bool.false_ne_true
  rw [h1 x h, h1 x.reverse (fun c hc => h c (List.mem_reverse.1 hc)), List.reverse_reverse]

theorem TrimSpace_of_isName {n : Str} (h : isName n = true) : TrimSpace n = n :=
  TrimSpace_of_no_space (fun c hc => reName_not_unicodeIsSpace (isName_iff.1 h c hc))

theorem matchAt_arrow_end :
    matchAt (reLit "-->") "-->".toList = some [[]] := by decide

theorem matchAt_one_star_blank {r : Regex} {w y : Str} {m : List Str} (hw : isBlank w = true)
    (hne : w ≠ []) (hy : ∀ c ∈ y.head?, reSpace c = false) (h : matchAt r y = some m) :
    matchAt (Tok.one reSpace :: Tok.star reSpace :: r) (w ++ y) = some m := by
  cases w with
  | nil => exact absurd rfl hne
  | cons a as =>
    have ha := isBlank_iff.1 hw a (List.mem_cons_self _ _)
    have has : ∀ c ∈ as, reSpace c = true := fun c hc =>
      isBlank_iff.1 hw c (List.mem_cons_of_mem _ hc)
    rw [List.cons_append, matchAt_one_cons ha, matchAt_star]
    apply starG_of_dropWhile
    rw [dropWhile_append_stop has hy]
    exact h

/-- The end of the type pattern after the name, when there is no type. -/
theorem matchAt_typeDef_tail_empty {w : Str} (hw : isBlank w = true) :
    matchAt [Tok.star reSpace, Tok.mark, Tok.star reName, Tok.mark, Tok.star reSpace,
        Tok.lit '-', Tok.lit '-', Tok.lit '>'] (w ++ "-->".toList) =
      some ["-->".toList, "-->".toList, []] := by
  rw [matchAt_star]
  apply starG_of_dropWhile
  rw [dropWhile_append_stop (isBlank_iff.1 hw) (by simp; decide)]
  decide

/-- The end of the type pattern after the name, when there is a type. -/
theorem matchAt_typeDef_tail_type {w3 T w4 : Str} (hw3 : isBlank w3 = true)
    (hT : isName T = true) (hTne : T ≠ []) (hw4 : isBlank w4 = true) :
    matchAt [Tok.star reSpace, Tok.mark, Tok.star reName, Tok.mark, Tok.star reSpace,
        Tok.lit '-', Tok.lit '-', Tok.lit '>'] (w3 ++ (T ++ (w4 ++ "-->".toList))) =
      some [T ++ (w4 ++ "-->".toList), w4 ++ "-->".toList, []] := by
  have hThead : ∀ c ∈ (T ++ (w4 ++ "-->".toList)).head?, reSpace c = false := by
    intro c hc
    cases T with
    | nil => exact absurd rfl hTne
    | cons a as =>
      simp only [List.cons_append, List.head?_cons, Option.mem_def, Option.some.injEq] at hc
      subst hc
      exact reName_not_reSpace (isName_iff.1 hT a (List.mem_cons_self _ _))
  have hw4head : ∀ c ∈ (w4 ++ "-->".toList).head?, reName c = false := by
    intro c hc
    cases w4 with
    | nil =>
      have : c = '-' := by simpa [eq_comm] using hc
      subst this; decide
    | cons a as =>
      simp only [List.cons_append, List.head?_cons, Option.mem_def, Option.some.injEq] at hc
      subst hc
      exact reSpace_not_reName (isBlank_iff.1 hw4 a (List.mem_cons_self _ _))
  have h3 : matchAt [Tok.star reSpace, Tok.lit '-', Tok.lit '-', Tok.lit '>']
      (w4 ++ "-->".toList) = some [[]] := by
    rw [matchAt_star]
    apply starG_of_dropWhile
    rw [dropWhile_append_stop (isBlank_iff.1 hw4) (by simp; decide)]
    decide
  have h2 : matchAt [Tok.star reName, Tok.mark, Tok.star reSpace, Tok.lit '-', Tok.lit '-',
      Tok.lit '>'] (T ++ (w4 ++ "-->".toList)) = some [w4 ++ "-->".toList, []] := by
    rw [matchAt_star]
    apply starG_of_dropWhile
    rw [dropWhile_append_stop (isName_iff.1 hT) hw4head, matchAt_mark, h3]
    rfl
  rw [matchAt_star]
  apply starG_of_dropWhile
  rw [dropWhile_append_stop (isBlank_iff.1 hw3) hThead, matchAt_mark, h2]
  rfl

/-- At a well-formed type directive comment the type pattern matches, the first
submatch is the name and the second is the type. -/
theorem matchAt_typeComment {w1 w2 n w3 T w4 : Str} (hok : typeCommentOK w1 w2 n w3 T w4 = true) :
    ∃ m, matchAt reTypeDef (typeComment w1 w2 n w3 T w4) = some m ∧
      (submatches (typeComment w1 w2 n w3 T w4) m).getD 1 [] = n ∧
      (submatches (typeComment w1 w2 n w3 T w4) m).getD 2 [] = T := by
  simp only [typeCommentOK, Bool.and_eq_true, Bool.or_eq_true, Bool.not_eq_true',
    List.isEmpty_eq_true, List.isEmpty_eq_false] at hok
  obtain ⟨⟨⟨⟨⟨⟨⟨⟨hw1, hw2⟩, hw2ne⟩, hn⟩, hnne⟩, hw3⟩, hT⟩, hsep⟩, hw4⟩ := hok
  cases n with
  | nil => exact absurd rfl hnne
  | cons a t =>
    have ha : reName a = true := isName_iff.1 hn a (List.mem_cons_self _ _)
    have ht : ∀ c ∈ t, reName c = true := fun c hc =>
      isName_iff.1 hn c (List.mem_cons_of_mem _ hc)
    -- the text after the name, and the match of the rest of the pattern there
    have htail : ∃ o c, matchAt [Tok.star reSpace, Tok.mark, Tok.star reName, Tok.mark,
        Tok.star reSpace, Tok.lit '-', Tok.lit '-', Tok.lit '>']
        (w3 ++ (T ++ (w4 ++ "-->".toList))) = some [o, c, []] ∧ between o c = T ∧
        ∀ x ∈ (w3 ++ (T ++ (w4 ++ "-->".toList))).head?, reName x = false := by
      by_cases hTe : T = []
      · subst hTe
        have hw : isBlank (w3 ++ w4) = true := by
          rw [isBlank_iff]
          intro c hc
          rcases List.mem_append.1 hc with h | h
          · exact isBlank_iff.1 hw3 c h
          · exact isBlank_iff.1 hw4 c h
        refine ⟨"-->".toList, "-->".toList, ?_, by decide, ?_⟩
        · have := matchAt_typeDef_tail_empty hw
          rw [List.append_assoc] at this
          exact this
        · intro x hx
          rw [List.nil_append, ← List.append_assoc] at hx
          cases hws : w3 ++ w4 with
          | nil =>
            rw [hws] at hx
            have : x = '-' := by simpa [eq_comm] using hx
            subst this; decide
          | cons b bs =>
            rw [hws] at hx
            simp only [List.cons_append, List.head?_cons, Option.mem_def,
              Option.some.injEq] at hx
            subst hx
            exact reSpace_not_reName (isBlank_iff.1 hw b (by rw [hws]; exact List.mem_cons_self _ _))
      · refine ⟨_, _, matchAt_typeDef_tail_type hw3 hT hTe hw4, between_append T _, ?_⟩
        intro x hx
        have hw3ne : w3 ≠ [] := by
          rcases hsep with h | h
          · exact absurd h hTe
          · exact h
        cases w3 with
        | nil => exact absurd rfl hw3ne
        | cons b bs =>
          simp only [List.cons_append, List.head?_cons, Option.mem_def, Option.some.injEq] at hx
          subst hx
          exact reSpace_not_reName (isBlank_iff.1 hw3 b (List.mem_cons_self _ _))
    obtain ⟨o, c, hm, hbetween, hhead⟩ := htail
    have hbody : matchAt reTypeDefBody ((a :: t) ++ (w3 ++ (T ++ (w4 ++ "-->".toList)))) =
        some [(a :: t) ++ (w3 ++ (T ++ (w4 ++ "-->".toList))),
          w3 ++ (T ++ (w4 ++ "-->".toList)), o, c, []] := by
      show matchAt (Tok.mark :: Tok.one reName :: Tok.star reName :: Tok.mark ::
        [Tok.star reSpace, Tok.mark, Tok.star reName, Tok.mark, Tok.star reSpace,
          Tok.lit '-', Tok.lit '-', Tok.lit '>']) _ = _
      rw [matchAt_mark, List.cons_append, matchAt_one_cons ha, matchAt_star]
      have : starG reName (matchAt (Tok.mark :: [Tok.star reSpace, Tok.mark, Tok.star reName,
          Tok.mark, Tok.star reSpace, Tok.lit '-', Tok.lit '-', Tok.lit '>']))
          (t ++ (w3 ++ (T ++ (w4 ++ "-->".toList)))) =
          some [w3 ++ (T ++ (w4 ++ "-->".toList)), o, c, []] := by
        apply starG_of_dropWhile
        rw [dropWhile_append_stop ht hhead, matchAt_mark, hm]
        rfl
      rw [this]
      rfl
    have hfull : matchAt reTypeDef (typeComment w1 w2 (a :: t) w3 T w4) =
        some [(a :: t) ++ (w3 ++ (T ++ (w4 ++ "-->".toList))),
          w3 ++ (T ++ (w4 ++ "-->".toList)), o, c, []] := by
      rw [reTypeDef_eq, matchAt_lits]
      unfold typeComment
      rw [stripLit_append, Option.some_bind, matchAt_star]
      apply starG_of_dropWhile
      rw [dropWhile_append_stop (isBlank_iff.1 hw1) (by simp; decide), matchAt_lits,
        stripLit_append, Option.some_bind]
      apply matchAt_one_star_blank hw2 hw2ne _ hbody
      intro x hx
      simp only [List.cons_append, List.head?_cons, Option.mem_def, Option.some.injEq] at hx
      subst hx
      exact reName_not_reSpace ha
    refine ⟨_, hfull, ?_, ?_⟩
    · simp only [submatches, groups, List.getD_cons_succ, List.getD_cons_zero]
      exact between_append _ _
    · simp only [submatches, groups, List.getD_cons_succ, List.getD_cons_zero]
      exact hbetween

theorem matchAt_reSubject_dollar {t : Str} {m : List Str} (h : matchAt reSubject t = some m) :
    '$' ∈ t := by
  rw [matchAt_reSubject] at h
  cases h1 : stripLit "<!--".toList t with
  | none => rw [h1] at h; cases h
  | some r =>
    rw [h1, Option.some_bind] at h
    cases h2 : stripLit "$Subject:".toList (r.dropWhile reSpace) with
    | none => rw [h2] at h; cases h
    | some r2 =>
      have ht := stripLit_eq_some.1 h1
      have hr := stripLit_eq_some.1 h2
      have hmem : '$' ∈ r.dropWhile reSpace := by rw [hr]; simp
      rw [ht]
      apply List.mem_append_right
      rw [← List.takeWhile_append_dropWhile reSpace r]
      exact List.mem_append_right _ hmem

theorem search_reSubject_none_of_no_dollar {l : Str} (h : '$' ∉ l) :
    search reSubject l = none := by
  rw [search_eq_none]
  intro front t hl
  cases hm : matchAt reSubject t with
  | none => rfl
  | some m =>
    exact absurd (by rw [hl]; exact List.mem_append_right _ (matchAt_reSubject_dollar hm)) h

theorem reSpace_ne_dollar {c : Char} (h : reSpace c = true) : c ≠ '$' := by
  rcases reSpace_cases h with h | h | h | h | h <;> subst h <;> decide

theorem reName_ne_dollar {c : Char} (h : reName c = true) : c ≠ '$' := by
  intro hc; subst hc; exact absurd h (by decide)

theorem typeComment_no_dollar {w1 w2 n w3 T w4 : Str} (hw1 : isBlank w1 = true)
    (hw2 : isBlank w2 = true) (hn : isName n = true) (hw3 : isBlank w3 = true)
    (hT : isName T = true) (hw4 : isBlank w4 = true) : '$' ∉ typeComment w1 w2 n w3 T w4 := by
  unfold typeComment
  intro h
  simp only [List.mem_append] at h
  rcases h with h | h | h | h | h | h | h | h | h
  · exact absurd h (by decide)
  · exact reSpace_ne_dollar (isBlank_iff.1 hw1 _ h) rfl
  · exact absurd h (by decide)
  · exact reSpace_ne_dollar (isBlank_iff.1 hw2 _ h) rfl
  · exact reName_ne_dollar (isName_iff.1 hn _ h) rfl
  · exact reSpace_ne_dollar (isBlank_iff.1 hw3 _ h) rfl
  · exact reName_ne_dollar (isName_iff.1 hT _ h) rfl
  · exact reSpace_ne_dollar (isBlank_iff.1 hw4 _ h) rfl
  · exact absurd h (by decide)

/-- The scanning loop takes a well-formed type directive comment that fills its line for
a type directive with the name and the type as they are written. -/
theorem classify_typeComment {w1 w2 n w3 T w4 : Str}
    (hok : typeCommentOK w1 w2 n w3 T w4 = true) :
    classify (typeComment w1 w2 n w3 T w4) = .typeDecl n T := by
  obtain ⟨m, hm, h1, h2⟩ := matchAt_typeComment hok
  have hok2 := hok
  simp only [typeCommentOK, Bool.and_eq_true] at hok2
  obtain ⟨⟨⟨⟨⟨⟨⟨⟨hw1, hw2⟩, _⟩, hn⟩, _⟩, hw3⟩, hT⟩, _⟩, hw4⟩ := hok2
  have hsub : FindStringSubmatch reSubject (typeComment w1 w2 n w3 T w4) = [] := by
    unfold FindStringSubmatch
    rw [search_reSubject_none_of_no_dollar (typeComment_no_dollar hw1 hw2 hn hw3 hT hw4)]
  have htyp : FindStringSubmatch reTypeDef (typeComment w1 w2 n w3 T w4) =
      submatches (typeComment w1 w2 n w3 T w4) m := by
    unfold FindStringSubmatch
    have hs : search reTypeDef (typeComment w1 w2 n w3 T w4) =
        some (typeComment w1 w2 n w3 T w4, m) := by
      have hcons : typeComment w1 w2 n w3 T w4 = '<' :: ("!--".toList ++
          (w1 ++ ("@type".toList ++ (w2 ++ (n ++ (w3 ++ (T ++ (w4 ++ "-->".toList)))))))) := rfl
      rw [hcons] at hm ⊢
      rw [search, hm]
    rw [hs]
  unfold classify
  rw [hsub, htyp]
  have hlen : (submatches (typeComment w1 w2 n w3 T w4) m).length > 0 := by
    simp [submatches]
  rw [if_neg (by simp), if_pos hlen, h1, h2, TrimSpace_of_isName hn, TrimSpace_of_isName hT]

/-! ## `MakeExportedName` -/

theorem splitChunks_cons (isSep : Char → Bool) (c : Char) (cs : Str) :
    splitChunks isSep (c :: cs) =
      if isSep c then [] :: splitChunks isSep cs
      else match splitChunks isSep cs with
        | [] => [[c]]
        | w :: ws => (c :: w) :: ws := rfl

theorem splitChunks_ne_nil (isSep : Char → Bool) (s : Str) : splitChunks isSep s ≠ [] := by
  cases s with
  | nil => simp [splitChunks]
  | cons c cs =>
    rw [splitChunks_cons]
    split
    · simp
    · split <;> simp

theorem flush_words_flatten (U : UnicodeTables) (ws : List Str) (cur : Str) :
    (flush U { words := ws, current := cur }).words.flatten =
      ws.flatten ++ upperFirstWith U cur := by
  cases cur with
  | nil => simp [flush, upperFirstWith]
  | cons r rest => simp [flush, upperFirstWith]

theorem flush_current (U : UnicodeTables) (st : NameWords) : (flush U st).current = [] := by
  unfold flush
  split
  · assumption
  · rfl

/-- The loop of `MakeExportedName`, started in the middle of a word `cur`, against the
chunks of the rest of the text. -/
theorem foldl_nameStep_flatten (U : UnicodeTables) (s : Str) (ws : List Str) (cur : Str) :
    (flush U (s.foldl (nameStep U) { words := ws, current := cur })).words.flatten =
      ws.flatten ++
        (match splitChunks (fun c => !U.isAlnum c) s with
          | [] => upperFirstWith U cur
          | w :: rest => upperFirstWith U (cur ++ w) ++ (rest.map (upperFirstWith U)).flatten) := by
  induction s generalizing ws cur with
  | nil =>
    simp only [List.foldl_nil, splitChunks, List.append_nil, List.map_nil, List.flatten_nil]
    exact flush_words_flatten U ws cur
  | cons c cs ih =>
    rw [List.foldl_cons, splitChunks_cons]
    by_cases hc : U.isAlnum c = true
    · have hstep : nameStep U { words := ws, current := cur } c =
          { words := ws, current := cur ++ [c] } := by
        unfold nameStep
        unfold UnicodeTables.isAlnum at hc
        rw [if_pos hc]
      rw [hstep, ih]
      simp only [hc, Bool.not_true, Bool.false_eq_true, if_false]
      cases hsp : splitChunks (fun c => !U.isAlnum c) cs with
      | nil => exact absurd hsp (splitChunks_ne_nil _ _)
      | cons w rest => simp
    · have hc2 : U.isAlnum c = false := by
        cases h : U.isAlnum c with
        | false => rfl
        | true => exact absurd h hc
      have hstep : nameStep U { words := ws, current := cur } c =
          flush U { words := ws, current := cur } := by
        unfold nameStep
        unfold UnicodeTables.isAlnum at hc2
        rw [if_neg (by rw [hc2]; exact Bool.false_ne_true)]
      have hfl : flush U { words := ws, current := cur } =
          { words := (flush U { words := ws, current := cur }).words, current := [] } := by
        have := flush_current U { words := ws, current := cur }
        cases hf : flush U { words := ws, current := cur } with
        | mk w c0 => rw [hf] at this; simp at this; subst this; rfl
      rw [hstep, hfl, ih, flush_words_flatten]
      simp only [hc2, Bool.not_false, if_true, List.append_nil, List.nil_append]
      cases hsp : splitChunks (fun c => !U.isAlnum c) cs with
      | nil => exact absurd hsp (splitChunks_ne_nil _ _)
      | cons w rest => simp [List.append_assoc]

/-- The words that `MakeExportedName` joins are the chunks of the text, each with its
first character in upper case. -/
theorem words_eq_chunks (U : UnicodeTables) (s : Str) :
    (flush U (s.foldl (nameStep U) { words := [], current := [] })).words.flatten =
      ((splitChunks (fun c => !U.isAlnum c) s).map (upperFirstWith U)).flatten := by
  rw [foldl_nameStep_flatten]
  cases hsp : splitChunks (fun c => !U.isAlnum c) s with
  | nil => exact absurd hsp (splitChunks_ne_nil _ _)
  | cons w rest => simp

theorem MakeExportedName_eq_spec (U : UnicodeTables) (s : Str) :
    MakeExportedName U s = specExportedName U s := by
  unfold MakeExportedName specExportedName
  simp only
  rw [words_eq_chunks]
  cases hout : ((splitChunks (fun c => !U.isAlnum c) s).map (upperFirstWith U)).flatten with
  | nil => simp
  | cons r rest =>
    simp only [List.head?_cons, Option.map_some', Option.some.injEq]
    cases hr : U.IsLetter r <;> simp

theorem toNat_ofNat_small (n : Nat) (h : n < 0xD800) : (Char.ofNat n).toNat = n := by
  have hv : n.isValidChar := Or.inl h
  simp only [Char.ofNat, dif_pos hv, Char.ofNatAux, Char.toNat, Char.ofNatAux]
  simp [UInt32.toNat]

theorem unicodeToUpper_lower (r : Char) (h1 : 'a'.toNat ≤ r.toNat) (h2 : r.toNat ≤ 'z'.toNat) :
    (unicodeToUpper r).toNat = r.toNat - 32 := by
  have e1 : 'a'.toNat = 97 := by decide
  have e2 : 'z'.toNat = 122 := by decide
  rw [e1] at h1
  rw [e2] at h2
  unfold unicodeToUpper
  rw [if_pos (by omega), if_pos (by rw [e1, e2]; exact ⟨h1, h2⟩)]
  exact toNat_ofNat_small _ (by omega)

theorem unicodeToUpper_other (r : Char) (h : ¬ ('a'.toNat ≤ r.toNat ∧ r.toNat ≤ 'z'.toNat)) :
    unicodeToUpper r = r := by
  unfold unicodeToUpper
  split
  · rfl
  · rfl

theorem unicodeToUpper_toNat (r : Char) :
    (unicodeToUpper r).toNat =
      if 97 ≤ r.toNat ∧ r.toNat ≤ 122 then r.toNat - 32 else r.toNat := by
  have e1 : 'a'.toNat = 97 := by decide
  have e2 : 'z'.toNat = 122 := by decide
  by_cases h : 97 ≤ r.toNat ∧ r.toNat ≤ 122
  · rw [if_pos h]
    exact unicodeToUpper_lower r (by rw [e1]; exact h.1) (by rw [e2]; exact h.2)
  · rw [if_neg h, unicodeToUpper_other r (by rw [e1, e2]; exact h)]

/-- The excerpt of the tables of `unicode` has the properties that the theorems about
`MakeExportedName` assume of the tables. -/
theorem excerptTables_lawful : excerptTables.Lawful where
  letter_X := by decide
  upper_X := by decide
  upper_letter := by
    intro r h
    have e := unicodeToUpper_toNat r
    simp only [excerptTables, excerptIsLetter, reAlpha, Bool.or_eq_true, Bool.and_eq_true,
      decide_eq_true_eq] at h ⊢
    have a1 : 'A'.toNat = 65 := by decide
    have a2 : 'Z'.toNat = 90 := by decide
    have a3 : 'a'.toNat = 97 := by decide
    have a4 : 'z'.toNat = 122 := by decide
    rw [a1, a2, a3, a4] at h ⊢
    rw [e]
    split <;> omega
  upper_digit := by
    intro r h
    have e := unicodeToUpper_toNat r
    simp only [excerptTables, excerptIsDigit, Bool.and_eq_true, decide_eq_true_eq] at h ⊢
    have a1 : '0'.toNat = 48 := by decide
    have a2 : '9'.toNat = 57 := by decide
    rw [a1, a2] at h ⊢
    rw [e]
    split <;> omega
  upper_upper := by
    intro r
    have e := unicodeToUpper_toNat r
    apply unicodeToUpper_other
    show ¬ ('a'.toNat ≤ (unicodeToUpper r).toNat ∧ (unicodeToUpper r).toNat ≤ 'z'.toNat)
    have a3 : 'a'.toNat = 97 := by decide
    have a4 : 'z'.toNat = 122 := by decide
    rw [a3, a4, e]
    split <;> omega

theorem isAlnum_upper (U : UnicodeTables) (hU : U.Lawful) (r : Char)
    (h : U.isAlnum r = true) : U.isAlnum (U.ToUpper r) = true := by
  unfold UnicodeTables.isAlnum at h ⊢
  rw [Bool.or_eq_true] at h ⊢
  rcases h with h | h
  · exact Or.inl (hU.upper_letter r h)
  · exact Or.inr (hU.upper_digit r h)

theorem upperFirstWith_alnum (U : UnicodeTables) (hU : U.Lawful) (w : Str)
    (h : ∀ c ∈ w, U.isAlnum c = true) : ∀ c ∈ upperFirstWith U w, U.isAlnum c = true := by
  cases w with
  | nil => exact h
  | cons r rest =>
    intro c hc
    simp only [upperFirstWith, List.mem_cons] at hc
    rcases hc with hc | hc
    · subst hc
      exact isAlnum_upper U hU r (h r (List.mem_cons_self _ _))
    · exact h c (List.mem_cons_of_mem _ hc)

/-- Every chunk of a text consists of characters that are no separators. -/
theorem splitChunks_no_sep (isSep : Char → Bool) (s : Str) :
    ∀ w ∈ splitChunks isSep s, ∀ c ∈ w, isSep c = false := by
  induction s with
  | nil => simp [splitChunks]
  | cons c cs ih =>
    rw [splitChunks_cons]
    by_cases hc : isSep c = true
    · rw [if_pos hc]
      intro w hw
      rcases List.mem_cons.1 hw with hw | hw
      · subst hw; simp
      · exact ih w hw
    · rw [if_neg hc]
      cases hsp : splitChunks isSep cs with
      | nil => exact absurd hsp (splitChunks_ne_nil _ _)
      | cons w0 rest =>
        rw [hsp] at ih
        intro w hw
        rcases List.mem_cons.1 hw with hw | hw
        · subst hw
          intro d hd
          rcases List.mem_cons.1 hd with hd | hd
          · subst hd
            cases h : isSep d with
            | false => rfl
            | true => exact absurd h hc
          · exact ih w0 (List.mem_cons_self _ _) d hd
        · exact ih w (List.mem_cons_of_mem _ hw)

/-- A text without separator is its own single chunk. -/
theorem splitChunks_of_no_sep (isSep : Char → Bool) (s : Str)
    (h : ∀ c ∈ s, isSep c = false) : splitChunks isSep s = [s] := by
  induction s with
  | nil => rfl
  | cons c cs ih =>
    rw [splitChunks_cons, if_neg (by rw [h c (List.mem_cons_self _ _)]; exact Bool.false_ne_true),
      ih (fun d hd => h d (List.mem_cons_of_mem _ hd))]

/-- The concatenation of the chunks, each with its first character in upper case, starts
with the upper case of a character. -/
theorem flatten_upperFirst_head (U : UnicodeTables) (ws : List Str) (r : Char) (rest : Str)
    (h : (ws.map (upperFirstWith U)).flatten = r :: rest) : ∃ r0, r = U.ToUpper r0 := by
  induction ws with
  | nil => simp at h
  | cons w ws ih =>
    cases w with
    | nil =>
      simp only [List.map_cons, upperFirstWith, List.flatten_cons, List.nil_append] at h
      exact ih h
    | cons r0 w0 =>
      simp only [List.map_cons, upperFirstWith, List.flatten_cons, List.cons_append,
        List.cons.injEq] at h
      exact ⟨r0, h.1.symm⟩

theorem joinedWords_alnum (U : UnicodeTables) (hU : U.Lawful) (s : Str) :
    ∀ c ∈ joinedWords U s, U.isAlnum c = true := by
  intro c hc
  unfold joinedWords at hc
  rw [List.mem_flatten] at hc
  obtain ⟨w, hw, hcw⟩ := hc
  rw [List.mem_map] at hw
  obtain ⟨w0, hw0, rfl⟩ := hw
  refine upperFirstWith_alnum U hU w0 ?_ c hcw
  intro d hd
  have := splitChunks_no_sep _ s w0 hw0 d hd
  simpa using this

theorem MakeExportedName_cases (U : UnicodeTables) (s : Str) :
    (joinedWords U s = [] ∧ MakeExportedName U s = ['X']) ∨
    (∃ r rest, joinedWords U s = r :: rest ∧ U.IsLetter r = true ∧
      MakeExportedName U s = r :: rest) ∨
    (∃ r rest, joinedWords U s = r :: rest ∧ U.IsLetter r = false ∧
      MakeExportedName U s = 'X' :: r :: rest) := by
  rw [MakeExportedName_eq_spec]
  unfold specExportedName
  simp only
  show _ ∨ _ ∨ _
  cases hout : joinedWords U s with
  | nil =>
    left
    unfold joinedWords at hout
    rw [hout]
    exact ⟨rfl, rfl⟩
  | cons r rest =>
    right
    unfold joinedWords at hout
    rw [hout]
    cases hr : U.IsLetter r with
    | true => left; exact ⟨r, rest, rfl, hr, by simp [hr]⟩
    | false => right; exact ⟨r, rest, rfl, hr, by simp [hr]⟩

/-- With lawful tables the name is not empty, has only letters and digits, and starts
with a letter that upper-casing leaves as it is. -/
theorem MakeExportedName_shape (U : UnicodeTables) (hU : U.Lawful) (s : Str) :
    ∃ r rest, MakeExportedName U s = r :: rest ∧ U.IsLetter r = true ∧ U.ToUpper r = r ∧
      ∀ c ∈ r :: rest, U.isAlnum c = true := by
  have hX : U.isAlnum 'X' = true := by
    unfold UnicodeTables.isAlnum
    rw [hU.letter_X]; rfl
  rcases MakeExportedName_cases U s with ⟨_, h⟩ | ⟨r, rest, hj, hr, h⟩ | ⟨r, rest, hj, _, h⟩
  · refine ⟨'X', [], h, hU.letter_X, hU.upper_X, ?_⟩
    intro c hc
    simp only [List.mem_singleton] at hc
    subst hc; exact hX
  · refine ⟨r, rest, h, hr, ?_, ?_⟩
    · obtain ⟨r0, e⟩ := flatten_upperFirst_head U _ r rest hj
      rw [e, hU.upper_upper]
    · intro c hc
      exact joinedWords_alnum U hU s c (by rw [hj]; exact hc)
  · refine ⟨'X', r :: rest, h, hU.letter_X, hU.upper_X, ?_⟩
    intro c hc
    rcases List.mem_cons.1 hc with hc | hc
    · subst hc; exact hX
    · exact joinedWords_alnum U hU s c (by rw [hj]; exact hc)

/-- A name that is not empty, has only letters and digits and starts with a letter that
upper-casing leaves as it is, is its own exported name. -/
theorem MakeExportedName_fixed (U : UnicodeTables) (r : Char) (rest : Str)
    (hr : U.IsLetter r = true) (hup : U.ToUpper r = r)
    (hall : ∀ c ∈ r :: rest, U.isAlnum c = true) :
    MakeExportedName U (r :: rest) = r :: rest := by
  rw [MakeExportedName_eq_spec]
  unfold specExportedName
  have hsp : splitChunks (fun c => !U.isAlnum c) (r :: rest) = [r :: rest] :=
    splitChunks_of_no_sep _ _ (fun c hc => by simp [hall c hc])
  simp only [hsp, List.map_cons, List.map_nil, upperFirstWith, hup, List.flatten_cons,
    List.flatten_nil, List.append_nil, List.head?_cons, Option.map_some', hr]
  simp

/-! ## The order of the map loops -/

theorem inferable_perm (ex : GoMap Unit) {s1 s2 : List ParsedStruct} (h : s1.Perm s2)
    (name : Str) : inferable ex s1 name = inferable ex s2 name := by
  unfold inferable
  have : s1.any (fun s => decide (UpperFirst name = s.Name)) =
      s2.any (fun s => decide (UpperFirst name = s.Name)) := by
    rw [Bool.eq_iff_iff, List.any_eq_true, List.any_eq_true]
    constructor
    · rintro ⟨x, hx, hp⟩
      exact ⟨x, h.subset hx, hp⟩
    · rintro ⟨x, hx, hp⟩
      exact ⟨x, h.symm.subset hx, hp⟩
  rw [this]

theorem foldl_inferStep_FilePath (ex : GoMap Unit) (ns : List Str) (pt : ParsedTemplate) :
    (ns.foldl (inferStep ex) pt).FilePath = pt.FilePath := by
  induction ns generalizing pt with
  | nil => rfl
  | cons n ns ih =>
    rw [List.foldl_cons, ih, inferStep_eq]
    split <;> rfl

/-- The parts of the result that do not depend on the order of the map loops, and the
lists that it rearranges. -/
theorem parseLines_orders (ord1 ord2 : RangeOrders) (path : Str) (lines : List Str) :
    (parseLines ord1 path lines).FilePath = (parseLines ord2 path lines).FilePath ∧
    (parseLines ord1 path lines).Subject = (parseLines ord2 path lines).Subject ∧
    (parseLines ord1 path lines).HTML = (parseLines ord2 path lines).HTML ∧
    (parseLines ord1 path lines).Structs.Perm (parseLines ord2 path lines).Structs ∧
    (parseLines ord1 path lines).Types.Perm (parseLines ord2 path lines).Types ∧
    ∃ inf1 inf2,
      (parseLines ord1 path lines).Variables = declaredVariables lines ++ inf1 ∧
      (parseLines ord2 path lines).Variables = declaredVariables lines ++ inf2 ∧
      inf1.Perm inf2 := by
  have hSt : (parseLines ord1 path lines).Structs.Perm (parseLines ord2 path lines).Structs := by
    rw [parseLines_Structs, parseLines_Structs]
    exact ((rangeOrder_perm _ _).trans (rangeOrder_perm _ _).symm).map _
  have hF : ∀ ord : RangeOrders, (parseLines ord path lines).FilePath = path := by
    intro ord
    unfold parseLines
    rw [inferSimpleVariables_eq, foldl_inferStep_FilePath]
    rfl
  have hcand : ∀ (ex : GoMap Unit) (c : GoMap Unit),
      (((rangeOrder ord1.candidates c).map (·.1)).filter
        (inferable ex (parseLines ord1 path lines).Structs)).Perm
      (((rangeOrder ord2.candidates c).map (·.1)).filter
        (inferable ex (parseLines ord2 path lines).Structs)) := by
    intro ex c
    have e : inferable ex (parseLines ord1 path lines).Structs =
        inferable ex (parseLines ord2 path lines).Structs := by
      funext n
      exact inferable_perm ex hSt n
    rw [e]
    exact (((rangeOrder_perm _ _).trans (rangeOrder_perm _ _).symm).map _).filter _
  refine ⟨by rw [hF, hF], by rw [parseLines_Subject, parseLines_Subject],
    by rw [parseLines_HTML, parseLines_HTML], hSt, ?_, ?_⟩
  · rw [parseLines_Types, parseLines_Types]
    refine List.Perm.append
      (((rangeOrder_perm _ _).trans (rangeOrder_perm _ _).symm).map _) ?_
    have := hcand (existingOf (lines.foldl parseLine ScanState.init).Variables)
      (candidatesOf (lines.foldl parseLine ScanState.init).Subject
        (lines.foldl parseLine ScanState.init).htmlBuf)
    rw [parseLines_Structs, parseLines_Structs] at this
    exact this.map _
  · refine ⟨_, _, parseLines_Variables ord1 path lines, parseLines_Variables ord2 path lines, ?_⟩
    rw [parseLines_Subject, parseLines_HTML, parseLines_Subject, parseLines_HTML]
    exact (hcand _ _).map _

/-! ## Fields of structs -/

theorem fieldsIn_append (acc : List (Str × ParsedField)) (k0 k : Str) (f : ParsedField) :
    fieldsIn (acc ++ [(k0, f)]) k = if k0 = k then fieldsIn acc k ++ [f] else fieldsIn acc k := by
  unfold fieldsIn
  rw [List.filter_append]
  by_cases h : k0 = k
  · simp [h, List.filter_cons]
  · simp [h, List.filter_cons]

theorem holdsFields_ensureStruct {m : GoMap ParsedStruct} {acc : List (Str × ParsedField)}
    (h : holdsFields m acc) (k0 : Str) : holdsFields (ensureStruct m k0) acc := by
  unfold ensureStruct
  by_cases hs : (m.lookup k0).isSome = true
  · rw [if_pos hs]; exact h
  · rw [if_neg hs]
    have hnone : m.lookup k0 = none := by
      cases hl : m.lookup k0 with
      | none => rfl
      | some s => rw [hl] at hs; exact absurd rfl hs
    constructor
    · intro k s hk
      by_cases hkk : k = k0
      · subst hkk
        rw [GoMap_lookup_set_self] at hk
        simp only [Option.some.injEq] at hk
        subst hk
        exact ⟨rfl, (h.2 k hnone).symm⟩
      · rw [GoMap_lookup_set_ne m _ hkk] at hk
        exact h.1 k s hk
    · intro k hk
      by_cases hkk : k = k0
      · subst hkk
        rw [GoMap_lookup_set_self] at hk
        cases hk
      · rw [GoMap_lookup_set_ne m _ hkk] at hk
        exact h.2 k hk

theorem ensureStruct_lookup (m : GoMap ParsedStruct) (k0 : Str) :
    ∃ s, (ensureStruct m k0).lookup k0 = some s := by
  unfold ensureStruct
  by_cases hs : (m.lookup k0).isSome = true
  · rw [if_pos hs]
    exact Option.isSome_iff_exists.1 hs
  · rw [if_neg hs]
    exact ⟨_, GoMap_lookup_set_self m k0 _⟩

theorem holdsFields_appendField {m : GoMap ParsedStruct} {acc : List (Str × ParsedField)}
    (h : holdsFields m acc) (k0 : Str) (f : ParsedField) {s0 : ParsedStruct}
    (hs0 : m.lookup k0 = some s0) :
    holdsFields (appendField m k0 f) (acc ++ [(k0, f)]) := by
  unfold appendField
  rw [hs0]
  constructor
  · intro k s hk
    rw [fieldsIn_append]
    by_cases hkk : k = k0
    · subst hkk
      rw [GoMap_lookup_set_self] at hk
      simp only [Option.some.injEq] at hk
      subst hk
      rw [if_pos rfl]
      exact ⟨(h.1 k s0 hs0).1, by rw [(h.1 k s0 hs0).2]⟩
    · rw [GoMap_lookup_set_ne m _ hkk] at hk
      rw [if_neg (fun e => hkk e.symm)]
      exact h.1 k s hk
  · intro k hk
    rw [fieldsIn_append]
    by_cases hkk : k = k0
    · subst hkk
      rw [GoMap_lookup_set_self] at hk
      cases hk
    · rw [GoMap_lookup_set_ne m _ hkk] at hk
      rw [if_neg (fun e => hkk e.symm)]
      exact h.2 k hk

theorem holdsFields_typeDirective {st : ScanState} {acc : List (Str × ParsedField)}
    (h : holdsFields st.structMap acc) (n T : Str) :
    holdsFields (typeDirective st n T).structMap (acc ++ (declField n T).toList) := by
  unfold typeDirective declField
  by_cases hdot : Contains n '.' = true
  · simp only [hdot, Bool.not_true, Bool.false_eq_true, if_false, if_true, Option.toList_some]
    obtain ⟨s0, hs0⟩ := ensureStruct_lookup st.structMap (UpperFirst (SplitN2 n).1)
    exact holdsFields_appendField (holdsFields_ensureStruct h _) _ _ hs0
  · simp only [hdot, Bool.not_false, if_true, Bool.false_eq_true, if_false, Option.toList_none,
      List.append_nil]
    by_cases hT : T = []
    · simp only [hT, if_true]
      exact holdsFields_ensureStruct h _
    · simp only [hT, if_false]
      exact h

theorem holdsFields_parseLine {st : ScanState} {acc : List (Str × ParsedField)}
    (h : holdsFields st.structMap acc) (l : Str) :
    holdsFields (parseLine st l).structMap (acc ++ (declaredField l).toList) := by
  rw [parseLine_eq]
  unfold declaredField
  cases hc : classify l with
  | subject t => simpa using h
  | typeDecl n T => exact holdsFields_typeDirective h n T
  | body => simpa using h

theorem holdsFields_foldl (lines : List Str) {st : ScanState} {acc : List (Str × ParsedField)}
    (h : holdsFields st.structMap acc) :
    holdsFields (lines.foldl parseLine st).structMap (acc ++ lines.filterMap declaredField) := by
  induction lines generalizing st acc with
  | nil => simpa using h
  | cons l ls ih =>
    rw [List.foldl_cons]
    have := ih (holdsFields_parseLine h l)
    rw [List.append_assoc] at this
    have e : (declaredField l).toList ++ ls.filterMap declaredField =
        (l :: ls).filterMap declaredField := by
      rw [List.filterMap_cons]
      cases declaredField l <;> rfl
    rw [e] at this
    exact this

theorem holdsFields_init : holdsFields ScanState.init.structMap [] := by
  constructor
  · intro k s h
    cases h
  · intro k _
    rfl

theorem structMap_keys_nodup (lines : List Str) :
    (lines.foldl parseLine ScanState.init).structMap.keys.Nodup := by
  rw [foldl_parseLine_keys]
  exact foldl_addKey_nodup _ _ List.nodup_nil

/-- The structs of the result: one for each struct name that a type directive mentions,
with the fields that the dotted directives declare for it, in source order. -/
theorem mem_parseLines_Structs (ord : RangeOrders) (path : Str) (lines : List Str)
    (s : ParsedStruct) :
    s ∈ (parseLines ord path lines).Structs ↔
      s.Name ∈ mentionedStructs lines ∧ s.Fields = fieldsOf lines s.Name := by
  have hinv := holdsFields_foldl lines holdsFields_init
  rw [List.nil_append] at hinv
  have hnd := structMap_keys_nodup lines
  have hkeys := foldl_parseLine_keys lines ScanState.init
  rw [parseLines_Structs]
  constructor
  · intro hs
    rw [List.mem_map] at hs
    obtain ⟨kv, hkv, rfl⟩ := hs
    have hmem : (kv.1, kv.2) ∈ (lines.foldl parseLine ScanState.init).structMap :=
      (rangeOrder_perm _ _).subset hkv
    have hl := GoMap_lookup_of_mem hnd hmem
    obtain ⟨hname, hfields⟩ := hinv.1 _ _ hl
    refine ⟨?_, by rw [hname]; exact hfields⟩
    have hk : kv.1 ∈ (lines.foldl parseLine ScanState.init).structMap.keys :=
      List.mem_map_of_mem _ hmem
    rw [hkeys] at hk
    rw [hname]
    rcases (mem_foldl_addKey _ _ _).1 hk with h | h
    · exact absurd h (List.not_mem_nil _)
    · exact h
  · rintro ⟨hn, hf⟩
    have hk : s.Name ∈ (lines.foldl parseLine ScanState.init).structMap.keys := by
      rw [hkeys]
      exact (mem_foldl_addKey _ _ _).2 (Or.inr hn)
    obtain ⟨s1, hs1⟩ := Option.isSome_iff_exists.1 ((GoMap_lookup_isSome _ _).2 hk)
    obtain ⟨hname, hfields⟩ := hinv.1 _ _ hs1
    have hs : s1 = s := by
      have e1 : s1.Fields = s.Fields := hfields.trans hf.symm
      cases s1; cases s
      simp only [ParsedStruct.mk.injEq]
      exact ⟨hname, e1⟩
    subst hs
    rw [List.mem_map]
    exact ⟨(s1.Name, s1), (rangeOrder_perm _ _).symm.subset (GoMap_mem_of_lookup hs1), rfl⟩

theorem filterMap_filter_of_none {α β : Type} (f : α → Option β) (p : α → Bool)
    (h : ∀ x, p x = false → f x = none) (l : List α) :
    (l.filter p).filterMap f = l.filterMap f := by
  induction l with
  | nil => rfl
  | cons x xs ih =>
    by_cases hp : p x = true
    · rw [List.filter_cons_of_pos hp, List.filterMap_cons, List.filterMap_cons, ih]
    · have hp2 : p x = false := by
        cases h1 : p x with
        | false => rfl
        | true => exact absurd h1 hp
      rw [List.filter_cons_of_neg hp, List.filterMap_cons, h x hp2, ih]

theorem declaredField_of_isBareDecl {A l : Str} (h : isBareDecl A l = true) :
    declaredField l = none ∧ mentionedStruct l = some A := by
  unfold isBareDecl at h
  unfold declaredField mentionedStruct
  cases hc : classify l with
  | subject t => rw [hc] at h; cases h
  | body => rw [hc] at h; cases h
  | typeDecl n T =>
    rw [hc] at h
    simp only [Bool.and_eq_true, Bool.not_eq_true', decide_eq_true_eq] at h
    obtain ⟨⟨hdot, hT⟩, hA⟩ := h
    simp [declField, declStruct, hdot, hT, hA]

theorem mentionedStruct_of_declaredField {l k : Str} {f : ParsedField}
    (h : declaredField l = some (k, f)) :
    mentionedStruct l = some k ∧ ∀ A, isBareDecl A l = false := by
  unfold declaredField at h
  unfold mentionedStruct isBareDecl
  cases hc : classify l with
  | subject t => rw [hc] at h; cases h
  | body => rw [hc] at h; cases h
  | typeDecl n T =>
    rw [hc] at h
    have h2 : declField n T = some (k, f) := h
    unfold declField at h2
    by_cases hdot : Contains n '.' = true
    · rw [if_pos hdot] at h2
      simp only [Option.some.injEq, Prod.mk.injEq] at h2
      simp [declStruct, hdot, h2.1]
    · rw [if_neg hdot] at h2
      cases h2

theorem fieldsOf_filter_bare (A : Str) (lines : List Str) (k : Str) :
    fieldsOf (lines.filter (fun l => !isBareDecl A l)) k = fieldsOf lines k := by
  unfold fieldsOf
  rw [filterMap_filter_of_none]
  intro l hl
  have : isBareDecl A l = true := by simpa using hl
  exact (declaredField_of_isBareDecl this).1

/-- A struct mentioned by a dotted directive is mentioned by the same lines with or
without its bare declarations. -/
theorem mem_mentionedStructs_filter_bare (A : Str) (lines : List Str)
    (hA : ∃ l ∈ lines.filter (fun l => !isBareDecl A l), ∃ f, declaredField l = some (A, f))
    (k : Str) :
    k ∈ mentionedStructs lines ↔
      k ∈ mentionedStructs (lines.filter (fun l => !isBareDecl A l)) := by
  unfold mentionedStructs
  simp only [List.mem_filterMap]
  constructor
  · rintro ⟨l, hl, hk⟩
    by_cases hb : isBareDecl A l = true
    · have := (declaredField_of_isBareDecl hb).2
      rw [this] at hk
      simp only [Option.some.injEq] at hk
      subst hk
      obtain ⟨l0, hl0, f, hf⟩ := hA
      exact ⟨l0, hl0, (mentionedStruct_of_declaredField hf).1⟩
    · exact ⟨l, List.mem_filter.2 ⟨hl, by simpa using hb⟩, hk⟩
  · rintro ⟨l, hl, hk⟩
    exact ⟨l, (List.mem_filter.1 hl).1, hk⟩

theorem Structs_filter_bare (ord1 ord2 : RangeOrders) (path1 path2 : Str) (A : Str)
    (lines : List Str)
    (hA : ∃ l ∈ lines.filter (fun l => !isBareDecl A l), ∃ f, declaredField l = some (A, f))
    (s : ParsedStruct) :
    s ∈ (parseLines ord1 path1 lines).Structs ↔
      s ∈ (parseLines ord2 path2 (lines.filter (fun l => !isBareDecl A l))).Structs := by
  rw [mem_parseLines_Structs, mem_parseLines_Structs, fieldsOf_filter_bare,
    mem_mentionedStructs_filter_bare A lines hA]

/-! ## Directive comments inside a line -/

theorem starG_isSome_of {R : Type} (p : Char → Bool) (k : Str → Option R) (a b : Str)
    (ha : ∀ c ∈ a, p c = true) (hb : (k b).isSome = true) :
    (starG p k (a ++ b)).isSome = true := by
  induction a with
  | nil =>
    cases b with
    | nil => exact hb
    | cons c cs =>
      show (starG p k (c :: cs)).isSome = true
      unfold starG
      split
      · split
        · rfl
        · exact hb
      · exact hb
  | cons c a ih =>
    have hc := ha c (List.mem_cons_self _ _)
    have h2 := ih (fun d hd => ha d (List.mem_cons_of_mem _ hd))
    show (starG p k (c :: (a ++ b))).isSome = true
    unfold starG
    rw [if_pos hc]
    obtain ⟨r, hr⟩ := Option.isSome_iff_exists.1 h2
    rw [hr]
    rfl

theorem starL_isSome_of {R : Type} (p : Char → Bool) (k : Str → Option R) (a b : Str)
    (ha : ∀ c ∈ a, p c = true) (hb : (k b).isSome = true) :
    (starL p k (a ++ b)).isSome = true := by
  induction a with
  | nil =>
    cases b with
    | nil => exact hb
    | cons c cs =>
      show (starL p k (c :: cs)).isSome = true
      obtain ⟨r, hr⟩ := Option.isSome_iff_exists.1 hb
      rw [starL_cons, hr]
      rfl
  | cons c a ih =>
    have hc := ha c (List.mem_cons_self _ _)
    have h2 := ih (fun d hd => ha d (List.mem_cons_of_mem _ hd))
    show (starL p k (c :: (a ++ b))).isSome = true
    rw [starL_cons]
    cases hk : k (c :: (a ++ b)) with
    | some r => rfl
    | none =>
      simp only [hc, if_true]
      exact h2

/-- A match at the start of a text is not lost when the text goes on: the expression
still matches there. -/
theorem matchAt_append_isSome (r : Regex) (s post : Str)
    (h : (matchAt r s).isSome = true) : (matchAt r (s ++ post)).isSome = true := by
  induction r generalizing s with
  | nil => rfl
  | cons t r ih =>
    cases t with
    | lit c =>
      cases s with
      | nil => simp [matchAt] at h
      | cons x xs =>
        simp only [matchAt, List.cons_append] at h ⊢
        by_cases hx : x = c
        · rw [if_pos hx] at h ⊢
          exact ih xs h
        · rw [if_neg hx] at h
          cases h
    | one p =>
      cases s with
      | nil => simp [matchAt] at h
      | cons x xs =>
        simp only [matchAt, List.cons_append] at h ⊢
        by_cases hx : p x = true
        · rw [if_pos hx] at h ⊢
          exact ih xs h
        · rw [if_neg hx] at h
          cases h
    | star p =>
      rw [matchAt_star] at h ⊢
      obtain ⟨m, hm⟩ := Option.isSome_iff_exists.1 h
      obtain ⟨a, b, hs, ha, hb⟩ := starG_some hm
      rw [hs, List.append_assoc]
      exact starG_isSome_of p _ a _ ha (ih b (by rw [hb]; rfl))
    | lazyStar p =>
      rw [matchAt_lazyStar] at h ⊢
      obtain ⟨m, hm⟩ := Option.isSome_iff_exists.1 h
      obtain ⟨a, b, hs, ha, hb⟩ := starL_some hm
      rw [hs, List.append_assoc]
      exact starL_isSome_of p _ a _ ha (ih b (by rw [hb]; rfl))
    | opt c =>
      have key : ∀ u : Str, (matchAt r u).isSome = true →
          (matchAt (Tok.opt c :: r) u).isSome = true := by
        intro u hu
        cases u with
        | nil => simpa [matchAt] using hu
        | cons x xs =>
          simp only [matchAt]
          split
          · split
            · rfl
            · exact hu
          · exact hu
      cases s with
      | nil =>
        have h0 : (matchAt r []).isSome = true := by simpa [matchAt] using h
        exact key _ (ih [] h0)
      | cons x xs =>
        by_cases hx : x = c
        · cases hm : matchAt r xs with
          | some m =>
            have h1 := ih xs (by rw [hm]; rfl)
            obtain ⟨m1, hm1⟩ := Option.isSome_iff_exists.1 h1
            simp only [matchAt, List.cons_append, if_pos hx, hm1]
            rfl
          | none =>
            simp only [matchAt, if_pos hx, hm] at h
            exact key _ (ih (x :: xs) h)
        · simp only [matchAt, if_neg hx] at h
          exact key _ (ih (x :: xs) h)
    | mark =>
      rw [matchAt_mark] at h ⊢
      rw [Option.isSome_map'] at h ⊢
      exact ih s h

theorem search_isSome_of_matchAt (re : Regex) (pre t : Str)
    (h : (matchAt re t).isSome = true) : (search re (pre ++ t)).isSome = true := by
  have base : (search re t).isSome = true := by
    obtain ⟨m, hm⟩ := Option.isSome_iff_exists.1 h
    cases t with
    | nil => simp [search, hm]
    | cons c cs => simp [search, hm]
  induction pre with
  | nil => exact base
  | cons c cs ih =>
    show (search re (c :: (cs ++ t))).isSome = true
    unfold search
    split
    · rfl
    · exact ih

theorem dropWhile_append_keep (p : Char → Bool) (t e : Str)
    (he : ∀ c ∈ e.head?, p c = false) :
    ∃ a, (t ++ e).dropWhile p = a ++ e ∧ ∀ c ∈ a, c ∈ t := by
  induction t with
  | nil =>
    refine ⟨[], ?_, fun c hc => absurd hc (List.not_mem_nil _)⟩
    cases e with
    | nil => rfl
    | cons x xs =>
      have := he x (by simp)
      simp [List.dropWhile_cons, this]
  | cons c t ih =>
    by_cases hc : p c = true
    · obtain ⟨a, ha, hmem⟩ := ih
      refine ⟨a, ?_, fun d hd => List.mem_cons_of_mem _ (hmem d hd)⟩
      rw [List.cons_append, List.dropWhile_cons, if_pos hc]
      exact ha
    · refine ⟨c :: t, ?_, fun d hd => hd⟩
      rw [List.cons_append, List.dropWhile_cons, if_neg hc]

/-- The subject pattern matches at a subject directive comment. -/
theorem matchAt_subjectComment {w t : Str} (hw : isBlank w = true) (ht : '\n' ∉ t) :
    (matchAt reSubject (subjectComment w t)).isSome = true := by
  rw [matchAt_reSubject]
  unfold subjectComment
  rw [stripLit_append, Option.some_bind,
    dropWhile_append_stop (isBlank_iff.1 hw) (by simp; decide), stripLit_append,
    Option.some_bind, Option.isSome_map']
  obtain ⟨a, ha, hmem⟩ := dropWhile_append_keep reSpace t "-->".toList (by simp; decide)
  rw [ha]
  apply starL_isSome_of
  · intro c hc
    have : c ≠ '\n' := fun e => ht (e ▸ hmem c hc)
    simp [reAny, this]
  · decide

/-- A line that holds a subject directive comment, with any text before and after it,
is no line of the body. -/
theorem isBodyLine_subjectComment (pre post : Str) {w t : Str} (hw : isBlank w = true)
    (ht : '\n' ∉ t) : isBodyLine (pre ++ (subjectComment w t ++ post)) = false := by
  unfold isBodyLine matchesSubject
  rw [search_isSome_of_matchAt reSubject pre _
    (matchAt_append_isSome reSubject _ post (matchAt_subjectComment hw ht))]
  rfl

/-- A line that holds a type directive comment, with any text before and after it, is
no line of the body. -/
theorem isBodyLine_typeComment (pre post : Str) {w1 w2 n w3 T w4 : Str}
    (hok : typeCommentOK w1 w2 n w3 T w4 = true) :
    isBodyLine (pre ++ (typeComment w1 w2 n w3 T w4 ++ post)) = false := by
  unfold isBodyLine matchesTypeDef
  obtain ⟨m, hm, _⟩ := matchAt_typeComment hok
  rw [search_isSome_of_matchAt reTypeDef pre _
    (matchAt_append_isSome reTypeDef _ post (by rw [hm]; rfl))]
  simp

/-! ## Template normalization -/

theorem rePlaceholderRef_eq :
    rePlaceholderRef = ("\x7b\x7b".toList).map Tok.lit ++
      (Tok.mark :: reGap (Tok.mark :: Tok.mark :: Tok.one reAlpha :: Tok.star reName ::
        Tok.mark :: Tok.mark :: reGap (Tok.mark :: ("\x7d\x7d".toList).map Tok.lit))) := rfl

theorem reWord_reName {c : Char} (h : reWord c = true) : reName c = true := by
  unfold reName; simp [h]

/-- The text that can follow the name in a placeholder starts with white space, a trim
marker or a closing brace. -/
theorem tail_head_cases (w3 d2 w4 e : Str) (hw3 : isBlank w3 = true)
    (hd2 : isTrimMarker d2 = true) (hw4 : isBlank w4 = true) :
    ∀ c ∈ (w3 ++ (d2 ++ (w4 ++ ("\x7d\x7d".toList ++ e)))).head?,
      reSpace c = true ∨ c = '-' ∨ c = '\x7d' := by
  intro c hc
  cases w3 with
  | cons a as =>
    simp only [List.cons_append, List.head?_cons, Option.mem_def, Option.some.injEq] at hc
    subst hc
    exact Or.inl (isBlank_iff.1 hw3 a (by simp))
  | nil =>
    rcases isTrimMarker_iff.1 hd2 with hd | hd
    · subst hd
      cases w4 with
      | cons a as =>
        simp only [List.nil_append, List.cons_append, List.head?_cons, Option.mem_def,
          Option.some.injEq] at hc
        subst hc
        exact Or.inl (isBlank_iff.1 hw4 a (by simp))
      | nil =>
        simp only [List.nil_append] at hc
        have : c = '\x7d' := by
          simpa [eq_comm] using hc
        exact Or.inr (Or.inr this)
    · subst hd
      simp only [List.nil_append, List.cons_append, List.head?_cons, Option.mem_def,
        Option.some.injEq] at hc
      exact Or.inr (Or.inl hc.symm)

theorem tail_head_not_name (w3 d2 w4 e : Str) (hw3 : isBlank w3 = true)
    (hd2 : isTrimMarker d2 = true) (hw4 : isBlank w4 = true) :
    ∀ c ∈ (w3 ++ (d2 ++ (w4 ++ ("\x7d\x7d".toList ++ e)))).head?, reName c = false := by
  intro c hc
  rcases tail_head_cases w3 d2 w4 e hw3 hd2 hw4 c hc with h | h | h
  · exact reSpace_not_reName h
  · subst h; decide
  · subst h; decide

/-- At a bare placeholder the pattern of the normalization matches; its groups are the
gap before the name, the name and the gap after it. -/
theorem matchAt_ref_placeholder {w1 d1 w2 x w3 d2 w4 : Str} (e : Str)
    (hw1 : isBlank w1 = true) (hd1 : isTrimMarker d1 = true) (hw2 : isBlank w2 = true)
    (hx : isIdent x = true) (hw3 : isBlank w3 = true) (hd2 : isTrimMarker d2 = true)
    (hw4 : isBlank w4 = true) :
    matchAt rePlaceholderRef (placeholderText w1 d1 w2 x w3 d2 w4 ++ e) =
      some [w1 ++ (d1 ++ (w2 ++ (x ++ (w3 ++ (d2 ++ (w4 ++ ("\x7d\x7d".toList ++ e))))))),
        x ++ (w3 ++ (d2 ++ (w4 ++ ("\x7d\x7d".toList ++ e)))),
        x ++ (w3 ++ (d2 ++ (w4 ++ ("\x7d\x7d".toList ++ e)))),
        w3 ++ (d2 ++ (w4 ++ ("\x7d\x7d".toList ++ e))),
        w3 ++ (d2 ++ (w4 ++ ("\x7d\x7d".toList ++ e))),
        "\x7d\x7d".toList ++ e, e] := by
  cases x with
  | nil => simp [isIdent] at hx
  | cons a t =>
    simp only [isIdent, Bool.and_eq_true] at hx
    obtain ⟨ha, ht⟩ := hx
    have htw : ∀ c ∈ t, reName c = true := fun c hc => reWord_reName (List.all_eq_true.1 ht c hc)
    have hclose : matchAt (Tok.mark :: ("\x7d\x7d".toList).map Tok.lit) ("\x7d\x7d".toList ++ e) =
        some ["\x7d\x7d".toList ++ e, e] := by
      have := matchAt_lits "\x7d\x7d".toList [] ("\x7d\x7d".toList ++ e)
      rw [List.append_nil] at this
      rw [matchAt_mark, this, stripLit_append]
      rfl
    have htail : matchAt (reGap (Tok.mark :: ("\x7d\x7d".toList).map Tok.lit))
        (w3 ++ (d2 ++ (w4 ++ ("\x7d\x7d".toList ++ e)))) = some ["\x7d\x7d".toList ++ e, e] := by
      apply matchAt_reGap_skip hw3 hd2 hw4 _ hclose
      intro c hc
      have : c = '\x7d' := by simpa [eq_comm] using hc
      subst this
      decide
    have hname : matchAt (Tok.mark :: Tok.mark :: Tok.one reAlpha :: Tok.star reName ::
        Tok.mark :: Tok.mark :: reGap (Tok.mark :: ("\x7d\x7d".toList).map Tok.lit))
        ((a :: t) ++ (w3 ++ (d2 ++ (w4 ++ ("\x7d\x7d".toList ++ e))))) =
        some [(a :: t) ++ (w3 ++ (d2 ++ (w4 ++ ("\x7d\x7d".toList ++ e)))),
          (a :: t) ++ (w3 ++ (d2 ++ (w4 ++ ("\x7d\x7d".toList ++ e)))),
          w3 ++ (d2 ++ (w4 ++ ("\x7d\x7d".toList ++ e))),
          w3 ++ (d2 ++ (w4 ++ ("\x7d\x7d".toList ++ e))), "\x7d\x7d".toList ++ e, e] := by
      rw [matchAt_mark, matchAt_mark, List.cons_append, matchAt_one_cons ha, matchAt_star]
      have : starG reName (matchAt (Tok.mark :: Tok.mark ::
          reGap (Tok.mark :: ("\x7d\x7d".toList).map Tok.lit)))
          (t ++ (w3 ++ (d2 ++ (w4 ++ ("\x7d\x7d".toList ++ e))))) =
          some [w3 ++ (d2 ++ (w4 ++ ("\x7d\x7d".toList ++ e))),
            w3 ++ (d2 ++ (w4 ++ ("\x7d\x7d".toList ++ e))), "\x7d\x7d".toList ++ e, e] := by
        apply starG_of_dropWhile
        rw [dropWhile_append_stop htw (tail_head_not_name w3 d2 w4 e hw3 hd2 hw4), matchAt_mark,
          matchAt_mark, htail]
        rfl
      rw [this]
      rfl
    rw [rePlaceholderRef_eq, matchAt_lits]
    unfold placeholderText
    rw [List.append_assoc, stripLit_append, Option.some_bind, matchAt_mark]
    have hassoc : w1 ++ (d1 ++ (w2 ++ (a :: t ++ (w3 ++ (d2 ++ (w4 ++ "\x7d\x7d".toList)))))) ++ e =
        w1 ++ (d1 ++ (w2 ++ ((a :: t) ++ (w3 ++ (d2 ++ (w4 ++ ("\x7d\x7d".toList ++ e))))))) := by
      simp only [List.append_assoc]
    rw [hassoc]
    have hgap : matchAt (reGap (Tok.mark :: Tok.mark :: Tok.one reAlpha :: Tok.star reName ::
        Tok.mark :: Tok.mark :: reGap (Tok.mark :: ("\x7d\x7d".toList).map Tok.lit)))
        (w1 ++ (d1 ++ (w2 ++ ((a :: t) ++ (w3 ++ (d2 ++ (w4 ++ ("\x7d\x7d".toList ++ e)))))))) =
        some [(a :: t) ++ (w3 ++ (d2 ++ (w4 ++ ("\x7d\x7d".toList ++ e)))),
          (a :: t) ++ (w3 ++ (d2 ++ (w4 ++ ("\x7d\x7d".toList ++ e)))),
          w3 ++ (d2 ++ (w4 ++ ("\x7d\x7d".toList ++ e))),
          w3 ++ (d2 ++ (w4 ++ ("\x7d\x7d".toList ++ e))), "\x7d\x7d".toList ++ e, e] := by
      apply matchAt_reGap_skip hw1 hd1 hw2 _ hname
      intro c hc
      simp only [List.cons_append, List.head?_cons, Option.mem_def, Option.some.injEq] at hc
      subst hc
      exact reAlpha_not_blank_dash ha
    rw [hgap]
    rfl

/-- Every match of the pattern of the normalization is two opening braces followed by
a text without opening brace, which is not empty. -/
theorem matchAt_rePlaceholderRef_some {s : Str} {m : List Str}
    (h : matchAt rePlaceholderRef s = some m) :
    ∃ Q e, s = '\x7b' :: '\x7b' :: (Q ++ e) ∧ m.getLastD [] = e ∧ 1 ≤ Q.length ∧
      ∀ c ∈ Q, c ≠ '\x7b' := by
  rw [rePlaceholderRef_eq, matchAt_lits] at h
  cases hs : stripLit "\x7b\x7b".toList s with
  | none => rw [hs] at h; cases h
  | some r0 =>
    rw [hs, Option.some_bind, matchAt_mark] at h
    have hs0 := stripLit_eq_some.1 hs
    obtain ⟨m0, k0, hm0⟩ := Option.map_eq_some'.1 h
    obtain ⟨w1, d1, w2, y, hy, hw1, hd1, hw2, k1⟩ := matchAt_reGap_some k0
    rw [matchAt_mark, matchAt_mark] at k1
    obtain ⟨m1, k1a, hm1⟩ := Option.map_eq_some'.1 k1
    obtain ⟨m1b, k2, hm1b⟩ := Option.map_eq_some'.1 k1a
    obtain ⟨a, y1, hy1, ha, k3⟩ := matchAt_one_some k2
    rw [matchAt_star] at k3
    obtain ⟨t, y2, hy2, ht, k4⟩ := starG_some k3
    rw [matchAt_mark, matchAt_mark] at k4
    obtain ⟨m2, k4a, hm2⟩ := Option.map_eq_some'.1 k4
    obtain ⟨m2b, k5, hm2b⟩ := Option.map_eq_some'.1 k4a
    obtain ⟨w3, d2, w4, y3, hy3, hw3, hd2, hw4, k6⟩ := matchAt_reGap_some k5
    rw [matchAt_mark] at k6
    obtain ⟨m3, k6a, hm3⟩ := Option.map_eq_some'.1 k6
    have k7 := matchAt_lits "\x7d\x7d".toList [] y3
    rw [List.append_nil] at k7
    rw [k7] at k6a
    cases hs3 : stripLit "\x7d\x7d".toList y3 with
    | none => rw [hs3] at k6a; cases k6a
    | some e =>
      rw [hs3, Option.some_bind] at k6a
      have he : m3 = [e] := by
        simp only [matchAt, Option.some.injEq] at k6a
        exact k6a.symm
      have hy3e := stripLit_eq_some.1 hs3
      refine ⟨w1 ++ (d1 ++ (w2 ++ ((a :: t) ++ (w3 ++ (d2 ++ (w4 ++ "\x7d\x7d".toList)))))), e,
        ?_, ?_, ?_, ?_⟩
      · rw [hs0, hy, hy1, hy2, hy3, hy3e]
        simp only [List.append_assoc, List.cons_append, String.toList, List.nil_append]
      · rw [← hm0, ← hm1, ← hm1b, ← hm2, ← hm2b, ← hm3, he]
        rfl
      · simp only [List.length_append, List.length_cons]
        omega
      · intro c hc
        simp only [List.mem_append, List.mem_cons] at hc
        rcases hc with h1 | h1 | h1 | (h1 | h1) | h1 | h1 | h1 | h1
        · exact isBlank_no_brace hw1 c h1
        · exact isTrimMarker_no_brace hd1 c h1
        · exact isBlank_no_brace hw2 c h1
        · subst h1; exact reWord_ne_brace (reAlpha_reWord ha)
        · exact reName_ne_brace (ht c h1)
        · exact isBlank_no_brace hw3 c h1
        · exact isTrimMarker_no_brace hd2 c h1
        · exact isBlank_no_brace hw4 c h1
        · have : c = '\x7d' := by simpa using h1
          subst this; decide

/-- A match of the pattern of the normalization that starts before an opening pair of
braces ends before it. -/
theorem rePlaceholderRef_no_overlap {f2 s1 : Str} {m1 : List Str} (hf2 : f2 ≠ [])
    (hm1 : matchAt rePlaceholderRef (f2 ++ '\x7b' :: '\x7b' :: s1) = some m1) :
    (f2 ++ '\x7b' :: '\x7b' :: s1).length - (m1.getLastD []).length ≤ f2.length := by
  obtain ⟨Q, e, hs, hlast, hQlen, hQ⟩ := matchAt_rePlaceholderRef_some hm1
  rw [hlast, hs]
  cases f2 with
  | nil => exact absurd rfl hf2
  | cons p ps =>
    have hs2 : p :: (ps ++ '\x7b' :: '\x7b' :: s1) = '\x7b' :: '\x7b' :: (Q ++ e) := by
      simpa using hs
    simp only [List.cons.injEq] at hs2
    obtain ⟨_, hs3⟩ := hs2
    cases ps with
    | nil =>
      simp only [List.nil_append, List.cons.injEq, true_and] at hs3
      cases Q with
      | nil => simp at hQlen
      | cons q0 Q1 =>
        simp only [List.cons_append, List.cons.injEq] at hs3
        exact absurd hs3.1.symm (hQ q0 (List.mem_cons_self _ _))
    | cons q qs =>
      simp only [List.cons_append, List.cons.injEq] at hs3
      obtain ⟨_, hs4⟩ := hs3
      by_cases hlen : qs.length < Q.length
      · exact absurd rfl (hQ _ (mem_of_append_eq_append hs4 hlen))
      · simp only [List.length_append, List.length_cons, List.length_nil]
        omega

theorem normalizeFrom_cons_zero (c : Char) (cs : Str) :
    normalizeFrom 0 (c :: cs) =
      match matchAt rePlaceholderRef (c :: cs) with
      | some m =>
        rewriteMatch (submatches (c :: cs) m) ++
          normalizeFrom ((c :: cs).length - (m.getLastD []).length - 1) cs
      | none => c :: normalizeFrom 0 cs := rfl

theorem normalizeFrom_cons_succ (k : Nat) (c : Char) (cs : Str) :
    normalizeFrom (k + 1) (c :: cs) = normalizeFrom k cs := rfl

/-- The scan of the normalization arrives at a place with nothing pending when no match
that starts before the place reaches into it. -/
theorem normalizeFrom_reaches (s : Str) :
    ∀ (front : Str) (skip : Nat), skip ≤ front.length →
      (∀ f1 f2 m1, front = f1 ++ f2 → f2 ≠ [] → matchAt rePlaceholderRef (f2 ++ s) = some m1 →
        (f2 ++ s).length - (m1.getLastD []).length ≤ f2.length) →
      ∃ a, normalizeFrom skip (front ++ s) = a ++ normalizeFrom 0 s := by
  intro front
  induction front with
  | nil =>
    intro skip hskip _
    have : skip = 0 := by simpa using hskip
    subst this
    exact ⟨[], rfl⟩
  | cons p ps ih =>
    intro skip hskip hno
    have hno2 : ∀ f1 f2 m1, ps = f1 ++ f2 → f2 ≠ [] →
        matchAt rePlaceholderRef (f2 ++ s) = some m1 →
        (f2 ++ s).length - (m1.getLastD []).length ≤ f2.length := by
      intro f1 f2 m1 hf hf2 hm1
      exact hno (p :: f1) f2 m1 (by rw [hf]; rfl) hf2 hm1
    cases skip with
    | succ k =>
      rw [List.cons_append, normalizeFrom_cons_succ]
      exact ih k (by simpa using hskip) hno2
    | zero =>
      rw [List.cons_append, normalizeFrom_cons_zero]
      cases hp : matchAt rePlaceholderRef (p :: (ps ++ s)) with
      | none =>
        obtain ⟨a, ha⟩ := ih 0 (Nat.zero_le _) hno2
        exact ⟨p :: a, by rw [ha]; rfl⟩
      | some m1 =>
        have hb := hno [] (p :: ps) m1 rfl (by simp) hp
        obtain ⟨a, ha⟩ := ih ((p :: (ps ++ s)).length - (m1.getLastD []).length - 1)
          (by simp only [List.cons_append, List.length_cons] at hb ⊢; omega) hno2
        exact ⟨rewriteMatch (submatches (p :: (ps ++ s)) m1) ++ a, by
          simp only [ha, List.append_assoc]⟩

theorem isIdent_no_dot {x : Str} (h : isIdent x = true) : ∀ c ∈ x, (c == '.') = false := by
  cases x with
  | nil => intro c hc; cases hc
  | cons a t =>
    simp only [isIdent, Bool.and_eq_true] at h
    intro c hc
    have hw : reWord c = true := by
      rcases List.mem_cons.1 hc with h1 | h1
      · subst h1; exact reAlpha_reWord h.1
      · exact List.all_eq_true.1 h.2 c h1
    cases hd : c == '.' with
    | false => rfl
    | true =>
      have : c = '.' := by simpa using hd
      subst this
      exact absurd hw (by decide)

theorem recaseName_ident {x : Str} (h : isIdent x = true) : recaseName x = UpperFirst x := by
  unfold recaseName
  rw [splitChunks_of_no_sep _ x (isIdent_no_dot h)]
  simp [List.intercalate]

theorem Contains_gap {w1 d w2 : Str} (hw1 : isBlank w1 = true) (hd : isTrimMarker d = true)
    (hw2 : isBlank w2 = true) : Contains (w1 ++ (d ++ w2)) '-' = !d.isEmpty := by
  have hb : ∀ w : Str, isBlank w = true → '-' ∉ w := by
    intro w hw hmem
    have := isBlank_iff.1 hw _ hmem
    exact absurd this (by decide)
  rcases isTrimMarker_iff.1 hd with h | h
  · subst h
    have : ¬ Contains (w1 ++ ([] ++ w2)) '-' = true := by
      rw [Contains_iff]
      simp only [List.nil_append, List.mem_append]
      rintro (h1 | h1)
      · exact hb w1 hw1 h1
      · exact hb w2 hw2 h1
    simpa using this
  · subst h
    have : Contains (w1 ++ (['-'] ++ w2)) '-' = true := by
      rw [Contains_iff]
      simp
    simpa using this

/-- The replacement of a bare placeholder is the normalized reference to its field, with
the trim markers of the placeholder. -/
theorem rewriteMatch_placeholder {w1 d1 w2 x w3 d2 w4 : Str} (s e : Str)
    (hw1 : isBlank w1 = true) (hd1 : isTrimMarker d1 = true) (hw2 : isBlank w2 = true)
    (hx : isIdent x = true) (hw3 : isBlank w3 = true) (hd2 : isTrimMarker d2 = true)
    (hw4 : isBlank w4 = true) :
    rewriteMatch (submatches s
      [w1 ++ (d1 ++ (w2 ++ (x ++ (w3 ++ (d2 ++ (w4 ++ ("\x7d\x7d".toList ++ e))))))),
        x ++ (w3 ++ (d2 ++ (w4 ++ ("\x7d\x7d".toList ++ e)))),
        x ++ (w3 ++ (d2 ++ (w4 ++ ("\x7d\x7d".toList ++ e)))),
        w3 ++ (d2 ++ (w4 ++ ("\x7d\x7d".toList ++ e))),
        w3 ++ (d2 ++ (w4 ++ ("\x7d\x7d".toList ++ e))),
        "\x7d\x7d".toList ++ e, e]) = normalizedPlaceholder d1 x d2 := by
  have e1 : between (w1 ++ (d1 ++ (w2 ++ (x ++ (w3 ++ (d2 ++ (w4 ++ ("\x7d\x7d".toList ++ e))))))))
      (x ++ (w3 ++ (d2 ++ (w4 ++ ("\x7d\x7d".toList ++ e))))) = w1 ++ (d1 ++ w2) := by
    have := between_append (w1 ++ (d1 ++ w2)) (x ++ (w3 ++ (d2 ++ (w4 ++ ("\x7d\x7d".toList ++ e)))))
    simp only [List.append_assoc] at this ⊢
    exact this
  have e3 : between (w3 ++ (d2 ++ (w4 ++ ("\x7d\x7d".toList ++ e)))) ("\x7d\x7d".toList ++ e) =
      w3 ++ (d2 ++ w4) := by
    have := between_append (w3 ++ (d2 ++ w4)) ("\x7d\x7d".toList ++ e)
    simp only [List.append_assoc] at this ⊢
    exact this
  simp only [rewriteMatch, submatches, groups, List.getD_cons_succ, List.getD_cons_zero]
  rw [e1, between_append, e3]
  unfold normalizedRef normalizedPlaceholder
  rw [Contains_gap hw1 hd1 hw2, Contains_gap hw3 hd2 hw4, recaseName_ident hx]
  rcases isTrimMarker_iff.1 hd1 with h1 | h1 <;> rcases isTrimMarker_iff.1 hd2 with h2 | h2 <;>
    subst h1 <;> subst h2 <;> rfl

/-- The normalization of a text with a bare placeholder holds the normalized reference
to the field of the placeholder. -/
theorem normalizeTemplate_placeholder {w1 d1 w2 x w3 d2 w4 : Str} (front back : Str)
    (hw1 : isBlank w1 = true) (hd1 : isTrimMarker d1 = true) (hw2 : isBlank w2 = true)
    (hx : isIdent x = true) (hw3 : isBlank w3 = true) (hd2 : isTrimMarker d2 = true)
    (hw4 : isBlank w4 = true) :
    occursIn (normalizedPlaceholder d1 x d2)
      (normalizeTemplate (front ++ (placeholderText w1 d1 w2 x w3 d2 w4 ++ back))) := by
  have hm := matchAt_ref_placeholder back hw1 hd1 hw2 hx hw3 hd2 hw4
  have hst : ∃ s1, placeholderText w1 d1 w2 x w3 d2 w4 ++ back = '\x7b' :: '\x7b' :: s1 :=
    ⟨_, rfl⟩
  obtain ⟨s1, hs1⟩ := hst
  obtain ⟨a, ha⟩ := normalizeFrom_reaches (placeholderText w1 d1 w2 x w3 d2 w4 ++ back) front 0
    (Nat.zero_le _) (by
      intro f1 f2 m1 _ hf2 hm1
      rw [hs1] at hm1 ⊢
      exact rePlaceholderRef_no_overlap hf2 hm1)
  unfold normalizeTemplate
  rw [ha, hs1, normalizeFrom_cons_zero, ← hs1, hm]
  simp only
  rw [rewriteMatch_placeholder _ back hw1 hd1 hw2 hx hw3 hd2 hw4]
  exact ⟨a, _, rfl⟩

/-! ## The generated units -/

theorem generateAll_ok (U : UnicodeTables) (ch : GeneratorChoices) (canWrite : Str → Bool)
    (outputDir version : Str) (templates : List ParsedTemplate)
    (hw : ∀ pt ∈ templates, canWrite (unitPath outputDir pt) = true) :
    generateAll U ch canWrite outputDir version templates =
      .ok (templates.map (fun pt => (unitPath outputDir pt, generateUnit U ch version pt))) := by
  induction templates with
  | nil => rfl
  | cons pt rest ih =>
    have h1 : canWrite (outputDir ++ ('/' :: (generateUnit U ch version pt).FileName)) = true :=
      hw pt (List.mem_cons_self _ _)
    unfold generateAll
    rw [if_pos h1, ih (fun p hp => hw p (List.mem_cons_of_mem _ hp))]
    rfl

/-- When every unit can be written, `GenerateCode` succeeds and emits for every template
the unit generated for it, at its path. -/
theorem GenerateCode_ok (U : UnicodeTables) (ch : GeneratorChoices) (canWrite : Str → Bool)
    (templates : List ParsedTemplate) (outputDir version : Str)
    (hw : ∀ pt ∈ templates, canWrite (unitPath outputDir pt) = true) :
    ∃ files, GenerateCode U ch canWrite templates outputDir version = .ok files ∧
      ∀ pt ∈ templates, (unitPath outputDir pt, generateUnit U ch version pt) ∈ files := by
  refine ⟨_, generateAll_ok U ch canWrite outputDir version templates hw, ?_⟩
  intro pt hpt
  exact List.mem_map.2 ⟨pt, hpt, rfl⟩

theorem placeholderText_ne_nil (w1 d1 w2 x w3 d2 w4 front back : Str) :
    front ++ (placeholderText w1 d1 w2 x w3 d2 w4 ++ back) ≠ [] := by
  unfold placeholderText
  cases front <;> simp

theorem htmlConst_mem (U : UnicodeTables) (ch : GeneratorChoices) (version : Str)
    (pt : ParsedTemplate) :
    ({ Name := htmlConstName U pt, Value := normalizeTemplate pt.HTML } : GoConst) ∈
      (generateUnit U ch version pt).Consts :=
  List.mem_cons_self _ _

theorem subjectConst_mem (U : UnicodeTables) (ch : GeneratorChoices) (version : Str)
    (pt : ParsedTemplate) (h : pt.Subject ≠ []) :
    ({ Name := subjectConstName U pt, Value := normalizeTemplate pt.Subject } : GoConst) ∈
      (generateUnit U ch version pt).Consts := by
  unfold generateUnit
  simp only [if_neg h]
  exact List.mem_cons_of_mem _ (List.mem_cons_self _ _)

/-! ## Parsing the body again -/

theorem search_append_isSome (re : Regex) (s post : Str)
    (h : (search re s).isSome = true) : (search re (s ++ post)).isSome = true := by
  obtain ⟨⟨start, m⟩, hsm⟩ := Option.isSome_iff_exists.1 h
  obtain ⟨hm, pre, hs⟩ := search_some hsm
  rw [hs, List.append_assoc]
  exact search_isSome_of_matchAt re pre _
    (matchAt_append_isSome re start post (by rw [hm]; rfl))

/-- A line that is a line of the body stays one when text is taken from its end. -/
theorem isBodyLine_of_append {l post : Str} (h : isBodyLine (l ++ post) = true) :
    isBodyLine l = true := by
  unfold isBodyLine matchesSubject matchesTypeDef at h ⊢
  simp only [Bool.and_eq_true, Bool.not_eq_true'] at h ⊢
  constructor
  · cases hs : (search reSubject l).isSome with
    | false => rfl
    | true =>
      have := search_append_isSome reSubject l post hs
      rw [h.1] at this
      cases this
  · cases hs : (search reTypeDef l).isSome with
    | false => rfl
    | true =>
      have := search_append_isSome reTypeDef l post hs
      rw [h.2] at this
      cases this

theorem dropCR_append (l : Str) : ∃ post, l = dropCR l ++ post := by
  unfold dropCR
  by_cases h : l.getLast? = some '\r'
  · rw [if_pos h]
    exact ⟨['\r'], (List.dropLast_append_getLast? '\r' h).symm⟩
  · rw [if_neg h]
    exact ⟨[], (List.append_nil l).symm⟩

theorem isBodyLine_dropCR {l : Str} (h : isBodyLine l = true) : isBodyLine (dropCR l) = true := by
  obtain ⟨post, hp⟩ := dropCR_append l
  rw [hp] at h
  exact isBodyLine_of_append h

theorem byteLen_append (a b : Str) : byteLen (a ++ b) = byteLen a + byteLen b := by
  unfold byteLen
  rw [List.map_append, List.sum_append]

theorem byteLen_dropCR_le (l : Str) : byteLen (dropCR l) ≤ byteLen l := by
  obtain ⟨post, hp⟩ := dropCR_append l
  have := byteLen_append (dropCR l) post
  rw [← hp] at this
  omega

/-- The scanner reads back the lines of a text made of lines that each end in a
newline. -/
theorem rawLines_join_lines {ls : List Str} (h : ∀ l ∈ ls, '\n' ∉ l) :
    rawLines ((ls.map (· ++ ['\n'])).flatten) = ls := by
  unfold rawLines
  have e : (ls ++ [[]] : List Str).getLast? = some [] := by
    rw [List.getLast?_append]
    rfl
  rw [splitNL_join_lines h]
  simp only [e, if_true, List.dropLast_concat]

/-- The lines of the body that a first parse returns, as the scanner hands them to a
second parse: the lines of the first body, each without one carriage return at its
end. -/
theorem sourceLines_HTML (ord : RangeOrders) (path : Str) (lines : List Str)
    (hnl : ∀ l ∈ lines, '\n' ∉ l) :
    rawLines (parseLines ord path lines).HTML = lines.filter isBodyLine ∧
    sourceLines (parseLines ord path lines).HTML = (lines.filter isBodyLine).map dropCR := by
  have hH : (parseLines ord path lines).HTML =
      ((lines.filter isBodyLine).map (· ++ ['\n'])).flatten := by
    rw [parseLines_HTML, foldl_parseLine_htmlBuf]
    rfl
  have hr : rawLines (parseLines ord path lines).HTML = lines.filter isBodyLine := by
    rw [hH]
    exact rawLines_join_lines (fun l hl => hnl l (List.mem_filter.1 hl).1)
  refine ⟨hr, ?_⟩
  unfold sourceLines
  rw [hr]

/-- A parse of lines that all go to the body: nothing is declared. -/
theorem parseLines_of_body_lines (ord : RangeOrders) (path : Str) (lines : List Str)
    (hb : ∀ l ∈ lines, isBodyLine l = true) :
    (parseLines ord path lines).Subject = [] ∧ (parseLines ord path lines).Structs = [] ∧
    declaredVariables lines = [] ∧
    (parseLines ord path lines).HTML = (lines.map (· ++ ['\n'])).flatten ∧
    ∀ v ∈ (parseLines ord path lines).Variables, ∃ name, v = stringVariable name := by
  have hc : ∀ l ∈ lines, classify l = .body := fun l hl => (classify_eq_body_iff l).2 (hb l hl)
  have hdecl : declaredVariables lines = [] := by
    unfold declaredVariables
    rw [List.filterMap_eq_nil_iff]
    intro l hl
    unfold declaredVariable
    rw [hc l hl]
  have hment : mentionedStructs lines = [] := by
    unfold mentionedStructs
    rw [List.filterMap_eq_nil_iff]
    intro l hl
    unfold mentionedStruct
    rw [hc l hl]
  refine ⟨?_, ?_, hdecl, ?_, ?_⟩
  · rw [parseLines_Subject, foldl_parseLine_Subject_keep lines _
      (fun l hl t h => by rw [hc l hl] at h; cases h)]
    rfl
  · rw [List.eq_nil_iff_forall_not_mem]
    intro s hs
    have := ((mem_parseLines_Structs ord path lines s).1 hs).1
    rw [hment] at this
    cases this
  · rw [parseLines_HTML, foldl_parseLine_htmlBuf, List.filter_eq_self.2 hb]
    rfl
  · intro v hv
    rw [parseLines_Variables, hdecl, List.nil_append] at hv
    obtain ⟨name, _, hn⟩ := List.mem_map.1 hv
    exact ⟨name, hn.symm⟩

theorem linesFit_HTML (ord : RangeOrders) (path data : Str) (hfit : linesFit data) :
    linesFit (parseLines ord path (sourceLines data)).HTML := by
  unfold linesFit
  rw [(sourceLines_HTML ord path _ (sourceLines_no_newline data)).1]
  intro l hl
  have hl2 := (List.mem_filter.1 hl).1
  unfold sourceLines at hl2
  obtain ⟨raw, hraw, rfl⟩ := List.mem_map.1 hl2
  exact Nat.lt_of_le_of_lt (byteLen_dropCR_le raw) (hfit raw hraw)

/-- Every variable of a parse of lines that all go to the body is inferred: it has the
type `string` and its name is a bare placeholder of the body. -/
theorem inferred_of_body_lines (ord : RangeOrders) (path : Str) (lines : List Str)
    (hb : ∀ l ∈ lines, isBodyLine l = true) :
    ∀ v ∈ (parseLines ord path lines).Variables, v.Typ = "string".toList ∧
      isIdent v.Name = true ∧ barePlaceholderIn v.Name (parseLines ord path lines).HTML := by
  obtain ⟨hS, _, hdecl, _, _⟩ := parseLines_of_body_lines ord path lines hb
  intro v hv
  rw [mem_parseLines_Variables, hdecl] at hv
  rcases hv with hv | ⟨name, hname, hkey, _, _⟩
  · cases hv
  · subst hname
    rw [mem_candidatesOf_keys, hS] at hkey
    rcases hkey with ⟨m, hm, _, _⟩ | ⟨m, hm, _, hx⟩
    · cases hm
    · obtain ⟨h1, h2⟩ := placeholder_of_candidate hm
      rw [hx] at h1 h2
      exact ⟨rfl, h1, h2⟩

/-! ## The rendering helpers of a unit -/

theorem renderSteps_of_no_subject (lowerBase : Str) (pt : ParsedTemplate)
    (h : pt.Subject = []) :
    renderSteps lowerBase pt =
      [{ Helper := .body, Const := lowerBase ++ "EmailHTMLTemplate".toList,
         Field := "HTML".toList }] := by
  unfold renderSteps
  rw [if_pos h]
  rfl

/-- The import of a helper is among the imports exactly when a step uses the helper. -/
theorem mem_helperImports (steps : List RenderStep) (h : RenderHelper) :
    h.importPath ∈ helperImports steps ↔ ∃ st ∈ steps, st.Helper = h := by
  unfold helperImports
  rw [List.mem_dedup, List.mem_map]
  constructor
  · rintro ⟨st, hst, hp⟩
    refine ⟨st, hst, ?_⟩
    cases hh : st.Helper <;> cases h <;> rw [hh] at hp <;>
      first | rfl | exact absurd hp (by decide)
  · rintro ⟨st, hst, rfl⟩
    exact ⟨st, hst, rfl⟩

/-- The subject helper is used by a step exactly when the subject is not empty. -/
theorem subject_step_iff (lowerBase : Str) (pt : ParsedTemplate) :
    (∃ st ∈ renderSteps lowerBase pt, st.Helper = .subject) ↔ pt.Subject ≠ [] := by
  unfold renderSteps
  by_cases h : pt.Subject = []
  · rw [if_pos h]
    constructor
    · rintro ⟨st, hst, hh⟩
      simp only [List.nil_append, List.mem_singleton] at hst
      rw [hst] at hh
      cases hh
    · intro hne
      exact absurd h hne
  · rw [if_neg h]
    constructor
    · intro _
      exact h
    · intro _
      exact ⟨_, List.mem_append_left _ (List.mem_singleton_self _), rfl⟩

/-- A unit imports `text/template` exactly when the subject of its template is not
empty. -/
theorem text_template_import_iff (U : UnicodeTables) (ch : GeneratorChoices) (version : Str)
    (pt : ParsedTemplate) :
    "text/template".toList ∈ (generateUnit U ch version pt).Imports ↔ pt.Subject ≠ [] := by
  have h := mem_helperImports
    (renderSteps (LowerFirst U (MakeExportedName U (fileStem pt.FilePath))) pt) .subject
  rw [subject_step_iff] at h
  exact h

/-! # The claims -/

/-- C1: for a text whose lines the scanner accepts and whose last line with a subject
directive comment is `l`, `ParseFile` returns a template whose `Subject` is the text of
`l` after `$Subject:` up to the first following `-->`, trimmed of white space, and no
line of `HTML` contains a subject directive. -/
theorem C1_subject_of_last_directive (ord : RangeOrders) (path data : Str)
    (hfit : linesFit data) (front back : List Str) (l : Str)
    (hlines : sourceLines data = front ++ l :: back)
    (hl : (specSubjectOf l).isSome = true) (hback : ∀ x ∈ back, specSubjectOf x = none) :
    ∃ pt, ParseFile ord path (some data) = .ok pt ∧
      some pt.Subject = specSubjectOf l ∧
      ∀ x ∈ splitNL pt.HTML, specSubjectOf x = none := by
  refine ⟨_, ParseFile_of_linesFit ord path hfit, ?_, ?_⟩
  · obtain ⟨t, ht⟩ := Option.isSome_iff_exists.1 hl
    have hnl : '\n' ∉ l := sourceLines_no_newline data l (by rw [hlines]; simp)
    have hc : classify l = .subject t := (classify_subject_iff l hnl t).2 ht
    have hb : ∀ x ∈ back, ∀ u, classify x ≠ .subject u := by
      intro x hx u hu
      have hxnl : '\n' ∉ x := sourceLines_no_newline data x (by rw [hlines]; simp [hx])
      have := (classify_subject_iff x hxnl u).1 hu
      rw [hback x hx] at this
      cases this
    rw [parseLines_Subject, hlines, foldl_parseLine_Subject_last front back l t _ hc hb, ht]
  · intro x hx
    have hxnl : '\n' ∉ x := splitNL_no_newline _ x hx
    rw [parseLines_HTML, foldl_parseLine_htmlBuf] at hx
    simp only [ScanState.init, List.nil_append] at hx
    rw [splitNL_join_lines (fun y hy =>
      sourceLines_no_newline data y (List.mem_filter.1 hy).1)] at hx
    have hbody : isBodyLine x = true := by
      rcases List.mem_append.1 hx with h | h
      · exact (List.mem_filter.1 h).2
      · simp at h; subst h; decide
    have hsome := specSubjectOf_isSome_iff x hxnl
    unfold isBodyLine at hbody
    cases hm : matchesSubject x with
    | true => rw [hm] at hbody; cases hbody
    | false =>
      rw [hm] at hsome
      cases hs : specSubjectOf x with
      | none => rfl
      | some u => rw [hs] at hsome; cases hsome

theorem C1_subject_of_last_directive_witness :
    linesFit simpleTemplate ∧
    sourceLines simpleTemplate =
      [] ++ "<!-- $Subject: Hello \x7b\x7busername\x7d\x7d -->".toList ::
        ["<html><body><p>Welcome \x7b\x7bfirstName\x7d\x7d</p></body></html>".toList] ∧
    ∃ pt, ParseFile ⟨[], [], []⟩ [] (some simpleTemplate) = .ok pt ∧
      some pt.Subject = specSubjectOf "<!-- $Subject: Hello \x7b\x7busername\x7d\x7d -->".toList ∧
      ∀ x ∈ splitNL pt.HTML, specSubjectOf x = none :=
  ⟨by decide, by decide,
    C1_subject_of_last_directive ⟨[], [], []⟩ [] simpleTemplate (by decide) []
      ["<html><body><p>Welcome \x7b\x7bfirstName\x7d\x7d</p></body></html>".toList]
      "<!-- $Subject: Hello \x7b\x7busername\x7d\x7d -->".toList (by decide)
      (by decide) (by decide)⟩

/-- C2: for a text whose lines the scanner accepts, `ParseFile` returns a template whose
`HTML` is the concatenation, in source order, of the lines that match neither the
subject pattern nor the type pattern, each followed by one newline; every line of
`HTML` is such a line, and no line recognised as a directive is among them. -/
theorem C2_html_is_body_lines (ord : RangeOrders) (path data : Str) (hfit : linesFit data) :
    ∃ pt, ParseFile ord path (some data) = .ok pt ∧
      pt.HTML = (((sourceLines data).filter isBodyLine).map (· ++ ['\n'])).flatten ∧
      (∀ l ∈ splitNL pt.HTML, isBodyLine l = true) ∧
      (∀ l ∈ sourceLines data, isBodyLine l = false → l ∉ splitNL pt.HTML) := by
  refine ⟨_, ParseFile_of_linesFit ord path hfit, ?_, ?_⟩
  · rw [parseLines_HTML, foldl_parseLine_htmlBuf]; rfl
  · have hsplit : ∀ l ∈ splitNL (parseLines ord path (sourceLines data)).HTML,
        isBodyLine l = true := by
      intro l hl
      rw [parseLines_HTML, foldl_parseLine_htmlBuf] at hl
      simp only [ScanState.init, List.nil_append] at hl
      rw [splitNL_join_lines] at hl
      · rcases List.mem_append.1 hl with h | h
        · exact (List.mem_filter.1 h).2
        · simp at h; subst h; exact isBodyLine_nil
      · intro x hx
        exact sourceLines_no_newline data x (List.mem_filter.1 hx).1
    refine ⟨hsplit, ?_⟩
    intro l _ hb hmem
    rw [hsplit l hmem] at hb
    cases hb

theorem C2_html_is_body_lines_witness :
    linesFit orderTemplate ∧
    ∃ pt, ParseFile ⟨[], [], []⟩ [] (some orderTemplate) = .ok pt ∧
      pt.HTML = (((sourceLines orderTemplate).filter isBodyLine).map (· ++ ['\n'])).flatten ∧
      (∀ l ∈ splitNL pt.HTML, isBodyLine l = true) ∧
      (∀ l ∈ sourceLines orderTemplate, isBodyLine l = false → l ∉ splitNL pt.HTML) :=
  ⟨by decide, C2_html_is_body_lines ⟨[], [], []⟩ [] orderTemplate (by decide)⟩

/-- C3: for a text whose lines the scanner accepts, `ParseFile` returns a template such
that every identifier `x` that occurs as a bare placeholder in its `Subject` or `HTML`
and is declared by no type directive is a variable of type `string` when `UpperFirst x`
is the name of no struct, and is the name of no variable when `UpperFirst x` is the
name of a struct; every variable that is not declared is an identifier that occurs as a
bare placeholder; and a dotted placeholder yields no match of the placeholder pattern. -/
theorem C3_bare_placeholders_inferred (ord : RangeOrders) (path data : Str)
    (hfit : linesFit data) :
    ∃ pt, ParseFile ord path (some data) = .ok pt ∧
      (∀ x, isIdent x = true → (barePlaceholderIn x pt.Subject ∨ barePlaceholderIn x pt.HTML) →
        x ∉ (declaredVariables (sourceLines data)).map (·.Name) →
        (UpperFirst x ∉ pt.Structs.map (·.Name) → stringVariable x ∈ pt.Variables) ∧
        (UpperFirst x ∈ pt.Structs.map (·.Name) → ∀ v ∈ pt.Variables, v.Name ≠ x)) ∧
      (∀ v ∈ pt.Variables, v ∉ declaredVariables (sourceLines data) →
        v.Typ = "string".toList ∧ isIdent v.Name = true ∧
          (barePlaceholderIn v.Name pt.Subject ∨ barePlaceholderIn v.Name pt.HTML)) ∧
      (∀ A B, isIdent A = true → (∀ c ∈ B, reName c = true) →
        FindAllStringSubmatch reSimpleVar (dottedPlaceholder A B) = []) := by
  refine ⟨_, ParseFile_of_linesFit ord path hfit, ?_, ?_, ?_⟩
  · intro x hx hocc hdecl
    have hcand : x ∈ (candidatesOf (parseLines ord path (sourceLines data)).Subject
        (parseLines ord path (sourceLines data)).HTML).keys := by
      rw [mem_candidatesOf_keys]
      rcases hocc with h | h
      · exact Or.inl (candidate_of_placeholder hx h)
      · exact Or.inr (candidate_of_placeholder hx h)
    constructor
    · intro hstruct
      rw [mem_parseLines_Variables]
      exact Or.inr ⟨x, rfl, hcand, hdecl, hstruct⟩
    · intro hstruct v hv hname
      rw [mem_parseLines_Variables] at hv
      rcases hv with h | ⟨name, rfl, _, _, h3⟩
      · exact hdecl (by rw [← hname]; exact List.mem_map.2 ⟨v, h, rfl⟩)
      · have : name = x := hname
        subst this
        exact h3 hstruct
  · intro v hv hnd
    rw [mem_parseLines_Variables] at hv
    rcases hv with h | ⟨name, rfl, h1, _, _⟩
    · exact absurd h hnd
    · rw [mem_candidatesOf_keys] at h1
      refine ⟨rfl, ?_⟩
      rcases h1 with ⟨m, hm, _, hx⟩ | ⟨m, hm, _, hx⟩
      · have := placeholder_of_candidate hm
        rw [hx] at this
        exact ⟨this.1, Or.inl this.2⟩
      · have := placeholder_of_candidate hm
        rw [hx] at this
        exact ⟨this.1, Or.inr this.2⟩
  · intro A B hA hB
    exact FindAll_dottedPlaceholder hA hB

theorem C3_bare_placeholders_inferred_witness :
    linesFit simpleTemplate ∧ isIdent "username".toList = true ∧
    ∃ pt, ParseFile ⟨[], [], []⟩ [] (some simpleTemplate) = .ok pt ∧
      barePlaceholderIn "username".toList pt.Subject ∧
      "username".toList ∉ (declaredVariables (sourceLines simpleTemplate)).map (·.Name) ∧
      UpperFirst "username".toList ∉ pt.Structs.map (·.Name) ∧
      stringVariable "username".toList ∈ pt.Variables := by
  refine ⟨by decide, by decide, ?_⟩
  obtain ⟨pt, hpt, h1, _, _⟩ :=
    C3_bare_placeholders_inferred ⟨[], [], []⟩ [] simpleTemplate (by decide)
  have hpt2 : pt = parseLines ⟨[], [], []⟩ [] (sourceLines simpleTemplate) := by
    rw [ParseFile_of_linesFit ⟨[], [], []⟩ [] (by decide)] at hpt
    injection hpt with hpt
    exact hpt.symm
  have hS : pt.Subject = "Hello ".toList ++
      (placeholderText [] [] [] "username".toList [] [] [] ++ []) := by
    rw [hpt2]; decide
  have hocc : barePlaceholderIn "username".toList pt.Subject :=
    ⟨"Hello ".toList, [], [], [], [], [], [], [], by decide, by decide, by decide, by decide,
      by decide, by decide, hS⟩
  have hstruct : UpperFirst "username".toList ∉ pt.Structs.map (·.Name) := by
    rw [hpt2]; decide
  exact ⟨pt, hpt, hocc, by decide, hstruct,
    (h1 "username".toList (by decide) (Or.inl hocc) (by decide)).1 hstruct⟩

/-- C4: for a text whose lines the scanner accepts and that has a line which is a type
directive comment `<!-- @type A.B T -->` with a dotted name (the type `T` possibly
empty), `ParseFile` returns a template that has a struct named `UpperFirst A` with a
field named `UpperFirst B` of type `T`, whatever the other lines are. -/
theorem C4_dotted_directive_field (ord : RangeOrders) (path data : Str) (hfit : linesFit data)
    (w1 w2 A B w3 T w4 : Str)
    (hl : typeComment w1 w2 (A ++ '.' :: B) w3 T w4 ∈ sourceLines data)
    (hok : typeCommentOK w1 w2 (A ++ '.' :: B) w3 T w4 = true) (hA : '.' ∉ A) :
    ∃ pt, ParseFile ord path (some data) = .ok pt ∧
      ∃ s ∈ pt.Structs, s.Name = UpperFirst A ∧
        ({ Name := UpperFirst B, Typ := T } : ParsedField) ∈ s.Fields :=
  ⟨_, ParseFile_of_linesFit ord path hfit,
    dotted_directive_field ord path (sourceLines data) _ A B T hl hA (classify_typeComment hok)⟩

theorem C4_dotted_directive_field_witness :
    linesFit orderTemplate ∧
    typeComment " ".toList " ".toList ("Order".toList ++ '.' :: "ID".toList) " ".toList
      "int".toList " ".toList = "<!-- @type Order.ID int -->".toList ∧
    ∃ pt, ParseFile ⟨[], [], []⟩ [] (some orderTemplate) = .ok pt ∧
      ∃ s ∈ pt.Structs, s.Name = UpperFirst "Order".toList ∧
        ({ Name := UpperFirst "ID".toList, Typ := "int".toList } : ParsedField) ∈ s.Fields :=
  ⟨by decide, by decide,
    C4_dotted_directive_field ⟨[], [], []⟩ [] orderTemplate (by decide)
      " ".toList " ".toList "Order".toList "ID".toList " ".toList "int".toList " ".toList
      (by decide) (by decide) (by decide)⟩

/-- C5: for a text whose lines the scanner accepts and that has a line which is a type
directive comment `<!-- @type n T -->` with a name `n` without dot and a non-empty type
`T`, `ParseFile` returns a template with a variable whose name is `n` as written and
whose type is `T`, and the line leaves the struct map of the loop unchanged. -/
theorem C5_typed_directive_variable (ord : RangeOrders) (path data : Str)
    (hfit : linesFit data) (w1 w2 n w3 T w4 : Str)
    (hl : typeComment w1 w2 n w3 T w4 ∈ sourceLines data)
    (hok : typeCommentOK w1 w2 n w3 T w4 = true) (hn : '.' ∉ n) (hT : T ≠ []) :
    ∃ pt, ParseFile ord path (some data) = .ok pt ∧
      ({ Name := n, Typ := T } : ParsedVariable) ∈ pt.Variables ∧
      ∀ st : ScanState,
        (parseLine st (typeComment w1 w2 n w3 T w4)).structMap = st.structMap :=
  ⟨_, ParseFile_of_linesFit ord path hfit,
    typed_directive_variable ord path (sourceLines data) _ n T hl (classify_typeComment hok)
      hn hT⟩

theorem C5_typed_directive_variable_witness :
    linesFit inviteTemplate ∧
    typeComment " ".toList " ".toList "inviteLink".toList " ".toList "string".toList
      " ".toList = "<!-- @type inviteLink string -->".toList ∧
    ∃ pt, ParseFile ⟨[], [], []⟩ [] (some inviteTemplate) = .ok pt ∧
      ({ Name := "inviteLink".toList, Typ := "string".toList } : ParsedVariable) ∈ pt.Variables ∧
      ∀ st : ScanState,
        (parseLine st (typeComment " ".toList " ".toList "inviteLink".toList " ".toList
          "string".toList " ".toList)).structMap = st.structMap :=
  ⟨by decide, by decide,
    C5_typed_directive_variable ⟨[], [], []⟩ [] inviteTemplate (by decide)
      " ".toList " ".toList "inviteLink".toList " ".toList "string".toList " ".toList
      (by decide) (by decide) (by decide) (by decide)⟩

/-- C6: for a text whose lines the scanner accepts, `ParseFile` returns a template whose
structs have pairwise distinct names; these names are exactly the names `UpperFirst n`
of the directives `@type n` without type and `UpperFirst A` of the directives
`@type A.B [T]`, and there are as many structs as distinct such names. -/
theorem C6_struct_names (ord : RangeOrders) (path data : Str) (hfit : linesFit data) :
    ∃ pt, ParseFile ord path (some data) = .ok pt ∧
      (pt.Structs.map (·.Name)).Nodup ∧
      (∀ k, k ∈ pt.Structs.map (·.Name) ↔ k ∈ mentionedStructs (sourceLines data)) ∧
      pt.Structs.length = (mentionedStructs (sourceLines data)).dedup.length := by
  refine ⟨_, ParseFile_of_linesFit ord path hfit, ?_⟩
  have hp := parseLines_struct_names_perm ord path (sourceLines data)
  have hnd : ((mentionedStructs (sourceLines data)).foldl addKey []).Nodup :=
    foldl_addKey_nodup _ _ List.nodup_nil
  have hmem : ∀ k, k ∈ (mentionedStructs (sourceLines data)).foldl addKey [] ↔
      k ∈ mentionedStructs (sourceLines data) := by
    intro k
    rw [mem_foldl_addKey]
    simp
  have hnd2 : ((parseLines ord path (sourceLines data)).Structs.map (·.Name)).Nodup :=
    hp.nodup_iff.2 hnd
  refine ⟨hnd2, fun k => (hp.mem_iff).trans (hmem k), ?_⟩
  have hperm : ((parseLines ord path (sourceLines data)).Structs.map (·.Name)).Perm
      (mentionedStructs (sourceLines data)).dedup := by
    rw [List.perm_ext_iff_of_nodup hnd2 (List.nodup_dedup _)]
    intro k
    rw [List.mem_dedup]
    exact (hp.mem_iff).trans (hmem k)
  simpa using hperm.length_eq

theorem C6_struct_names_witness :
    linesFit orderTemplate ∧
    (mentionedStructs (sourceLines orderTemplate)).dedup.length = 2 ∧
    ∃ pt, ParseFile ⟨[], [], []⟩ [] (some orderTemplate) = .ok pt ∧
      (pt.Structs.map (·.Name)).Nodup ∧
      (∀ k, k ∈ pt.Structs.map (·.Name) ↔ k ∈ mentionedStructs (sourceLines orderTemplate)) ∧
      pt.Structs.length = (mentionedStructs (sourceLines orderTemplate)).dedup.length :=
  ⟨by decide, by decide, C6_struct_names ⟨[], [], []⟩ [] orderTemplate (by decide)⟩

/-- C7, as stated, fails: for the template that declares the variable `order` next to
the struct `Order`, the result has both, and they collide; so do the inferred variable
`item` and the struct `ITEM`, whose names differ in case only. -/
theorem C7_collision_counterexample :
    ∃ pt, ParseFile ⟨[], [], []⟩ [] (some collisionTemplate) = .ok pt ∧
      (∃ v ∈ pt.Variables, ∃ s ∈ pt.Structs,
        v.Name = "order".toList ∧ s.Name = "Order".toList ∧ collides v s = true) ∧
      (∃ v ∈ pt.Variables, ∃ s ∈ pt.Structs,
        v.Name = "item".toList ∧ s.Name = "ITEM".toList ∧ collides v s = true) :=
  ⟨_, ParseFile_of_linesFit _ _ (by decide), by decide, by decide⟩

/-- C7, amended: for a text whose lines the scanner accepts, every variable of the
template `ParseFile` returns is either declared by a type directive or an inferred
variable of type `string` whose name, first character upper-cased, is the name of no
struct of the template. -/
theorem C7_inferred_variables_avoid_structs (ord : RangeOrders) (path data : Str)
    (hfit : linesFit data) :
    ∃ pt, ParseFile ord path (some data) = .ok pt ∧
      ∀ v ∈ pt.Variables, v ∈ declaredVariables (sourceLines data) ∨
        (v.Typ = "string".toList ∧ ∀ s ∈ pt.Structs, UpperFirst v.Name ≠ s.Name) := by
  refine ⟨_, ParseFile_of_linesFit ord path hfit, ?_⟩
  intro v hv
  rw [parseLines_Variables] at hv
  rcases List.mem_append.1 hv with h | h
  · exact Or.inl h
  · right
    obtain ⟨name, hname, rfl⟩ := List.mem_map.1 h
    have hi := (List.mem_filter.1 hname).2
    refine ⟨rfl, ?_⟩
    intro s hs heq
    unfold inferable at hi
    simp only [Bool.and_eq_true, Bool.not_eq_true', List.any_eq_false, decide_eq_true_eq] at hi
    exact hi.2 s hs heq

theorem C7_inferred_variables_avoid_structs_witness :
    linesFit collisionTemplate ∧
    ∃ pt, ParseFile ⟨[], [], []⟩ [] (some collisionTemplate) = .ok pt ∧
      ∀ v ∈ pt.Variables, v ∈ declaredVariables (sourceLines collisionTemplate) ∨
        (v.Typ = "string".toList ∧ ∀ s ∈ pt.Structs, UpperFirst v.Name ≠ s.Name) :=
  ⟨by decide, C7_inferred_variables_avoid_structs ⟨[], [], []⟩ [] collisionTemplate (by decide)⟩

/-- C8, as stated, fails: for the template that declares `x` twice, the result has two
variables named `x`. -/
theorem C8_duplicate_counterexample :
    ∃ pt, ParseFile ⟨[], [], []⟩ [] (some twiceTemplate) = .ok pt ∧
      ¬ (pt.Variables.map (·.Name)).Nodup :=
  ⟨_, ParseFile_of_linesFit _ _ (by decide), by decide⟩

/-- C8, amended: for a text whose lines the scanner accepts and in which no name is
declared by more than one directive `@type n T`, the names of the variables of the
template `ParseFile` returns are pairwise distinct. -/
theorem C8_variable_names_distinct (ord : RangeOrders) (path data : Str)
    (hfit : linesFit data)
    (hdecl : ((declaredVariables (sourceLines data)).map (·.Name)).Nodup) :
    ∃ pt, ParseFile ord path (some data) = .ok pt ∧ (pt.Variables.map (·.Name)).Nodup := by
  refine ⟨_, ParseFile_of_linesFit ord path hfit, ?_⟩
  rw [parseLines_Variables, List.map_append, List.map_map]
  have hcomp : ((fun v : ParsedVariable => v.Name) ∘ stringVariable) = id := rfl
  rw [hcomp, List.map_id]
  refine List.Nodup.append hdecl (inferred_names_nodup _ _ _ (candidatesOf_keys_nodup _ _)) ?_
  intro name h1 h2
  have hi := (List.mem_filter.1 h2).2
  unfold inferable at hi
  simp only [Bool.and_eq_true, Bool.not_eq_true'] at hi
  have := (existingOf_lookup (declaredVariables (sourceLines data)) name).2 h1
  rw [this] at hi
  exact absurd hi.1 (by simp)

theorem C8_variable_names_distinct_witness :
    linesFit inviteTemplate ∧
    ((declaredVariables (sourceLines inviteTemplate)).map (·.Name)).Nodup ∧
    ∃ pt, ParseFile ⟨[], [], []⟩ [] (some inviteTemplate) = .ok pt ∧
      (pt.Variables.map (·.Name)).Nodup :=
  ⟨by decide, by decide,
    C8_variable_names_distinct ⟨[], [], []⟩ [] inviteTemplate (by decide) (by decide)⟩

/-- C9, at the simple template of the tests: whatever the order of the map loops, the
template `ParseFile` returns lists the type `string` twice, once for each of its two
inferred variables. -/
theorem C9_types_repeat_string (ord : RangeOrders) :
    ∃ pt, ParseFile ord [] (some simpleTemplate) = .ok pt ∧
      pt.Types = [{ Typ := "string".toList }, { Typ := "string".toList }] ∧
      ¬ (pt.Types.map (·.Typ)).Nodup := by
  have hT : (parseLines ord [] (sourceLines simpleTemplate)).Types =
      [{ Typ := "string".toList }, { Typ := "string".toList }] := by
    rw [parseLines_Types]
    have h1 : ((sourceLines simpleTemplate).foldl parseLine ScanState.init).typeSet = [] := by
      decide
    have h2 : ((sourceLines simpleTemplate).foldl parseLine ScanState.init).structMap = [] := by
      decide
    have h3 : ((sourceLines simpleTemplate).foldl parseLine ScanState.init).Variables = [] := by
      decide
    have h4 : candidatesOf ((sourceLines simpleTemplate).foldl parseLine ScanState.init).Subject
        ((sourceLines simpleTemplate).foldl parseLine ScanState.init).htmlBuf =
        [("username".toList, ()), ("firstName".toList, ())] := by
      decide
    rw [h1, h2, h3, h4, rangeOrder_nil, rangeOrder_nil]
    simp only [List.map_nil, List.nil_append]
    have hall : ∀ l : List Str, l.filter (inferable (existingOf []) []) = l := by
      intro l
      apply List.filter_eq_self.2
      intro a _
      rfl
    rw [hall, List.map_map]
    have hlen := (rangeOrder_perm ord.candidates
      [("username".toList, ()), ("firstName".toList, ())]).length_eq
    match hr : rangeOrder ord.candidates [("username".toList, ()), ("firstName".toList, ())],
      hlen with
    | [a, b], _ => rfl
  refine ⟨_, ParseFile_of_linesFit ord [] (by decide), hT, ?_⟩
  rw [hT]
  decide

/-- C10, as stated, fails: a file that is read and consists of one line of 65536 bytes
makes `ParseFile` fail with the error of the scanner. -/
theorem C10_long_line_counterexample :
    ParseFile ⟨[], [], []⟩ [] (some longLine) = .error (.scanning .ErrTooLong) :=
  ParseFile_of_not_linesFit _ _ not_linesFit_longLine

/-- C10, amended: `ParseFile` returns an error exactly when the file cannot be read or
one of its lines has `MaxScanTokenSize` bytes or more; it returns a template exactly
when the file is read and every line is shorter, whatever the lines contain. -/
theorem C10_error_iff (ord : RangeOrders) (path : Str) (file : Option Str) :
    ((∃ e, ParseFile ord path file = .error e) ↔
        (file = none ∨ ∃ data, file = some data ∧ ¬ linesFit data)) ∧
      ((∃ pt, ParseFile ord path file = .ok pt) ↔ ∃ data, file = some data ∧ linesFit data) := by
  cases file with
  | none => simp [ParseFile]
  | some data =>
    by_cases h : linesFit data
    · rw [ParseFile_of_linesFit ord path h]
      simp [h]
    · rw [ParseFile_of_not_linesFit ord path h]
      simp [h]

/-- Claim C11. For every string, and whatever the tables of `unicode` are,
`MakeExportedName` returns what the reference derivation returns: the chunks of letters
and digits, each with its first character in upper case, concatenated; `X` when that is
empty, and with `X` in front when it does not start with a letter. On the ASCII examples:
`simple` gives `Simple`, `nosubject` gives `Nosubject`, `1a-b` gives `X1aB`, and the empty
and the all-punctuation string give `X`. -/
theorem C11_MakeExportedName_is_reference_derivation :
    (∀ (U : UnicodeTables) (s : Str), MakeExportedName U s = specExportedName U s) ∧
    MakeExportedName excerptTables "simple".toList = "Simple".toList ∧
    MakeExportedName excerptTables "nosubject".toList = "Nosubject".toList ∧
    MakeExportedName excerptTables "1a-b".toList = "X1aB".toList ∧
    MakeExportedName excerptTables [] = "X".toList ∧
    MakeExportedName excerptTables "--..".toList = "X".toList :=
  ⟨MakeExportedName_eq_spec, by decide, by decide, by decide, by decide, by decide⟩

/-- Claim C12. The name made of the one character U+4E2D, a letter that has no case
(the stem of a template file named by that character), is returned as it is: the result
is a letter, but no upper case letter, so it is no exported identifier although the
function's comment promises one. -/
theorem C12_caseless_first_letter_not_upper :
    MakeExportedName excerptTables ['中'] = ['中'] ∧
    excerptTables.IsLetter '中' = true ∧ excerptTables.ToUpper '中' = '中' ∧
    excerptIsUpper '中' = false := by
  decide

/-- Claim C13. When every unit can be written, `GenerateCode` emits for every template a
unit in which, for every bare placeholder of the body, the constant
`<lowerBase>EmailHTMLTemplate` holds the normalized reference to the field
`UpperFirst name`, with a dot in front and with the trim markers of the placeholder,
and likewise the constant `<lowerBase>EmailSubjectTemplate` for every bare placeholder
of the subject. For `simple.html` of the generator's test the two constants are
`simpleEmailHTMLTemplate` with `\x7b\x7b .FirstName\x7d\x7d` for
`\x7b\x7bfirstName\x7d\x7d` and `simpleEmailSubjectTemplate` with
`\x7b\x7b .Username\x7d\x7d` for `\x7b\x7busername\x7d\x7d`. -/
theorem C13_placeholders_normalized (U : UnicodeTables) (ch : GeneratorChoices)
    (canWrite : Str → Bool) (templates : List ParsedTemplate) (outputDir version : Str)
    (hw : ∀ pt ∈ templates, canWrite (unitPath outputDir pt) = true) :
    (∃ files, GenerateCode U ch canWrite templates outputDir version = .ok files ∧
      ∀ pt ∈ templates, ∃ u, (unitPath outputDir pt, u) ∈ files ∧
        ∀ x front back w1 d1 w2 w3 d2 w4, isIdent x = true → isBlank w1 = true →
          isTrimMarker d1 = true → isBlank w2 = true → isBlank w3 = true →
          isTrimMarker d2 = true → isBlank w4 = true →
          (pt.HTML = front ++ (placeholderText w1 d1 w2 x w3 d2 w4 ++ back) →
            ∃ c ∈ u.Consts, c.Name = htmlConstName U pt ∧
              occursIn (normalizedPlaceholder d1 x d2) c.Value) ∧
          (pt.Subject = front ++ (placeholderText w1 d1 w2 x w3 d2 w4 ++ back) →
            ∃ c ∈ u.Consts, c.Name = subjectConstName U pt ∧
              occursIn (normalizedPlaceholder d1 x d2) c.Value)) ∧
    normalizedPlaceholder [] "firstName".toList [] = "\x7b\x7b .FirstName\x7d\x7d".toList ∧
    normalizedPlaceholder ['-'] "firstName".toList ['-'] =
      "\x7b\x7b- .FirstName -\x7d\x7d".toList ∧
    (generateUnit excerptTables exampleChoices "TEST".toList
      (parsed "templates/simple.html" genSimpleTemplate)).Consts =
      [{ Name := "simpleEmailHTMLTemplate".toList,
         Value := "\n<html>\n<body>\nHi \x7b\x7b .FirstName\x7d\x7d\n</body>\n</html>\n".toList },
       { Name := "simpleEmailSubjectTemplate".toList,
         Value := "Welcome \x7b\x7b .Username\x7d\x7d".toList }] := by
  refine ⟨?_, by decide, by decide, by decide⟩
  obtain ⟨files, hok, hmem⟩ := GenerateCode_ok U ch canWrite templates outputDir version hw
  refine ⟨files, hok, ?_⟩
  intro pt hpt
  refine ⟨generateUnit U ch version pt, hmem pt hpt, ?_⟩
  intro x front back w1 d1 w2 w3 d2 w4 hx hw1 hd1 hw2 hw3 hd2 hw4
  constructor
  · intro hH
    refine ⟨_, htmlConst_mem U ch version pt, rfl, ?_⟩
    show occursIn _ (normalizeTemplate pt.HTML)
    rw [hH]
    exact normalizeTemplate_placeholder front back hw1 hd1 hw2 hx hw3 hd2 hw4
  · intro hS
    have hne : pt.Subject ≠ [] := by
      rw [hS]
      exact placeholderText_ne_nil w1 d1 w2 x w3 d2 w4 front back
    refine ⟨_, subjectConst_mem U ch version pt hne, rfl, ?_⟩
    show occursIn _ (normalizeTemplate pt.Subject)
    rw [hS]
    exact normalizeTemplate_placeholder front back hw1 hd1 hw2 hx hw3 hd2 hw4

theorem C13_placeholders_normalized_witness :
    (∀ pt ∈ [parsed "templates/simple.html" genSimpleTemplate],
      (fun _ => true) (unitPath "out".toList pt) = true) ∧
    ((∃ files, GenerateCode excerptTables exampleChoices (fun _ => true)
        [parsed "templates/simple.html" genSimpleTemplate] "out".toList "TEST".toList =
          .ok files ∧
      ∀ pt ∈ [parsed "templates/simple.html" genSimpleTemplate],
        ∃ u, (unitPath "out".toList pt, u) ∈ files ∧
        ∀ x front back w1 d1 w2 w3 d2 w4, isIdent x = true → isBlank w1 = true →
          isTrimMarker d1 = true → isBlank w2 = true → isBlank w3 = true →
          isTrimMarker d2 = true → isBlank w4 = true →
          (pt.HTML = front ++ (placeholderText w1 d1 w2 x w3 d2 w4 ++ back) →
            ∃ c ∈ u.Consts, c.Name = htmlConstName excerptTables pt ∧
              occursIn (normalizedPlaceholder d1 x d2) c.Value) ∧
          (pt.Subject = front ++ (placeholderText w1 d1 w2 x w3 d2 w4 ++ back) →
            ∃ c ∈ u.Consts, c.Name = subjectConstName excerptTables pt ∧
              occursIn (normalizedPlaceholder d1 x d2) c.Value)) ∧
    normalizedPlaceholder [] "firstName".toList [] = "\x7b\x7b .FirstName\x7d\x7d".toList ∧
    normalizedPlaceholder ['-'] "firstName".toList ['-'] =
      "\x7b\x7b- .FirstName -\x7d\x7d".toList ∧
    (generateUnit excerptTables exampleChoices "TEST".toList
      (parsed "templates/simple.html" genSimpleTemplate)).Consts =
      [{ Name := "simpleEmailHTMLTemplate".toList,
         Value := "\n<html>\n<body>\nHi \x7b\x7b .FirstName\x7d\x7d\n</body>\n</html>\n".toList },
       { Name := "simpleEmailSubjectTemplate".toList,
         Value := "Welcome \x7b\x7b .Username\x7d\x7d".toList }]) :=
  ⟨fun _ _ => rfl,
    C13_placeholders_normalized excerptTables exampleChoices (fun _ => true)
      [parsed "templates/simple.html" genSimpleTemplate] "out".toList "TEST".toList
      (fun _ _ => rfl)⟩

/-- Claim C14. When every unit can be written, `GenerateCode` emits for every template a
unit that declares the data type `<B>EmailData`, with `B` the exported name of the file
stem, and that type has for every variable of the template a field named by the
variable, first character in upper case, of the type of the variable. For `invite.html`
of the generator's test the type is `InviteEmailData` with the field `InviteLink` of
type `string`, for `simple.html` it is `SimpleEmailData` with the fields `Username` and
`FirstName`. -/
theorem C14_data_type_fields (U : UnicodeTables) (ch : GeneratorChoices)
    (canWrite : Str → Bool) (templates : List ParsedTemplate) (outputDir version : Str)
    (hw : ∀ pt ∈ templates, canWrite (unitPath outputDir pt) = true) :
    (∃ files, GenerateCode U ch canWrite templates outputDir version = .ok files ∧
      ∀ pt ∈ templates, ∃ u, (unitPath outputDir pt, u) ∈ files ∧
        ∃ t ∈ u.Types, t.Name = baseName U pt ++ "EmailData".toList ∧
          ∀ v ∈ pt.Variables,
            ({ Name := UpperFirst v.Name, Typ := v.Typ } : GoField) ∈ t.Fields) ∧
    dataType exampleChoices
        (baseName excerptTables (parsed "templates/invite.html" genInviteTemplate))
        (parsed "templates/invite.html" genInviteTemplate) =
      { Name := "InviteEmailData".toList,
        Fields := [{ Name := "InviteLink".toList, Typ := "string".toList }] } ∧
    dataType exampleChoices
        (baseName excerptTables (parsed "templates/simple.html" genSimpleTemplate))
        (parsed "templates/simple.html" genSimpleTemplate) =
      { Name := "SimpleEmailData".toList,
        Fields := [{ Name := "Username".toList, Typ := "string".toList },
          { Name := "FirstName".toList, Typ := "string".toList }] } := by
  refine ⟨?_, by decide, by decide⟩
  obtain ⟨files, hok, hmem⟩ := GenerateCode_ok U ch canWrite templates outputDir version hw
  refine ⟨files, hok, ?_⟩
  intro pt hpt
  refine ⟨generateUnit U ch version pt, hmem pt hpt, dataType ch (baseName U pt) pt,
    List.mem_cons_self _ _, rfl, ?_⟩
  intro v hv
  exact List.mem_append_left _ (List.mem_map.2 ⟨v, hv, rfl⟩)

theorem C14_data_type_fields_witness :
    (∀ pt ∈ [parsed "templates/invite.html" genInviteTemplate],
      (fun _ => true) (unitPath "out".toList pt) = true) ∧
    ((∃ files, GenerateCode excerptTables exampleChoices (fun _ => true)
        [parsed "templates/invite.html" genInviteTemplate] "out".toList "TEST".toList =
          .ok files ∧
      ∀ pt ∈ [parsed "templates/invite.html" genInviteTemplate],
        ∃ u, (unitPath "out".toList pt, u) ∈ files ∧
        ∃ t ∈ u.Types, t.Name = baseName excerptTables pt ++ "EmailData".toList ∧
          ∀ v ∈ pt.Variables,
            ({ Name := UpperFirst v.Name, Typ := v.Typ } : GoField) ∈ t.Fields) ∧
    dataType exampleChoices
        (baseName excerptTables (parsed "templates/invite.html" genInviteTemplate))
        (parsed "templates/invite.html" genInviteTemplate) =
      { Name := "InviteEmailData".toList,
        Fields := [{ Name := "InviteLink".toList, Typ := "string".toList }] } ∧
    dataType exampleChoices
        (baseName excerptTables (parsed "templates/simple.html" genSimpleTemplate))
        (parsed "templates/simple.html" genSimpleTemplate) =
      { Name := "SimpleEmailData".toList,
        Fields := [{ Name := "Username".toList, Typ := "string".toList },
          { Name := "FirstName".toList, Typ := "string".toList }] }) :=
  ⟨fun _ _ => rfl,
    C14_data_type_fields excerptTables exampleChoices (fun _ => true)
      [parsed "templates/invite.html" genInviteTemplate] "out".toList "TEST".toList
      (fun _ _ => rfl)⟩

/-- Claim C15. When every unit can be written, `GenerateCode` emits for every template
with an empty subject a unit that declares the result type `<Base>EmailResult` with the
fields `Subject` and `HTML`, does not import `text/template`, has no step of its render
function that uses the subject helper (its only step renders the body constant into the
field `HTML`) and has no subject constant (its only constant is the body constant).
Whether a unit imports `text/template` depends on the subject: it does exactly when the
subject of its template is not empty. For `nosubject.html` of the generator's test the
result type is `NosubjectEmailResult` and the only import of a helper is
`html/template`; for `simple.html`, which has a subject, `text/template` is imported
too. -/
theorem C15_no_subject_no_text_template (U : UnicodeTables) (ch : GeneratorChoices)
    (canWrite : Str → Bool) (templates : List ParsedTemplate) (outputDir version : Str)
    (hw : ∀ pt ∈ templates, canWrite (unitPath outputDir pt) = true) :
    (∃ files, GenerateCode U ch canWrite templates outputDir version = .ok files ∧
      ∀ pt ∈ templates, pt.Subject = [] → ∃ u, (unitPath outputDir pt, u) ∈ files ∧
        ({ Name := baseName U pt ++ "EmailResult".toList,
           Fields := [{ Name := "Subject".toList, Typ := "string".toList },
             { Name := "HTML".toList, Typ := "string".toList }] } : GoType) ∈ u.Types ∧
        "text/template".toList ∉ u.Imports ∧
        (∀ st ∈ u.Render, st.Helper ≠ .subject) ∧
        u.Render = [{ Helper := .body, Const := htmlConstName U pt,
                      Field := "HTML".toList }] ∧
        u.Consts = [{ Name := htmlConstName U pt, Value := normalizeTemplate pt.HTML }]) ∧
    (∀ pt : ParsedTemplate,
      "text/template".toList ∈ (generateUnit U ch version pt).Imports ↔ pt.Subject ≠ []) ∧
    (parsed "templates/nosubject.html" nosubjectTemplate).Subject = [] ∧
    resultType (baseName excerptTables (parsed "templates/nosubject.html" nosubjectTemplate)) =
      { Name := "NosubjectEmailResult".toList,
        Fields := [{ Name := "Subject".toList, Typ := "string".toList },
          { Name := "HTML".toList, Typ := "string".toList }] } ∧
    (generateUnit excerptTables exampleChoices "TEST".toList
      (parsed "templates/nosubject.html" nosubjectTemplate)).Imports =
      ["html/template".toList] ∧
    (generateUnit excerptTables exampleChoices "TEST".toList
      (parsed "templates/simple.html" genSimpleTemplate)).Imports =
      ["text/template".toList, "html/template".toList] := by
  refine ⟨?_, text_template_import_iff U ch version, by decide, by decide, by decide,
    by decide⟩
  obtain ⟨files, hok, hmem⟩ := GenerateCode_ok U ch canWrite templates outputDir version hw
  refine ⟨files, hok, ?_⟩
  intro pt hpt hS
  have hsteps : (generateUnit U ch version pt).Render =
      [{ Helper := .body, Const := htmlConstName U pt, Field := "HTML".toList }] :=
    renderSteps_of_no_subject _ pt hS
  refine ⟨generateUnit U ch version pt, hmem pt hpt,
    List.mem_cons_of_mem _ (List.mem_cons_self _ _), ?_, ?_, hsteps, ?_⟩
  · intro himp
    exact (text_template_import_iff U ch version pt).1 himp hS
  · intro st hst
    rw [hsteps, List.mem_singleton] at hst
    rw [hst]
    intro h
    cases h
  · unfold generateUnit
    simp only [if_pos hS]
    rfl

theorem C15_no_subject_no_text_template_witness :
    (∀ pt ∈ [parsed "templates/nosubject.html" nosubjectTemplate],
      (fun _ => true) (unitPath "out".toList pt) = true) ∧
    ((∃ files, GenerateCode excerptTables exampleChoices (fun _ => true)
        [parsed "templates/nosubject.html" nosubjectTemplate] "out".toList "TEST".toList =
          .ok files ∧
      ∀ pt ∈ [parsed "templates/nosubject.html" nosubjectTemplate], pt.Subject = [] →
        ∃ u, (unitPath "out".toList pt, u) ∈ files ∧
        ({ Name := baseName excerptTables pt ++ "EmailResult".toList,
           Fields := [{ Name := "Subject".toList, Typ := "string".toList },
             { Name := "HTML".toList, Typ := "string".toList }] } : GoType) ∈ u.Types ∧
        "text/template".toList ∉ u.Imports ∧
        (∀ st ∈ u.Render, st.Helper ≠ .subject) ∧
        u.Render = [{ Helper := .body, Const := htmlConstName excerptTables pt,
                      Field := "HTML".toList }] ∧
        u.Consts =
          [{ Name := htmlConstName excerptTables pt, Value := normalizeTemplate pt.HTML }]) ∧
    (∀ pt : ParsedTemplate,
      "text/template".toList ∈
        (generateUnit excerptTables exampleChoices "TEST".toList pt).Imports ↔
        pt.Subject ≠ []) ∧
    (parsed "templates/nosubject.html" nosubjectTemplate).Subject = [] ∧
    resultType (baseName excerptTables (parsed "templates/nosubject.html" nosubjectTemplate)) =
      { Name := "NosubjectEmailResult".toList,
        Fields := [{ Name := "Subject".toList, Typ := "string".toList },
          { Name := "HTML".toList, Typ := "string".toList }] } ∧
    (generateUnit excerptTables exampleChoices "TEST".toList
      (parsed "templates/nosubject.html" nosubjectTemplate)).Imports =
      ["html/template".toList] ∧
    (generateUnit excerptTables exampleChoices "TEST".toList
      (parsed "templates/simple.html" genSimpleTemplate)).Imports =
      ["text/template".toList, "html/template".toList]) :=
  ⟨fun _ _ => rfl,
    C15_no_subject_no_text_template excerptTables exampleChoices (fun _ => true)
      [parsed "templates/nosubject.html" nosubjectTemplate] "out".toList "TEST".toList
      (fun _ _ => rfl)⟩

/-- Claim C16. For every text whose lines the scanner accepts, the fields of every struct
of the result are the fields that the dotted type directives declare for the struct of
that name, in the order of the lines and with repetitions; a well-formed directive
`@type A.B T` declares the field `UpperFirst B` of type `T` for the struct
`UpperFirst A`. -/
theorem C16_fields_in_source_order (ord : RangeOrders) (path data : Str)
    (hfit : linesFit data) :
    ∃ pt, ParseFile ord path (some data) = .ok pt ∧
      (∀ s ∈ pt.Structs, s.Fields = fieldsOf (sourceLines data) s.Name) ∧
      ∀ w1 w2 A B w3 T w4, typeCommentOK w1 w2 (A ++ '.' :: B) w3 T w4 = true → '.' ∉ A →
        declaredField (typeComment w1 w2 (A ++ '.' :: B) w3 T w4) =
          some (UpperFirst A, { Name := UpperFirst B, Typ := T }) := by
  refine ⟨_, ParseFile_of_linesFit ord path hfit, ?_, ?_⟩
  · intro s hs
    exact ((mem_parseLines_Structs ord path _ s).1 hs).2
  · intro w1 w2 A B w3 T w4 hok hA
    have hdot : Contains (A ++ '.' :: B) '.' = true := by
      rw [Contains_iff]
      exact List.mem_append_right _ (List.mem_cons_self _ _)
    unfold declaredField
    rw [classify_typeComment hok]
    simp only [declField, hdot, if_true, SplitN2_dotted B hA]

theorem C16_fields_in_source_order_witness :
    linesFit orderTemplate ∧
    ∃ pt, ParseFile ⟨[], [], []⟩ [] (some orderTemplate) = .ok pt ∧
      (∀ s ∈ pt.Structs, s.Fields = fieldsOf (sourceLines orderTemplate) s.Name) ∧
      ∀ w1 w2 A B w3 T w4, typeCommentOK w1 w2 (A ++ '.' :: B) w3 T w4 = true → '.' ∉ A →
        declaredField (typeComment w1 w2 (A ++ '.' :: B) w3 T w4) =
          some (UpperFirst A, { Name := UpperFirst B, Typ := T }) :=
  ⟨by decide, C16_fields_in_source_order ⟨[], [], []⟩ [] orderTemplate (by decide)⟩

/-- Claim C17. Take two texts whose lines the scanner accepts and that have the same
lines but for bare directives `@type A` without type, which may be added, repeated,
removed or moved; if a dotted directive mentions the struct `A`, then the two results
have the same structs, each with the same fields in the same order. -/
theorem C17_bare_declaration_changes_nothing (ord1 ord2 : RangeOrders)
    (path1 path2 data1 data2 A : Str) (hfit1 : linesFit data1) (hfit2 : linesFit data2)
    (hsame : (sourceLines data1).filter (fun l => !isBareDecl A l) =
      (sourceLines data2).filter (fun l => !isBareDecl A l))
    (hA : ∃ l ∈ sourceLines data1, ∃ f, declaredField l = some (A, f)) :
    ∃ pt1 pt2, ParseFile ord1 path1 (some data1) = .ok pt1 ∧
      ParseFile ord2 path2 (some data2) = .ok pt2 ∧
      ∀ s, s ∈ pt1.Structs ↔ s ∈ pt2.Structs := by
  refine ⟨_, _, ParseFile_of_linesFit ord1 path1 hfit1, ParseFile_of_linesFit ord2 path2 hfit2, ?_⟩
  intro s
  obtain ⟨l, hl, f, hf⟩ := hA
  have hA1 : ∃ l ∈ (sourceLines data1).filter (fun l => !isBareDecl A l), ∃ f,
      declaredField l = some (A, f) :=
    ⟨l, List.mem_filter.2 ⟨hl, by simp [(mentionedStruct_of_declaredField hf).2 A]⟩, f, hf⟩
  have hA2 : ∃ l ∈ (sourceLines data2).filter (fun l => !isBareDecl A l), ∃ f,
      declaredField l = some (A, f) := by
    rw [← hsame]; exact hA1
  rw [Structs_filter_bare ord1 ord1 path1 path1 A _ hA1,
    Structs_filter_bare ord2 ord1 path2 path1 A _ hA2, hsame]

theorem C17_bare_declaration_changes_nothing_witness :
    linesFit orderTemplate ∧ linesFit orderTemplateMoved ∧
    ((sourceLines orderTemplate).filter (fun l => !isBareDecl "Order".toList l) =
      (sourceLines orderTemplateMoved).filter (fun l => !isBareDecl "Order".toList l)) ∧
    (∃ l ∈ sourceLines orderTemplate, ∃ f, declaredField l = some ("Order".toList, f)) ∧
    ∃ pt1 pt2, ParseFile ⟨[], [], []⟩ [] (some orderTemplate) = .ok pt1 ∧
      ParseFile ⟨[], [], []⟩ [] (some orderTemplateMoved) = .ok pt2 ∧
      ∀ s, s ∈ pt1.Structs ↔ s ∈ pt2.Structs :=
  have hA : ∃ l ∈ sourceLines orderTemplate, ∃ f, declaredField l = some ("Order".toList, f) :=
    ⟨"<!-- @type Order.ID int -->".toList, by decide,
      { Name := "ID".toList, Typ := "int".toList }, by decide⟩
  ⟨by decide, by decide, by decide, hA,
    C17_bare_declaration_changes_nothing ⟨[], [], []⟩ ⟨[], [], []⟩ [] [] orderTemplate
      orderTemplateMoved "Order".toList (by decide) (by decide) (by decide) hA⟩

/-- C18 does not hold: the line `<p>Hello</p><!-- @type x int --><p>Bye</p>` is taken
for a type directive, it declares the variable `x` of type `int`, and the text around
the comment is lost: the HTML is empty. -/
theorem C18_text_beside_directive_counterexample :
    classify besideTemplate = .typeDecl "x".toList "int".toList ∧
    ∃ pt, ParseFile ⟨[], [], []⟩ [] (some besideTemplate) = .ok pt ∧
      pt.HTML = [] ∧ pt.Variables = [{ Name := "x".toList, Typ := "int".toList }] :=
  ⟨by decide, _, ParseFile_of_linesFit _ _ (by decide), by decide, by decide⟩

/-- Claim C18, amended. The patterns are searched anywhere in a line. For every text
whose lines the scanner accepts, the HTML is made of the lines in which neither pattern
matches anywhere, each followed by a newline; a line that holds a well-formed subject or
type directive comment is no such line, whatever text stands before and after the
comment, so it is left out of the HTML as a whole. -/
theorem C18_directive_anywhere_in_line (ord : RangeOrders) (path data : Str)
    (hfit : linesFit data) :
    ∃ pt, ParseFile ord path (some data) = .ok pt ∧
      pt.HTML = (((sourceLines data).filter isBodyLine).map (· ++ ['\n'])).flatten ∧
      (∀ pre post w1 w2 n w3 T w4, typeCommentOK w1 w2 n w3 T w4 = true →
        isBodyLine (pre ++ (typeComment w1 w2 n w3 T w4 ++ post)) = false) ∧
      ∀ pre post w t, isBlank w = true → '\n' ∉ t →
        isBodyLine (pre ++ (subjectComment w t ++ post)) = false := by
  refine ⟨_, ParseFile_of_linesFit ord path hfit, ?_, ?_, ?_⟩
  · rw [parseLines_HTML, foldl_parseLine_htmlBuf]
    rfl
  · intro pre post w1 w2 n w3 T w4 hok
    exact isBodyLine_typeComment pre post hok
  · intro pre post w t hw ht
    exact isBodyLine_subjectComment pre post hw ht

theorem C18_directive_anywhere_in_line_witness :
    linesFit besideTemplate ∧
    ∃ pt, ParseFile ⟨[], [], []⟩ [] (some besideTemplate) = .ok pt ∧
      pt.HTML = (((sourceLines besideTemplate).filter isBodyLine).map (· ++ ['\n'])).flatten ∧
      (∀ pre post w1 w2 n w3 T w4, typeCommentOK w1 w2 n w3 T w4 = true →
        isBodyLine (pre ++ (typeComment w1 w2 n w3 T w4 ++ post)) = false) ∧
      ∀ pre post w t, isBlank w = true → '\n' ∉ t →
        isBodyLine (pre ++ (subjectComment w t ++ post)) = false :=
  ⟨by decide, C18_directive_anywhere_in_line ⟨[], [], []⟩ [] besideTemplate (by decide)⟩

/-- C19 does not hold: two orders of the map loops give, for the order template of the
tests, the structs `Order`, `User` in both orders, and for the simple template the
inferred variables `username`, `firstName` in both orders. -/
theorem C19_order_counterexample :
    (∃ pt1 pt2, ParseFile ⟨[], [], []⟩ [] (some orderTemplate) = .ok pt1 ∧
      ParseFile ⟨[1], [1], [1]⟩ [] (some orderTemplate) = .ok pt2 ∧
      pt1.Structs.map (·.Name) = ["Order".toList, "User".toList] ∧
      pt2.Structs.map (·.Name) = ["User".toList, "Order".toList] ∧
      pt1.Types = [{ Typ := "int".toList }, { Typ := "string".toList }] ∧
      pt2.Types = [{ Typ := "string".toList }, { Typ := "int".toList }]) ∧
    (∃ pt1 pt2, ParseFile ⟨[], [], []⟩ [] (some simpleTemplate) = .ok pt1 ∧
      ParseFile ⟨[1], [1], [1]⟩ [] (some simpleTemplate) = .ok pt2 ∧
      pt1.Variables.map (·.Name) = ["username".toList, "firstName".toList] ∧
      pt2.Variables.map (·.Name) = ["firstName".toList, "username".toList]) := by
  refine ⟨⟨_, _, ParseFile_of_linesFit _ _ (by decide), ParseFile_of_linesFit _ _ (by decide),
    by decide, by decide, by decide, by decide⟩,
    ⟨_, _, ParseFile_of_linesFit _ _ (by decide), ParseFile_of_linesFit _ _ (by decide),
    by decide, by decide⟩⟩

/-- Claim C19, amended. For every text whose lines the scanner accepts, two runs of
`ParseFile`, whatever order their map loops take, return templates with the same path,
subject and HTML, the same structs and the same types up to the order of the list, and
variables that are the declared ones in source order followed by the same inferred ones
up to their order. -/
theorem C19_result_up_to_order (ord1 ord2 : RangeOrders) (path data : Str)
    (hfit : linesFit data) :
    ∃ pt1 pt2, ParseFile ord1 path (some data) = .ok pt1 ∧
      ParseFile ord2 path (some data) = .ok pt2 ∧
      pt1.FilePath = pt2.FilePath ∧ pt1.Subject = pt2.Subject ∧ pt1.HTML = pt2.HTML ∧
      pt1.Structs.Perm pt2.Structs ∧ pt1.Types.Perm pt2.Types ∧
      ∃ inf1 inf2,
        pt1.Variables = declaredVariables (sourceLines data) ++ inf1 ∧
        pt2.Variables = declaredVariables (sourceLines data) ++ inf2 ∧
        inf1.Perm inf2 :=
  ⟨_, _, ParseFile_of_linesFit ord1 path hfit, ParseFile_of_linesFit ord2 path hfit,
    parseLines_orders ord1 ord2 path (sourceLines data)⟩

theorem C19_result_up_to_order_witness :
    linesFit orderTemplate ∧
    ∃ pt1 pt2, ParseFile ⟨[], [], []⟩ [] (some orderTemplate) = .ok pt1 ∧
      ParseFile ⟨[1], [1], [1]⟩ [] (some orderTemplate) = .ok pt2 ∧
      pt1.FilePath = pt2.FilePath ∧ pt1.Subject = pt2.Subject ∧ pt1.HTML = pt2.HTML ∧
      pt1.Structs.Perm pt2.Structs ∧ pt1.Types.Perm pt2.Types ∧
      ∃ inf1 inf2,
        pt1.Variables = declaredVariables (sourceLines orderTemplate) ++ inf1 ∧
        pt2.Variables = declaredVariables (sourceLines orderTemplate) ++ inf2 ∧
        inf1.Perm inf2 :=
  ⟨by decide, C19_result_up_to_order ⟨[], [], []⟩ ⟨[1], [1], [1]⟩ [] orderTemplate (by decide)⟩

/-- Claim C20. With tables of `unicode` in which the upper case of a letter is a letter,
that of a digit a digit, and upper-casing twice is upper-casing once, `MakeExportedName`
is idempotent. -/
theorem C20_MakeExportedName_idempotent (U : UnicodeTables) (hU : U.Lawful) (s : Str) :
    MakeExportedName U (MakeExportedName U s) = MakeExportedName U s := by
  obtain ⟨r, rest, h, hr, hup, hall⟩ := MakeExportedName_shape U hU s
  rw [h]
  exact MakeExportedName_fixed U r rest hr hup hall

theorem C20_MakeExportedName_idempotent_witness :
    excerptTables.Lawful ∧
    MakeExportedName excerptTables (MakeExportedName excerptTables "1a-b".toList) =
      MakeExportedName excerptTables "1a-b".toList :=
  ⟨excerptTables_lawful, C20_MakeExportedName_idempotent excerptTables excerptTables_lawful _⟩

/-- C21 does not hold: the body returned for the one line `<p>Hi</p>` that ends in two
carriage returns and a newline keeps one carriage return, and parsing that body again
returns a body without it. -/
theorem C21_reparse_counterexample :
    ∃ pt pt2, ParseFile ⟨[], [], []⟩ [] (some twoCRTemplate) = .ok pt ∧
      ParseFile ⟨[], [], []⟩ [] (some pt.HTML) = .ok pt2 ∧
      pt.HTML = "<p>Hi</p>\r\n".toList ∧ pt2.HTML = "<p>Hi</p>\n".toList ∧
      pt2.HTML ≠ pt.HTML :=
  ⟨_, _, ParseFile_of_linesFit _ _ (by decide), ParseFile_of_linesFit _ _ (by decide),
    by decide, by decide, by decide⟩

/-- Claim C21, amended. For every text whose lines the scanner accepts, parsing the
body that `ParseFile` returns succeeds again and recognises no directive: the second
result has an empty subject, no structs, no declared variable, and every one of its
variables has the type `string` and is named by a bare placeholder of the body. The
second body is the first one with one carriage return taken from the end of every line
that ends in one; it is the first body when no line of the first body ends in a
carriage return. -/
theorem C21_reparse_of_html (ord1 ord2 : RangeOrders) (path1 path2 data : Str)
    (hfit : linesFit data) :
    ∃ pt pt2, ParseFile ord1 path1 (some data) = .ok pt ∧
      ParseFile ord2 path2 (some pt.HTML) = .ok pt2 ∧
      (∀ l ∈ sourceLines pt.HTML, classify l = .body) ∧
      pt2.Subject = [] ∧ pt2.Structs = [] ∧ declaredVariables (sourceLines pt.HTML) = [] ∧
      (∀ v ∈ pt2.Variables, v.Typ = "string".toList ∧ isIdent v.Name = true ∧
        barePlaceholderIn v.Name pt2.HTML) ∧
      pt2.HTML =
        (((sourceLines data).filter isBodyLine).map (fun l => dropCR l ++ ['\n'])).flatten ∧
      ((∀ l ∈ sourceLines data, isBodyLine l = true → dropCR l = l) → pt2.HTML = pt.HTML) := by
  have hsl := (sourceLines_HTML ord1 path1 _ (sourceLines_no_newline data)).2
  have hb : ∀ l ∈ sourceLines (parseLines ord1 path1 (sourceLines data)).HTML,
      isBodyLine l = true := by
    intro l hl
    rw [hsl] at hl
    obtain ⟨l0, hl0, rfl⟩ := List.mem_map.1 hl
    exact isBodyLine_dropCR (List.mem_filter.1 hl0).2
  obtain ⟨hS, hSt, hdecl, hH, _⟩ := parseLines_of_body_lines ord2 path2 _ hb
  have hH2 : (parseLines ord2 path2
      (sourceLines (parseLines ord1 path1 (sourceLines data)).HTML)).HTML =
      (((sourceLines data).filter isBodyLine).map (fun l => dropCR l ++ ['\n'])).flatten := by
    rw [hH, hsl, List.map_map]
    rfl
  refine ⟨_, _, ParseFile_of_linesFit ord1 path1 hfit,
    ParseFile_of_linesFit ord2 path2 (linesFit_HTML ord1 path1 data hfit),
    fun l hl => (classify_eq_body_iff l).2 (hb l hl), hS, hSt, hdecl,
    inferred_of_body_lines ord2 path2 _ hb, hH2, ?_⟩
  intro hcr
  rw [hH2, parseLines_HTML, foldl_parseLine_htmlBuf]
  have : ((sourceLines data).filter isBodyLine).map (fun l => dropCR l ++ ['\n']) =
      ((sourceLines data).filter isBodyLine).map (· ++ ['\n']) := by
    apply List.map_congr_left
    intro l hl
    rw [hcr l (List.mem_filter.1 hl).1 (List.mem_filter.1 hl).2]
  rw [this]
  rfl

theorem C21_reparse_of_html_witness :
    linesFit simpleTemplate ∧
    ∃ pt pt2, ParseFile ⟨[], [], []⟩ [] (some simpleTemplate) = .ok pt ∧
      ParseFile ⟨[], [], []⟩ [] (some pt.HTML) = .ok pt2 ∧
      (∀ l ∈ sourceLines pt.HTML, classify l = .body) ∧
      pt2.Subject = [] ∧ pt2.Structs = [] ∧ declaredVariables (sourceLines pt.HTML) = [] ∧
      (∀ v ∈ pt2.Variables, v.Typ = "string".toList ∧ isIdent v.Name = true ∧
        barePlaceholderIn v.Name pt2.HTML) ∧
      pt2.HTML =
        (((sourceLines simpleTemplate).filter isBodyLine).map
          (fun l => dropCR l ++ ['\n'])).flatten ∧
      ((∀ l ∈ sourceLines simpleTemplate, isBodyLine l = true → dropCR l = l) →
        pt2.HTML = pt.HTML) :=
  ⟨by decide, C21_reparse_of_html ⟨[], [], []⟩ ⟨[], [], []⟩ [] [] simpleTemplate (by decide)⟩

end Mailc
